import Mathlib

/-!
# CHIP-8 interpreter: a shallow embedding of `chip8.hpp` / `chip8.cpp`

The C++ class `chip8` is embedded as a record of naturals and of functions
`Nat → Nat` (one per C array).  Machine integers are naturals; every place
where the C++ code truncates to 8 or 16 bits carries an explicit `% 256` or
`% 65536`.  An array access whose index lies outside the declared bounds has no
defined behaviour in C++; the embedding makes every such access explicit and
returns `none` for it, so `none` never stands for an error *reported* by the
program (the program reports nothing in that situation).
-/

set_option linter.unusedVariables false

/-! ## Data model (`chip8.hpp`) -/

/-- Messages the interpreter writes to `std::cerr`, with the opcode printed after them. -/
inductive Diag where
  /-- The text `Unknown opcode [0x0000]: ` followed by the opcode. -/
  | unknown0 (opcode : Nat)
  /-- The text `Invalid 5XY? opcode` (used by both the 5XY? and the 9XY? arm). -/
  | invalid5XY
  /-- The text `Unknown opcode [0xE000]: ` followed by the opcode. -/
  | unknownE (opcode : Nat)
  /-- The text `Unknown FX opcode: ` followed by the opcode. -/
  | unknownFX (opcode : Nat)
  /-- The text `Unknown opcode: ` followed by the opcode (outer default arm). -/
  | unknown (opcode : Nat)
  deriving DecidableEq, Repr

/-- The members of `class chip8`.  The last field is not a member: it records what has been
written to `std::cerr` so far (most recent message first). -/
structure chip8 where
  /-- The member `uint16_t opcode`. -/
  opcode : Nat
  /-- The member `uint8_t memory[4096]`. -/
  memory : Nat → Nat
  /-- The member `uint8_t V[16]`. -/
  V : Nat → Nat
  /-- The member `uint16_t I`. -/
  I : Nat
  /-- The member `uint16_t pc`. -/
  pc : Nat
  /-- The member `uint8_t gfx[64 * 32]`. -/
  gfx : Nat → Nat
  /-- The member `bool drawFlag`. -/
  drawFlag : Bool
  /-- The member `uint8_t delay_timer`. -/
  delay_timer : Nat
  /-- The member `uint8_t sound_timer`. -/
  sound_timer : Nat
  /-- The member `uint16_t stack[16]`. -/
  stack : Nat → Nat
  /-- The member `uint16_t sp`. -/
  sp : Nat
  /-- The member `uint8_t key[16]`. -/
  key : Nat → Nat
  /-- Output written to `std::cerr`. -/
  cerr : List Diag

/-- Assignment `a[i] = v` to an array cell. -/
def upd (a : Nat → Nat) (i v : Nat) : Nat → Nat :=
  fun j => if j = i then v else a j

/-- The call `std::memset(a, v, sizeof(a))` on an array of `size` cells. -/
def memsetArr (size : Nat) (a : Nat → Nat) (v : Nat) : Nat → Nat :=
  fun j => if j < size then v else a j

/-- Read of `a[i]` from an array declared with `size` cells; `none` when `i` is out of bounds. -/
def readArr (size : Nat) (a : Nat → Nat) (i : Nat) : Option Nat :=
  if i < size then some (a i) else none

/-- Write `a[i] = v` to an array declared with `size` cells; `none` when `i` is out of bounds. -/
def writeArr (size : Nat) (a : Nat → Nat) (i v : Nat) : Option (Nat → Nat) :=
  if i < size then some (upd a i v) else none

/-- The values a C++ object of class `chip8` can hold: every cell fits its declared width. -/
structure chip8.WF (s : chip8) : Prop where
  opcode_lt : s.opcode < 65536
  memory_lt : ∀ a, a < 4096 → s.memory a < 256
  V_lt : ∀ i, i < 16 → s.V i < 256
  I_lt : s.I < 65536
  pc_lt : s.pc < 65536
  gfx_lt : ∀ i, i < 2048 → s.gfx i < 256
  delay_lt : s.delay_timer < 256
  sound_lt : s.sound_timer < 256
  stack_lt : ∀ i, i < 16 → s.stack i < 65536
  sp_lt : s.sp < 65536
  key_lt : ∀ i, i < 16 → s.key i < 256

/-! ## Font table and constructor (`chip8.cpp`, lines 14-60) -/

/-- The table `chip8_fontset[80]`. -/
def chip8_fontset : List Nat :=
  [0xF0, 0x90, 0x90, 0x90, 0xF0,
   0x20, 0x60, 0x20, 0x20, 0x70,
   0xF0, 0x10, 0xF0, 0x80, 0xF0,
   0xF0, 0x10, 0xF0, 0x10, 0xF0,
   0x90, 0x90, 0xF0, 0x10, 0x10,
   0xF0, 0x80, 0xF0, 0x10, 0xF0,
   0xF0, 0x80, 0xF0, 0x90, 0xF0,
   0xF0, 0x10, 0x20, 0x40, 0x40,
   0xF0, 0x90, 0xF0, 0x90, 0xF0,
   0xF0, 0x90, 0xF0, 0x10, 0xF0,
   0xF0, 0x90, 0xF0, 0x90, 0x90,
   0xE0, 0x90, 0xE0, 0x90, 0xE0,
   0xF0, 0x80, 0x80, 0x80, 0xF0,
   0xE0, 0x90, 0x90, 0x90, 0xE0,
   0xF0, 0x80, 0xF0, 0x80, 0xF0,
   0xF0, 0x80, 0xF0, 0x80, 0x80]

/-- The loop `for (int i = 0; i < 80; ++i) memory[0x50 + i] = chip8_fontset[i];`, run for the
`n` remaining iterations starting at `i`. -/
def loadFontset : (n : Nat) → (i : Nat) → (Nat → Nat) → (Nat → Nat)
  | 0, _, memory => memory
  | n + 1, i, memory => loadFontset n (i + 1) (upd memory (0x50 + i) (chip8_fontset.getD i 0))

/-- The constructor `chip8::chip8()`. -/
def chip8.ctor : chip8 where
  pc := 0x200
  opcode := 0
  I := 0
  sp := 0
  drawFlag := false
  gfx := fun _ => 0
  stack := fun _ => 0
  V := fun _ => 0
  memory := loadFontset 80 0 (fun _ => 0)
  key := fun _ => 0
  delay_timer := 0
  sound_timer := 0
  cerr := []

/-- The member `setKey(k, pressed)`: `key[k] = pressed`, with `k` a `uint8_t`. -/
def chip8.setKey (s : chip8) (k : Nat) (pressed : Bool) : Option chip8 :=
  (writeArr 16 s.key k (if pressed then 1 else 0)).map fun key => { s with key := key }

/-- The member `resetDrawFlag()`. -/
def chip8.resetDrawFlag (s : chip8) : chip8 :=
  { s with drawFlag := false }

/-! ## Program loader (`chip8.cpp`, lines 62-81) -/

/-- The two `std::runtime_error`s thrown by `loadROM`. -/
inductive LoadError where
  /-- The error `Failed to open ROM: …`. -/
  | failedToOpen
  /-- The error `ROM too large to fit in memory`. -/
  | tooLarge
  deriving DecidableEq, Repr

/-- The loop `for (i = 0; i < buffer.size(); ++i) memory[0x200 + i] = (uint8_t) buffer[i];`
over the bytes still to be copied, `i` being the index of the first of them. -/
def copyROM : List Nat → Nat → (Nat → Nat) → (Nat → Nat)
  | [], _, memory => memory
  | b :: rest, i, memory => copyROM rest (i + 1) (upd memory (0x200 + i) (b % 256))

/-- The member `loadROM(filename)`.  The file system is outside the program: `rom` is `none`
when the file cannot be opened and otherwise the bytes of the file.  The result pairs what the
call throws, if anything, with the object as the call leaves it. -/
def chip8.loadROM (s : chip8) (rom : Option (List Nat)) : Except LoadError Unit × chip8 :=
  match rom with
  | none => (.error .failedToOpen, s)
  | some buffer =>
    if buffer.length > 4096 - 0x200 then (.error .tooLarge, s)
    else (.ok (), { s with memory := copyROM buffer 0 s.memory })

/-- The machine as `main` starts it: constructed, then loaded with the bytes of a ROM. -/
def chip8.withProgram (bytes : List Nat) : chip8 :=
  (chip8.ctor.loadROM (some bytes)).2

/-! ## Fetch-decode-execute cycle (`chip8.cpp`, lines 83-505) -/

/-- The 16-bit big-endian word `memory[a] << 8 | memory[a + 1]`. -/
def wordAt (memory : Nat → Nat) (a : Nat) : Option Nat := do
  let hi ← readArr 4096 memory a
  let lo ← readArr 4096 memory (a + 1)
  pure (((hi <<< 8) ||| lo) % 65536)

/-- The fetch `opcode = memory[pc] << 8 | memory[pc + 1]`. -/
def chip8.fetch (s : chip8) : Option Nat :=
  wordAt s.memory s.pc

/-- The statement `pc += n` on the 16-bit program counter. -/
def chip8.advance (s : chip8) (n : Nat) : chip8 :=
  { s with pc := (s.pc + n) % 65536 }

/-- The body of the `if` inside the two loops of DXYN for one set sprite bit:
the wrapped coordinates, the collision test and the XOR of the pixel. -/
def plot (x y row col : Nat) (s : chip8) : Option chip8 := do
  let px := (x + col) % 64
  let py := (y + row) % 32
  let index := px + py * 64
  let old ← readArr 2048 s.gfx index
  let V := if old = 1 then upd s.V 0xF 1 else s.V
  let gfx ← writeArr 2048 s.gfx index ((old ^^^ 1) % 256)
  pure { s with V := V, gfx := gfx }

/-- The inner loop `for (int col = 0; col < 8; col++)` of DXYN, run for the `n` remaining
iterations starting at `col`. -/
def drawCols (x y row spriteByte : Nat) : (n : Nat) → (col : Nat) → chip8 → Option chip8
  | 0, _, s => some s
  | n + 1, col, s =>
    if spriteByte &&& (0x80 >>> col) ≠ 0 then
      (plot x y row col s).bind (drawCols x y row spriteByte n (col + 1))
    else
      drawCols x y row spriteByte n (col + 1) s

/-- The outer loop `for (int row = 0; row < height; row++)` of DXYN, run for the `n`
remaining iterations starting at `row`. -/
def drawRows (x y : Nat) : (n : Nat) → (row : Nat) → chip8 → Option chip8
  | 0, _, s => some s
  | n + 1, row, s =>
    (readArr 4096 s.memory (s.I + row)).bind fun spriteByte =>
      (drawCols x y row spriteByte 8 0 s).bind (drawRows x y n (row + 1))

/-- The key scan `for (int i = 0; i < 16; i++) if (key[i]) { …; break; }` of FX0A, run for
the `n` remaining iterations starting at `i`: the first index whose key is down, if any. -/
def scanKeys (key : Nat → Nat) : (n : Nat) → (i : Nat) → Option Nat
  | 0, _ => none
  | n + 1, i => if key i ≠ 0 then some i else scanKeys key n (i + 1)

/-- The loop `for (int i = 0; i <= x; i++) memory[I + i] = V[i];` of FX55, run for the `n`
remaining iterations starting at `i`. -/
def storeRegs : (n : Nat) → (i : Nat) → chip8 → Option chip8
  | 0, _, s => some s
  | n + 1, i, s =>
    (writeArr 4096 s.memory (s.I + i) (s.V i)).bind fun memory =>
      storeRegs n (i + 1) { s with memory := memory }

/-- The loop `for (int i = 0; i <= x; i++) V[i] = memory[I + i];` of FX65, run for the `n`
remaining iterations starting at `i`. -/
def loadRegs : (n : Nat) → (i : Nat) → chip8 → Option chip8
  | 0, _, s => some s
  | n + 1, i, s =>
    (readArr 4096 s.memory (s.I + i)).bind fun b =>
      loadRegs n (i + 1) { s with V := upd s.V i b }

/-- The arm `case 0x0000` of the outer switch. -/
def exec0 (s : chip8) : Option chip8 :=
  if s.opcode &&& 0x00FF = 0x00E0 then
    some ({ s with gfx := memsetArr 2048 s.gfx 0 }.advance 2)
  else if s.opcode &&& 0x00FF = 0x00EE then
    let sp := (s.sp + 65535) % 65536
    (readArr 16 s.stack sp).map fun ret => { s with sp := sp, pc := ret }
  else
    some { s with cerr := Diag.unknown0 s.opcode :: s.cerr }

/-- The arm `case 0x8000` of the outer switch (the ALU family), with its trailing `pc += 2`. -/
def exec8 (s : chip8) : chip8 :=
  let x := (s.opcode &&& 0x0F00) >>> 8
  let y := (s.opcode &&& 0x00F0) >>> 4
  let n := s.opcode &&& 0x000F
  let s1 : chip8 :=
    if n = 0x0 then { s with V := upd s.V x (s.V y) }
    else if n = 0x1 then { s with V := upd s.V x (s.V x ||| s.V y) }
    else if n = 0x2 then { s with V := upd s.V x (s.V x &&& s.V y) }
    else if n = 0x3 then { s with V := upd s.V x (s.V x ^^^ s.V y) }
    else if n = 0x4 then
      let sum := (s.V x + s.V y) % 65536
      let V1 := upd s.V 0xF (if sum > 0xFF then 1 else 0)
      { s with V := upd V1 x (sum &&& 0xFF) }
    else if n = 0x5 then
      let V1 := upd s.V 0xF (if s.V x ≥ s.V y then 1 else 0)
      { s with V := upd V1 x ((V1 x + 256 - V1 y) % 256) }
    else if n = 0x7 then
      let V1 := upd s.V 0xF (if s.V y ≥ s.V x then 1 else 0)
      { s with V := upd V1 x ((V1 y + 256 - V1 x) % 256) }
    else if n = 0x6 then
      let V1 := upd s.V 0xF (s.V x &&& 0x1)
      { s with V := upd V1 x (V1 x >>> 1) }.advance 2
    else if n = 0xE then
      let V1 := upd s.V 0xF ((s.V x &&& 0x80) >>> 7)
      { s with V := upd V1 x ((V1 x <<< 1) % 256) }.advance 2
    else s
  s1.advance 2

/-- The arm `case 0xD000` of the outer switch (DXYN). -/
def execD (s : chip8) : Option chip8 :=
  let x := s.V ((s.opcode &&& 0x0F00) >>> 8)
  let y := s.V ((s.opcode &&& 0x00F0) >>> 4)
  let height := s.opcode &&& 0x000F
  (drawRows x y height 0 { s with V := upd s.V 0xF 0 }).map fun s1 =>
    { s1.advance 2 with drawFlag := true }

/-- The arm `case 0xE000` of the outer switch. -/
def execE (s : chip8) : Option chip8 :=
  let x := (s.opcode &&& 0x0F00) >>> 8
  if s.opcode &&& 0x00FF = 0x9E then
    (readArr 16 s.key (s.V x)).map fun k => if k ≠ 0 then s.advance 4 else s.advance 2
  else if s.opcode &&& 0x00FF = 0xA1 then
    (readArr 16 s.key (s.V x)).map fun k => if k = 0 then s.advance 4 else s.advance 2
  else
    some { s with cerr := Diag.unknownE s.opcode :: s.cerr }

/-- The arm `case 0xF000` of the outer switch. -/
def execF (s : chip8) : Option chip8 :=
  let x := (s.opcode &&& 0x0F00) >>> 8
  let nn := s.opcode &&& 0x00FF
  if nn = 0x07 then some ({ s with V := upd s.V x s.delay_timer }.advance 2)
  else if nn = 0x15 then some ({ s with delay_timer := s.V x }.advance 2)
  else if nn = 0x18 then some ({ s with sound_timer := s.V x }.advance 2)
  else if nn = 0x1E then
    let I1 := (s.I + s.V x) % 65536
    some ({ s with V := upd s.V 0xF (if I1 > 0x0FFF then 1 else 0), I := I1 &&& 0x0FFF }.advance 2)
  else if nn = 0x0A then
    match scanKeys s.key 16 0 with
    | some i => some ({ s with V := upd s.V x i }.advance 2)
    | none => some s
  else if nn = 0x29 then some ({ s with I := 0x50 + (s.V x &&& 0x0F) * 5 }.advance 2)
  else if nn = 0x33 then
    (writeArr 4096 s.memory s.I (s.V x / 100)).bind fun m1 =>
    (writeArr 4096 m1 (s.I + 1) ((s.V x / 10) % 10)).bind fun m2 =>
    (writeArr 4096 m2 (s.I + 2) (s.V x % 10)).map fun m3 =>
      { s with memory := m3 }.advance 2
  else if nn = 0x55 then (storeRegs (x + 1) 0 s).map fun s1 => s1.advance 2
  else if nn = 0x65 then (loadRegs (x + 1) 0 s).map fun s1 => s1.advance 2
  else some { s with cerr := Diag.unknownFX s.opcode :: s.cerr }

/-- The outer `switch (opcode & 0xF000)`.  `rnd` is the value the call `rand()` returns when
CXNN makes it. -/
def chip8.execute (rnd : Nat) (s : chip8) : Option chip8 :=
  let opcode := s.opcode
  let top := opcode &&& 0xF000
  let x := (opcode &&& 0x0F00) >>> 8
  let y := (opcode &&& 0x00F0) >>> 4
  let nn := opcode &&& 0x00FF
  if top = 0x0000 then exec0 s
  else if top = 0x1000 then some { s with pc := opcode &&& 0x0FFF }
  else if top = 0x2000 then
    (writeArr 16 s.stack s.sp ((s.pc + 2) % 65536)).map fun stack =>
      { s with stack := stack, sp := (s.sp + 1) % 65536, pc := opcode &&& 0x0FFF }
  else if top = 0x3000 then some (if s.V x = nn then s.advance 4 else s.advance 2)
  else if top = 0x4000 then some (if s.V x ≠ nn then s.advance 4 else s.advance 2)
  else if top = 0x5000 then
    if opcode &&& 0x000F ≠ 0 then some { s with cerr := Diag.invalid5XY :: s.cerr }
    else some (if s.V x = s.V y then s.advance 4 else s.advance 2)
  else if top = 0x9000 then
    if opcode &&& 0x000F ≠ 0 then some { s with cerr := Diag.invalid5XY :: s.cerr }
    else some (if s.V x ≠ s.V y then s.advance 4 else s.advance 2)
  else if top = 0x6000 then some ({ s with V := upd s.V x nn }.advance 2)
  else if top = 0x7000 then some ({ s with V := upd s.V x ((s.V x + nn) % 256) }.advance 2)
  else if top = 0x8000 then some (exec8 s)
  else if top = 0xA000 then some ({ s with I := opcode &&& 0x0FFF }.advance 2)
  else if top = 0xB000 then some { s with pc := ((opcode &&& 0x0FFF) + s.V 0) % 65536 }
  else if top = 0xC000 then some ({ s with V := upd s.V x ((rnd &&& 0xFF) &&& nn) }.advance 2)
  else if top = 0xD000 then execD s
  else if top = 0xE000 then execE s
  else if top = 0xF000 then execF s
  else some { s with cerr := Diag.unknown opcode :: s.cerr }

/-- The timer update that closes `emulateCycle`. -/
def chip8.updateTimers (s : chip8) : chip8 :=
  let s1 := if s.delay_timer > 0 then { s with delay_timer := s.delay_timer - 1 } else s
  if s1.sound_timer > 0 then { s1 with sound_timer := s1.sound_timer - 1 } else s1

/-- The member `emulateCycle()`: fetch, decode and execute, then update the timers. -/
def chip8.emulateCycle (rnd : Nat) (s : chip8) : Option chip8 :=
  s.fetch.bind fun opcode =>
    (chip8.execute rnd { s with opcode := opcode }).map chip8.updateTimers

/-- Repeated calls of `emulateCycle()`, the `i`-th of them with `rnd i` as the value of
`rand()`. -/
def chip8.run (rnd : Nat → Nat) : (n : Nat) → chip8 → Option chip8
  | 0, s => some s
  | n + 1, s => (s.emulateCycle (rnd 0)).bind (chip8.run (fun i => rnd (i + 1)) n)

/-! ## Vocabulary of the sprite claims -/

/-- The framebuffer index `px + py * 64` that DXYN computes for the sprite bit in row `row`
and column `col`, with `x = VX` and `y = VY`. -/
def pixIndex (x y row col : Nat) : Nat :=
  (x + col) % 64 + (y + row) % 32 * 64

/-- The mask `m(px, py)` of the draw claims: a sprite of `N` rows at `memory[I ..]`, drawn at
(`x`, `y`), has a set bit (bit `7 - col` of `memory[I + row]`) that lands on pixel
(`px`, `py`). -/
def spriteMask (memory : Nat → Nat) (I x y N px py : Nat) : Prop :=
  ∃ row, row < N ∧ ∃ col, col < 8 ∧ (memory (I + row)).testBit (7 - col) = true ∧
    px = (x + col) % 64 ∧ py = (y + row) % 32

instance (memory : Nat → Nat) (I x y N px py : Nat) :
    Decidable (spriteMask memory I x y N px py) := by
  unfold spriteMask
  infer_instance

/-- The collision condition of the draw claims: some pixel of the mask is on in `gfx`. -/
def spriteCollides (memory gfx : Nat → Nat) (I x y N : Nat) : Prop :=
  ∃ px, px < 64 ∧ ∃ py, py < 32 ∧ spriteMask memory I x y N px py ∧ gfx (px + 64 * py) = 1

instance (memory gfx : Nat → Nat) (I x y N : Nat) :
    Decidable (spriteCollides memory gfx I x y N) := by
  unfold spriteCollides
  infer_instance

/-- Loop position of DXYN: the sprite bit (`row`, `col`) has been visited when the loops
stand at row `r`, column `c`. -/
def visited (r c row col : Nat) : Prop :=
  row < r ∨ (row = r ∧ col < c)

/-- Some set sprite bit visited before loop position (`r`, `c`) was drawn at framebuffer
index `i`; `s0` is the state when the loops start. -/
def hitBefore (s0 : chip8) (x y r c i : Nat) : Prop :=
  ∃ row col, visited r c row col ∧ col < 8 ∧
    s0.memory (s0.I + row) &&& (0x80 >>> col) ≠ 0 ∧ pixIndex x y row col = i

/-- Some set sprite bit visited before loop position (`r`, `c`) was drawn on a pixel that was
on when the loops started. -/
def collidedBefore (s0 : chip8) (x y r c : Nat) : Prop :=
  ∃ row col, visited r c row col ∧ col < 8 ∧
    s0.memory (s0.I + row) &&& (0x80 >>> col) ≠ 0 ∧ s0.gfx (pixIndex x y row col) = 1

/-- Loop invariant of DXYN at loop position (`r`, `c`): the framebuffer is the initial one
with the visited set bits toggled, `VF` tells whether one of them hit a lit pixel, and
nothing else has changed since the loops started in `s0`. -/
structure DrawInv (s0 : chip8) (x y r c : Nat) (s : chip8) : Prop where
  opcode_eq : s.opcode = s0.opcode
  memory_eq : s.memory = s0.memory
  I_eq : s.I = s0.I
  pc_eq : s.pc = s0.pc
  drawFlag_eq : s.drawFlag = s0.drawFlag
  delay_eq : s.delay_timer = s0.delay_timer
  sound_eq : s.sound_timer = s0.sound_timer
  stack_eq : s.stack = s0.stack
  sp_eq : s.sp = s0.sp
  key_eq : s.key = s0.key
  cerr_eq : s.cerr = s0.cerr
  V_other : ∀ i, i ≠ 0xF → s.V i = s0.V i
  gfx_hit : ∀ i, hitBefore s0 x y r c i → s.gfx i = s0.gfx i ^^^ 1
  gfx_miss : ∀ i, ¬ hitBefore s0 x y r c i → s.gfx i = s0.gfx i
  VF_hit : collidedBefore s0 x y r c → s.V 0xF = 1
  VF_miss : ¬ collidedBefore s0 x y r c → s.V 0xF = 0

/-! ## Vocabulary of the invariant claims -/

/-- The instruction held in `s.opcode` is a store (FX33 or FX55) that writes memory byte `a`:
FX33 writes `memory[I .. I+2]`, FX55 writes `memory[I .. I+X]`. -/
def storesInto (s : chip8) (a : Nat) : Prop :=
  s.opcode / 4096 % 16 = 15 ∧
    ((s.opcode % 256 = 0x33 ∧ s.I ≤ a ∧ a ≤ s.I + 2) ∨
     (s.opcode % 256 = 0x55 ∧ s.I ≤ a ∧ a ≤ s.I + s.opcode / 256 % 16))

/-- The font table is in place: `memory[0x50 + 5*d + k]` is byte `k` of the glyph of digit
`d`, for every digit and every `k < 5`. -/
def fontIntact (s : chip8) : Prop :=
  ∀ d k, d < 16 → k < 5 → chip8_fontset[5 * d + k]? = some (s.memory (0x50 + 5 * d + k))

/-- The states the host can bring the machine into: it constructs the machine, loads ROMs,
updates the keypad, clears the draw flag and runs cycles (those with defined behaviour). -/
inductive Reachable : chip8 → Prop where
  | ctor : Reachable chip8.ctor
  | loadROM (s : chip8) (rom : Option (List Nat)) : Reachable s → Reachable (s.loadROM rom).2
  | setKey (s s' : chip8) (k : Nat) (pressed : Bool) :
      Reachable s → s.setKey k pressed = some s' → Reachable s'
  | resetDrawFlag (s : chip8) : Reachable s → Reachable s.resetDrawFlag
  | emulateCycle (s s' : chip8) (rnd : Nat) :
      Reachable s → s.emulateCycle rnd = some s' → Reachable s'

/-- Every cell of the 64 × 32 framebuffer holds 0 or 1. -/
def gfxBinary (s : chip8) : Prop :=
  ∀ i, i < 2048 → s.gfx i = 0 ∨ s.gfx i = 1

/-! ## Generic facts about array cells -/

theorem upd_same (a : Nat → Nat) (i v : Nat) : upd a i v i = v := by
  simp [upd]

theorem upd_other (a : Nat → Nat) (i v j : Nat) (h : j ≠ i) : upd a i v j = a j := by
  simp [upd, h]

/-! ## Constructor -/

theorem loadFontset_apply (n : Nat) : ∀ (i : Nat) (memory : Nat → Nat) (a : Nat),
    loadFontset n i memory a =
      if 0x50 + i ≤ a ∧ a < 0x50 + i + n then chip8_fontset.getD (a - 0x50) 0 else memory a := by
  induction n with
  | zero =>
    intro i memory a
    have h : ¬ (0x50 + i ≤ a ∧ a < 0x50 + i + 0) := by omega
    rw [loadFontset, if_neg h]
  | succ n ih =>
    intro i memory a
    rw [loadFontset, ih]
    by_cases h1 : 0x50 + (i + 1) ≤ a ∧ a < 0x50 + (i + 1) + n
    · have h2 : 0x50 + i ≤ a ∧ a < 0x50 + i + (n + 1) := by omega
      rw [if_pos h1, if_pos h2]
    · rw [if_neg h1]
      by_cases h3 : a = 0x50 + i
      · have h2 : 0x50 + i ≤ a ∧ a < 0x50 + i + (n + 1) := by omega
        rw [if_pos h2, h3, upd_same]
        congr 1
        omega
      · have h2 : ¬ (0x50 + i ≤ a ∧ a < 0x50 + i + (n + 1)) := by omega
        rw [if_neg h2, upd_other _ _ _ _ h3]

theorem ctor_memory (a : Nat) :
    chip8.ctor.memory a =
      if 0x50 ≤ a ∧ a < 0xA0 then chip8_fontset.getD (a - 0x50) 0 else 0 := by
  show loadFontset 80 0 (fun _ => 0) a = _
  rw [loadFontset_apply]

/-- C1: after construction pc = 0x200, sp = 0, I = 0, both timers are 0, the draw flag is
false, every register, stack slot, key and framebuffer cell is 0, `memory[0x50 + 5*d + k]` is
byte `k` of the glyph of digit `d` (entry `5*d + k` of `chip8_fontset`), and every memory byte
outside `[0x50, 0xA0)` is 0. -/
theorem C1_constructor_state :
    chip8.ctor.pc = 0x200 ∧ chip8.ctor.sp = 0 ∧ chip8.ctor.I = 0 ∧
    chip8.ctor.delay_timer = 0 ∧ chip8.ctor.sound_timer = 0 ∧ chip8.ctor.drawFlag = false ∧
    (∀ i, i < 16 → chip8.ctor.V i = 0) ∧
    (∀ i, i < 16 → chip8.ctor.stack i = 0) ∧
    (∀ i, i < 16 → chip8.ctor.key i = 0) ∧
    (∀ i, i < 64 * 32 → chip8.ctor.gfx i = 0) ∧
    (∀ d k, d < 16 → k < 5 →
      chip8_fontset[5 * d + k]? = some (chip8.ctor.memory (0x50 + 5 * d + k))) ∧
    (∀ a, a < 4096 → ¬ (0x50 ≤ a ∧ a < 0xA0) → chip8.ctor.memory a = 0) := by
  refine ⟨rfl, rfl, rfl, rfl, rfl, rfl, fun _ _ => rfl, fun _ _ => rfl, fun _ _ => rfl,
    fun _ _ => rfl, ?_, ?_⟩
  · intro d k hd hk
    have hr : 0x50 ≤ 0x50 + 5 * d + k ∧ 0x50 + 5 * d + k < 0xA0 := by omega
    have hlen : 5 * d + k < chip8_fontset.length := by
      have : chip8_fontset.length = 80 := rfl
      omega
    rw [ctor_memory, if_pos hr]
    have hidx : 0x50 + 5 * d + k - 0x50 = 5 * d + k := by omega
    rw [hidx, List.getD_eq_getElem _ _ hlen, List.getElem?_eq_getElem hlen]
  · intro a _ ha
    rw [ctor_memory, if_neg ha]

/-! ## Program loader -/

theorem copyROM_apply (buffer : List Nat) : ∀ (i : Nat) (memory : Nat → Nat) (a : Nat),
    copyROM buffer i memory a =
      if 0x200 + i ≤ a ∧ a < 0x200 + i + buffer.length
      then buffer.getD (a - (0x200 + i)) 0 % 256 else memory a := by
  induction buffer with
  | nil =>
    intro i memory a
    have h : ¬ (0x200 + i ≤ a ∧ a < 0x200 + i + ([] : List Nat).length) := by
      simp only [List.length_nil]; omega
    rw [copyROM, if_neg h]
  | cons b rest ih =>
    intro i memory a
    rw [copyROM, ih]
    simp only [List.length_cons]
    by_cases h1 : 0x200 + (i + 1) ≤ a ∧ a < 0x200 + (i + 1) + rest.length
    · have h2 : 0x200 + i ≤ a ∧ a < 0x200 + i + (rest.length + 1) := by omega
      have h3 : a - (0x200 + i) = (a - (0x200 + (i + 1))) + 1 := by omega
      rw [if_pos h1, if_pos h2, h3, List.getD_cons_succ]
    · rw [if_neg h1]
      by_cases h3 : a = 0x200 + i
      · have h2 : 0x200 + i ≤ a ∧ a < 0x200 + i + (rest.length + 1) := by omega
        have h4 : a - (0x200 + i) = 0 := by omega
        rw [if_pos h2, h4, List.getD_cons_zero, h3, upd_same]
      · have h2 : ¬ (0x200 + i ≤ a ∧ a < 0x200 + i + (rest.length + 1)) := by omega
        rw [if_neg h2, upd_other _ _ _ _ h3]

/-- C2: loading a byte sequence of length `L`.  If `L ≤ 0xE00` the load throws nothing,
`memory[0x200 + i] = bytes[i]` for every `i < L`, every other memory byte is unchanged and so
is every other member; if `L > 0xE00` the load throws the `too large` error and leaves the
whole object unchanged. -/
theorem C2_loadROM (s : chip8) (bytes : List Nat) (hbytes : ∀ b, b ∈ bytes → b < 256) :
    (bytes.length ≤ 0xE00 →
      (s.loadROM (some bytes)).1 = .ok () ∧
      (∀ i, i < bytes.length → bytes[i]? = some ((s.loadROM (some bytes)).2.memory (0x200 + i))) ∧
      (∀ a, ¬ (0x200 ≤ a ∧ a < 0x200 + bytes.length) →
        (s.loadROM (some bytes)).2.memory a = s.memory a) ∧
      (s.loadROM (some bytes)).2.V = s.V ∧
      (s.loadROM (some bytes)).2.I = s.I ∧
      (s.loadROM (some bytes)).2.pc = s.pc ∧
      (s.loadROM (some bytes)).2.sp = s.sp ∧
      (s.loadROM (some bytes)).2.stack = s.stack ∧
      (s.loadROM (some bytes)).2.delay_timer = s.delay_timer ∧
      (s.loadROM (some bytes)).2.sound_timer = s.sound_timer ∧
      (s.loadROM (some bytes)).2.key = s.key ∧
      (s.loadROM (some bytes)).2.gfx = s.gfx ∧
      (s.loadROM (some bytes)).2.drawFlag = s.drawFlag ∧
      (s.loadROM (some bytes)).2.opcode = s.opcode) ∧
    (0xE00 < bytes.length →
      (s.loadROM (some bytes)).1 = .error LoadError.tooLarge ∧
      (s.loadROM (some bytes)).2 = s) := by
  constructor
  · intro hlen
    have hgt : ¬ (bytes.length > 4096 - 0x200) := by omega
    have hload : s.loadROM (some bytes) =
        (.ok (), { s with memory := copyROM bytes 0 s.memory }) := by
      simp only [chip8.loadROM, if_neg hgt]
    rw [hload]
    refine ⟨rfl, ?_, ?_, rfl, rfl, rfl, rfl, rfl, rfl, rfl, rfl, rfl, rfl, rfl⟩
    · intro i hi
      have hr : 0x200 + 0 ≤ 0x200 + i ∧ 0x200 + i < 0x200 + 0 + bytes.length := by omega
      have hidx : 0x200 + i - (0x200 + 0) = i := by omega
      have hb : bytes[i] < 256 := hbytes _ (List.getElem_mem hi)
      show bytes[i]? = some (copyROM bytes 0 s.memory (0x200 + i))
      rw [copyROM_apply, if_pos hr, hidx, List.getD_eq_getElem _ _ hi,
        List.getElem?_eq_getElem hi, Nat.mod_eq_of_lt hb]
    · intro a ha
      have hr : ¬ (0x200 + 0 ≤ a ∧ a < 0x200 + 0 + bytes.length) := by omega
      show copyROM bytes 0 s.memory a = s.memory a
      rw [copyROM_apply, if_neg hr]
  · intro hlen
    have hgt : bytes.length > 4096 - 0x200 := by omega
    have hload : s.loadROM (some bytes) = (.error LoadError.tooLarge, s) := by
      simp only [chip8.loadROM, if_pos hgt]
    rw [hload]
    exact ⟨rfl, rfl⟩

/-- C2 at a two-byte program loaded into the freshly constructed machine. -/
theorem C2_loadROM_witness :
    (chip8.ctor.loadROM (some [0x12, 0x00])).1 = .ok () ∧
    (chip8.ctor.loadROM (some [0x12, 0x00])).2.memory 0x200 = 0x12 ∧
    (chip8.ctor.loadROM (some [0x12, 0x00])).2.pc = chip8.ctor.pc :=
  have h := (C2_loadROM chip8.ctor [0x12, 0x00] (by decide)).1 (by decide)
  ⟨h.1, (Option.some.inj (h.2.1 0 (by decide))).symm, h.2.2.2.2.2.1⟩

/-! ## The constructed and the loaded machine are well-formed objects -/

theorem chip8_fontset_lt (i : Nat) : chip8_fontset.getD i 0 < 256 := by
  by_cases h : i < chip8_fontset.length
  · rw [List.getD_eq_getElem _ _ h]
    have hall : ∀ b, b ∈ chip8_fontset → b < 256 := by decide
    exact hall _ (List.getElem_mem h)
  · rw [List.getD_eq_default _ _ (by omega)]
    decide

theorem ctor_WF : chip8.ctor.WF where
  opcode_lt := by decide
  memory_lt := by
    intro a _
    rw [ctor_memory]
    split_ifs
    · exact chip8_fontset_lt _
    · decide
  V_lt := fun _ _ => Nat.zero_lt_succ 255
  I_lt := by decide
  pc_lt := by decide
  gfx_lt := fun _ _ => Nat.zero_lt_succ 255
  delay_lt := by decide
  sound_lt := by decide
  stack_lt := fun _ _ => Nat.zero_lt_succ 65535
  sp_lt := by decide
  key_lt := fun _ _ => Nat.zero_lt_succ 255

theorem loadROM_WF (s : chip8) (rom : Option (List Nat)) (h : s.WF) : (s.loadROM rom).2.WF := by
  cases rom with
  | none => exact h
  | some buffer =>
    by_cases hlen : buffer.length > 4096 - 0x200
    · simp only [chip8.loadROM, if_pos hlen]
      exact h
    · simp only [chip8.loadROM, if_neg hlen]
      exact { h with
          memory_lt := by
            intro a ha
            show copyROM buffer 0 s.memory a < 256
            rw [copyROM_apply]
            split_ifs
            · exact Nat.mod_lt _ (by decide)
            · exact h.memory_lt a ha }

/-! ## Decoding: the masks of `emulateCycle` as quotients and remainders -/

theorem land_F000 (op : Nat) : op &&& 0xF000 = (op / 4096 % 16) * 4096 := by
  apply Nat.eq_of_testBit_eq
  intro i
  have h1 : (0xF000 : Nat) = 2 ^ 12 * (2 ^ 4 - 1) := by norm_num
  have h2 : (4096 : Nat) = 2 ^ 12 := by norm_num
  have h3 : (16 : Nat) = 2 ^ 4 := by norm_num
  rw [Nat.testBit_and, h1, h2, h3, Nat.mul_comm (op / 2 ^ 12 % 2 ^ 4), Nat.testBit_mul_pow_two,
    Nat.testBit_mul_pow_two, Nat.testBit_two_pow_sub_one, Nat.testBit_mod_two_pow,
    ← Nat.shiftRight_eq_div_pow, Nat.testBit_shiftRight]
  by_cases h : i ≥ 12
  · have : 12 + (i - 12) = i := by omega
    simp [h, this, Bool.and_comm]
  · simp [h]

theorem land_0F00 (op : Nat) : (op &&& 0x0F00) >>> 8 = op / 256 % 16 := by
  apply Nat.eq_of_testBit_eq
  intro i
  have h1 : (0x0F00 : Nat) = 2 ^ 8 * (2 ^ 4 - 1) := by norm_num
  have h2 : (256 : Nat) = 2 ^ 8 := by norm_num
  have h3 : (16 : Nat) = 2 ^ 4 := by norm_num
  rw [Nat.testBit_shiftRight, Nat.testBit_and, h1, h2, h3, Nat.testBit_mul_pow_two,
    Nat.testBit_two_pow_sub_one, Nat.testBit_mod_two_pow,
    ← Nat.shiftRight_eq_div_pow, Nat.testBit_shiftRight]
  have : 8 + i - 8 = i := by omega
  have h8 : 8 + i ≥ 8 := by omega
  simp [this, h8, Bool.and_comm, Nat.add_comm]

theorem land_00F0 (op : Nat) : (op &&& 0x00F0) >>> 4 = op / 16 % 16 := by
  apply Nat.eq_of_testBit_eq
  intro i
  have h1 : (0x00F0 : Nat) = 2 ^ 4 * (2 ^ 4 - 1) := by norm_num
  have h3 : (16 : Nat) = 2 ^ 4 := by norm_num
  rw [Nat.testBit_shiftRight, Nat.testBit_and, h1, h3, Nat.testBit_mul_pow_two,
    Nat.testBit_two_pow_sub_one, Nat.testBit_mod_two_pow,
    ← Nat.shiftRight_eq_div_pow, Nat.testBit_shiftRight]
  have : 4 + i - 4 = i := by omega
  have h8 : 4 + i ≥ 4 := by omega
  simp [this, h8, Bool.and_comm, Nat.add_comm]

theorem land_0FFF (op : Nat) : op &&& 0x0FFF = op % 4096 :=
  Nat.and_pow_two_sub_one_eq_mod op 12

theorem land_00FF (op : Nat) : op &&& 0x00FF = op % 256 :=
  Nat.and_pow_two_sub_one_eq_mod op 8

theorem land_000F (op : Nat) : op &&& 0x000F = op % 16 :=
  Nat.and_pow_two_sub_one_eq_mod op 4

/-! ## Dispatch of the outer switch -/

theorem execute_0 (rnd : Nat) (s : chip8) (h : s.opcode / 4096 % 16 = 0) :
    chip8.execute rnd s = exec0 s := by
  simp only [chip8.execute, land_F000, h]
  rfl

theorem execute_2 (rnd : Nat) (s : chip8) (h : s.opcode / 4096 % 16 = 2) :
    chip8.execute rnd s =
      (writeArr 16 s.stack s.sp ((s.pc + 2) % 65536)).map fun stack =>
        { s with stack := stack, sp := (s.sp + 1) % 65536, pc := s.opcode % 4096 } := by
  simp only [chip8.execute, land_F000, land_0FFF, h]
  rfl

theorem execute_8 (rnd : Nat) (s : chip8) (h : s.opcode / 4096 % 16 = 8) :
    chip8.execute rnd s = some (exec8 s) := by
  simp only [chip8.execute, land_F000, h]
  rfl

theorem execute_D (rnd : Nat) (s : chip8) (h : s.opcode / 4096 % 16 = 13) :
    chip8.execute rnd s = execD s := by
  simp only [chip8.execute, land_F000, h]
  rfl

theorem execute_E (rnd : Nat) (s : chip8) (h : s.opcode / 4096 % 16 = 14) :
    chip8.execute rnd s = execE s := by
  simp only [chip8.execute, land_F000, h]
  rfl

theorem execute_F (rnd : Nat) (s : chip8) (h : s.opcode / 4096 % 16 = 15) :
    chip8.execute rnd s = execF s := by
  simp only [chip8.execute, land_F000, h]
  rfl

/-! ## The cycle as a whole -/

theorem emulateCycle_of_fetch (rnd : Nat) (s : chip8) (op : Nat) (h : s.fetch = some op) :
    s.emulateCycle rnd = (chip8.execute rnd { s with opcode := op }).map chip8.updateTimers := by
  simp only [chip8.emulateCycle, h, Option.some_bind]

@[simp] theorem updateTimers_opcode (s : chip8) : s.updateTimers.opcode = s.opcode := by
  unfold chip8.updateTimers
  by_cases hd : s.delay_timer > 0 <;> by_cases hs : s.sound_timer > 0 <;> simp [hd, hs]

@[simp] theorem updateTimers_memory (s : chip8) : s.updateTimers.memory = s.memory := by
  unfold chip8.updateTimers
  by_cases hd : s.delay_timer > 0 <;> by_cases hs : s.sound_timer > 0 <;> simp [hd, hs]

@[simp] theorem updateTimers_V (s : chip8) : s.updateTimers.V = s.V := by
  unfold chip8.updateTimers
  by_cases hd : s.delay_timer > 0 <;> by_cases hs : s.sound_timer > 0 <;> simp [hd, hs]

@[simp] theorem updateTimers_I (s : chip8) : s.updateTimers.I = s.I := by
  unfold chip8.updateTimers
  by_cases hd : s.delay_timer > 0 <;> by_cases hs : s.sound_timer > 0 <;> simp [hd, hs]

@[simp] theorem updateTimers_pc (s : chip8) : s.updateTimers.pc = s.pc := by
  unfold chip8.updateTimers
  by_cases hd : s.delay_timer > 0 <;> by_cases hs : s.sound_timer > 0 <;> simp [hd, hs]

@[simp] theorem updateTimers_gfx (s : chip8) : s.updateTimers.gfx = s.gfx := by
  unfold chip8.updateTimers
  by_cases hd : s.delay_timer > 0 <;> by_cases hs : s.sound_timer > 0 <;> simp [hd, hs]

@[simp] theorem updateTimers_drawFlag (s : chip8) : s.updateTimers.drawFlag = s.drawFlag := by
  unfold chip8.updateTimers
  by_cases hd : s.delay_timer > 0 <;> by_cases hs : s.sound_timer > 0 <;> simp [hd, hs]

@[simp] theorem updateTimers_stack (s : chip8) : s.updateTimers.stack = s.stack := by
  unfold chip8.updateTimers
  by_cases hd : s.delay_timer > 0 <;> by_cases hs : s.sound_timer > 0 <;> simp [hd, hs]

@[simp] theorem updateTimers_sp (s : chip8) : s.updateTimers.sp = s.sp := by
  unfold chip8.updateTimers
  by_cases hd : s.delay_timer > 0 <;> by_cases hs : s.sound_timer > 0 <;> simp [hd, hs]

@[simp] theorem updateTimers_key (s : chip8) : s.updateTimers.key = s.key := by
  unfold chip8.updateTimers
  by_cases hd : s.delay_timer > 0 <;> by_cases hs : s.sound_timer > 0 <;> simp [hd, hs]

@[simp] theorem updateTimers_cerr (s : chip8) : s.updateTimers.cerr = s.cerr := by
  unfold chip8.updateTimers
  by_cases hd : s.delay_timer > 0 <;> by_cases hs : s.sound_timer > 0 <;> simp [hd, hs]

theorem updateTimers_delay_timer (s : chip8) :
    s.updateTimers.delay_timer = s.delay_timer - 1 := by
  unfold chip8.updateTimers
  by_cases hd : s.delay_timer > 0 <;> by_cases hs : s.sound_timer > 0 <;>
    simp [hd, hs] <;> omega

theorem updateTimers_sound_timer (s : chip8) :
    s.updateTimers.sound_timer = s.sound_timer - 1 := by
  unfold chip8.updateTimers
  by_cases hd : s.delay_timer > 0 <;> by_cases hs : s.sound_timer > 0 <;>
    simp [hd, hs] <;> omega

theorem wordAt_bounds (memory : Nat → Nat) (a op : Nat) (h : wordAt memory a = some op) :
    a + 1 < 4096 ∧ op < 65536 := by
  unfold wordAt readArr at h
  by_cases h1 : a < 4096 <;> by_cases h2 : a + 1 < 4096 <;>
    simp [h1, h2] at h
  refine ⟨h2, ?_⟩
  rw [← h]
  exact Nat.mod_lt _ (by decide)

/-! ## Call and return -/

/-- C3: with `sp < 16`, the word 2NNN at `pc` and the word 00EE at `NNN` (both words inside
the 4096 bytes of memory, which is what `wordAt … = some …` says), the first cycle sets
`pc = NNN`, `sp = sp + 1` and `stack[old sp] = old pc + 2`, and the second cycle brings `pc`
to the old `pc + 2` and `sp` to its old value. -/
theorem C3_call_ret_round_trip (rnd1 rnd2 : Nat) (s : chip8) (NNN : Nat)
    (hsp : s.sp < 16)
    (hcall : wordAt s.memory s.pc = some (0x2000 + NNN))
    (hret : wordAt s.memory NNN = some 0x00EE) :
    s.pc + 1 < 4096 ∧ NNN + 1 < 4096 ∧
    ∃ s1 s2, s.emulateCycle rnd1 = some s1 ∧ s1.emulateCycle rnd2 = some s2 ∧
      s1.pc = NNN ∧ s1.sp = s.sp + 1 ∧ s1.stack s.sp = s.pc + 2 ∧
      s2.pc = s.pc + 2 ∧ s2.sp = s.sp := by
  have hb1 := (wordAt_bounds _ _ _ hcall).1
  have hb2 := (wordAt_bounds _ _ _ hret).1
  refine ⟨hb1, hb2, ?_⟩
  have hN : NNN < 4096 := by omega
  -- first cycle: CALL
  have hw : writeArr 16 s.stack s.sp ((s.pc + 2) % 65536) = some (upd s.stack s.sp (s.pc + 2)) := by
    have : (s.pc + 2) % 65536 = s.pc + 2 := Nat.mod_eq_of_lt (by omega)
    simp only [writeArr, if_pos hsp, this]
  obtain ⟨s1, h1, hpc, hsp1, hstack, hmem⟩ : ∃ s1, s.emulateCycle rnd1 = some s1 ∧ s1.pc = NNN ∧
      s1.sp = s.sp + 1 ∧ s1.stack = upd s.stack s.sp (s.pc + 2) ∧ s1.memory = s.memory := by
    have e1 : (s.sp + 1) % 65536 = s.sp + 1 := Nat.mod_eq_of_lt (by omega)
    have e2 : (0x2000 + NNN) % 4096 = NNN := by omega
    have hd : (0x2000 + NNN) / 4096 % 16 = 2 := by omega
    rw [emulateCycle_of_fetch rnd1 s _ hcall, execute_2 _ _ hd]
    simp only [hw, Option.map_some', e1, e2]
    exact ⟨_, rfl, updateTimers_pc _, updateTimers_sp _, updateTimers_stack _,
      updateTimers_memory _⟩
  -- second cycle: RET
  have hf2 : s1.fetch = some 0x00EE := by
    unfold chip8.fetch
    rw [hmem, hpc]
    exact hret
  have e3 : (s1.sp + 65535) % 65536 = s.sp := by omega
  have hr : readArr 16 s1.stack s.sp = some (s.pc + 2) := by
    rw [hstack]
    simp only [readArr, if_pos hsp, upd_same]
  obtain ⟨s2, h2, hpc2, hsp2⟩ : ∃ s2, s1.emulateCycle rnd2 = some s2 ∧ s2.pc = s.pc + 2 ∧
      s2.sp = s.sp := by
    have hd : (0x00EE : Nat) / 4096 % 16 = 0 := by decide
    have hE0 : ¬ ((0x00EE : Nat) % 256 = 0x00E0) := by decide
    have hEE : (0x00EE : Nat) % 256 = 0x00EE := by decide
    rw [emulateCycle_of_fetch rnd2 s1 _ hf2, execute_0 _ _ hd]
    simp only [exec0, land_00FF, if_neg hE0, if_pos hEE, e3, hr, Option.map_some']
    exact ⟨_, rfl, updateTimers_pc _, updateTimers_sp _⟩
  refine ⟨s1, s2, h1, h2, hpc, hsp1, ?_, hpc2, hsp2⟩
  rw [hstack, upd_same]

/-- C3 at the program `CALL 0x204` (at 0x200) … `RET` (at 0x204) on the constructed machine. -/
theorem C3_call_ret_round_trip_witness :
    ∃ s1 s2, (chip8.withProgram [0x22, 0x04, 0, 0, 0x00, 0xEE]).emulateCycle 0 = some s1 ∧
      s1.emulateCycle 0 = some s2 ∧ s1.pc = 0x204 ∧ s1.sp = 1 ∧ s1.stack 0 = 0x202 ∧
      s2.pc = 0x202 ∧ s2.sp = 0 :=
  (C3_call_ret_round_trip 0 0 (chip8.withProgram [0x22, 0x04, 0, 0, 0x00, 0xEE]) 0x204
    (by decide) (by rfl) (by rfl)).2.2

/-! ## ALU family -/

theorem exec8_add (s : chip8) (X Y : Nat) (hX : X < 16) (hY : Y < 16)
    (hop : s.opcode = 0x8004 + 0x100 * X + 0x10 * Y) :
    exec8 s = { s with
      V := upd (upd s.V 0xF (if (s.V X + s.V Y) % 65536 > 0xFF then 1 else 0)) X
            ((s.V X + s.V Y) % 65536 % 256),
      pc := (s.pc + 2) % 65536 } := by
  have hx : s.opcode / 256 % 16 = X := by omega
  have hy : s.opcode / 16 % 16 = Y := by omega
  have hn : s.opcode % 16 = 4 := by omega
  simp only [exec8, land_0F00, land_00F0, land_000F, land_00FF, hx, hy, hn, chip8.advance]
  rfl

theorem exec8_sub (s : chip8) (X Y : Nat) (hX : X < 16) (hY : Y < 16)
    (hop : s.opcode = 0x8005 + 0x100 * X + 0x10 * Y) :
    exec8 s = { s with
      V := upd (upd s.V 0xF (if s.V X ≥ s.V Y then 1 else 0)) X
            ((upd s.V 0xF (if s.V X ≥ s.V Y then 1 else 0) X + 256 -
              upd s.V 0xF (if s.V X ≥ s.V Y then 1 else 0) Y) % 256),
      pc := (s.pc + 2) % 65536 } := by
  have hx : s.opcode / 256 % 16 = X := by omega
  have hy : s.opcode / 16 % 16 = Y := by omega
  have hn : s.opcode % 16 = 5 := by omega
  simp only [exec8, land_0F00, land_00F0, land_000F, hx, hy, hn, chip8.advance]
  rfl

/-- C4: on opcode 8XY4 with `X ≠ 0xF`, one cycle sets `VX` to `(VX + VY) mod 256` and `VF` to
1 if `VX + VY > 255` and to 0 otherwise (old values of `VX`, `VY`; `Y` may be `0xF` or `X`),
leaves every other register unchanged and advances `pc` by exactly 2. -/
theorem C4_add_with_carry (rnd : Nat) (s : chip8) (X Y : Nat)
    (hV : ∀ i, i < 16 → s.V i < 256)
    (hX : X < 16) (hXF : X ≠ 0xF) (hY : Y < 16)
    (hop : s.fetch = some (0x8004 + 0x100 * X + 0x10 * Y)) :
    ∃ s', s.emulateCycle rnd = some s' ∧
      s'.V X = (s.V X + s.V Y) % 256 ∧
      s'.V 0xF = (if s.V X + s.V Y > 255 then 1 else 0) ∧
      (∀ i, i < 16 → i ≠ X → i ≠ 0xF → s'.V i = s.V i) ∧
      s'.pc = s.pc + 2 := by
  have hpc := (wordAt_bounds _ _ _ hop).1
  have hd : (0x8004 + 0x100 * X + 0x10 * Y) / 4096 % 16 = 8 := by omega
  have hx := hV X hX
  have hy := hV Y hY
  have hsum : (s.V X + s.V Y) % 65536 = s.V X + s.V Y := Nat.mod_eq_of_lt (by omega)
  rw [emulateCycle_of_fetch rnd s _ hop, execute_8 _ _ hd,
    exec8_add _ X Y hX hY rfl, Option.map_some']
  refine ⟨_, rfl, ?_, ?_, ?_, ?_⟩
  · simp only [updateTimers_V, upd_same, hsum]
  · simp only [updateTimers_V, hsum]
    rw [upd_other _ _ _ _ (Ne.symm hXF), upd_same]
  · intro i _ hiX hiF
    simp only [updateTimers_V]
    rw [upd_other _ _ _ _ hiX, upd_other _ _ _ _ hiF]
  · simp only [updateTimers_pc]
    exact Nat.mod_eq_of_lt (by omega)

/-- C4 at the two examples of the claim: `V0 = 0xFF`, `V1 = 0x01` gives `V0 = 0x00`, `VF = 1`;
`V0 = 0x01`, `V1 = 0x01` gives `V0 = 0x02`, `VF = 0` (opcode 8014 at 0x200). -/
theorem C4_add_with_carry_witness :
    (∃ s', ({ chip8.withProgram [0x80, 0x14] with
              V := upd (upd (fun _ => 0) 0 0xFF) 1 0x01 } : chip8).emulateCycle 0 = some s' ∧
      s'.V 0 = 0x00 ∧ s'.V 0xF = 1 ∧ s'.V 1 = 0x01 ∧ s'.pc = 0x202) ∧
    (∃ s', ({ chip8.withProgram [0x80, 0x14] with
              V := upd (upd (fun _ => 0) 0 0x01) 1 0x01 } : chip8).emulateCycle 0 = some s' ∧
      s'.V 0 = 0x02 ∧ s'.V 0xF = 0 ∧ s'.V 1 = 0x01 ∧ s'.pc = 0x202) :=
  ⟨(C4_add_with_carry 0
      { chip8.withProgram [0x80, 0x14] with V := upd (upd (fun _ => 0) 0 0xFF) 1 0x01 } 0 1
      (by decide) (by decide) (by decide) (by decide) (by rfl)).imp
      fun _ h => ⟨h.1, h.2.1, h.2.2.1, h.2.2.2.1 1 (by decide) (by decide) (by decide), h.2.2.2.2⟩,
   (C4_add_with_carry 0
      { chip8.withProgram [0x80, 0x14] with V := upd (upd (fun _ => 0) 0 0x01) 1 0x01 } 0 1
      (by decide) (by decide) (by decide) (by decide) (by rfl)).imp
      fun _ h => ⟨h.1, h.2.1, h.2.2.1, h.2.2.2.1 1 (by decide) (by decide) (by decide), h.2.2.2.2⟩⟩

/-- What 8XY5 does when the subtrahend is not `VF`: on opcode 8XY5 with `X ≠ 0xF` and
`Y ≠ 0xF`, one cycle sets `VX` to `(VX - VY) mod 256` and `VF` to 1 if `VX ≥ VY`, else 0. -/
theorem sub_8XY5_of_Y_ne_F (rnd : Nat) (s : chip8) (X Y : Nat)
    (hV : ∀ i, i < 16 → s.V i < 256)
    (hX : X < 16) (hXF : X ≠ 0xF) (hY : Y < 16) (hYF : Y ≠ 0xF)
    (hop : s.fetch = some (0x8005 + 0x100 * X + 0x10 * Y)) :
    ∃ s', s.emulateCycle rnd = some s' ∧
      s'.V X = (s.V X + 256 - s.V Y) % 256 ∧
      s'.V 0xF = (if s.V X ≥ s.V Y then 1 else 0) := by
  have hd : (0x8005 + 0x100 * X + 0x10 * Y) / 4096 % 16 = 8 := by omega
  rw [emulateCycle_of_fetch rnd s _ hop, execute_8 _ _ hd,
    exec8_sub _ X Y hX hY rfl, Option.map_some']
  refine ⟨_, rfl, ?_, ?_⟩
  · simp only [updateTimers_V, upd_same]
    rw [upd_other _ _ _ _ hXF, upd_other _ _ _ _ hYF]
  · simp only [updateTimers_V]
    rw [upd_other _ _ _ _ (Ne.symm hXF), upd_same]

/-- C5, the code at `X = 0`, `Y = 0xF`, `V0 = 5`, `VF = 3`, opcode 80F5: the flag is written to
`VF` before the subtraction reads `VY = VF`, so the cycle leaves `V0 = 5 - 1 = 4` (and
`VF = 1`), although `(V0 - VF) mod 256` of the values before the cycle is 2. -/
theorem C5_sub_reads_overwritten_VF :
    ∃ s', ({ chip8.withProgram [0x80, 0xF5] with
              V := upd (upd (fun _ => 0) 0 5) 0xF 3 } : chip8).emulateCycle 0 = some s' ∧
      s'.V 0 = 4 ∧ s'.V 0xF = 1 ∧
      (({ chip8.withProgram [0x80, 0xF5] with
              V := upd (upd (fun _ => 0) 0 5) 0xF 3 } : chip8).V 0 + 256 -
        ({ chip8.withProgram [0x80, 0xF5] with
              V := upd (upd (fun _ => 0) 0 5) 0xF 3 } : chip8).V 0xF) % 256 = 2 := by
  have hf : ({ chip8.withProgram [0x80, 0xF5] with
              V := upd (upd (fun _ => 0) 0 5) 0xF 3 } : chip8).fetch = some 0x80F5 := by rfl
  rw [emulateCycle_of_fetch 0 _ _ hf, execute_8 _ _ (by rfl),
    exec8_sub _ 0 0xF (by decide) (by decide) (by rfl), Option.map_some']
  exact ⟨_, rfl, by rw [updateTimers_V]; decide, by rw [updateTimers_V]; decide, by decide⟩

/-! ## Blocking key wait (FX0A) -/

theorem scanKeys_none (key : Nat → Nat) (n : Nat) : ∀ i,
    (∀ j, i ≤ j → j < i + n → key j = 0) → scanKeys key n i = none := by
  induction n with
  | zero => intro i _; rfl
  | succ n ih =>
    intro i h
    have h0 : ¬ (key i ≠ 0) := by
      have := h i (Nat.le_refl i) (by omega)
      simp [this]
    rw [scanKeys, if_neg h0]
    exact ih (i + 1) (fun j h1 h2 => h j (by omega) (by omega))

theorem scanKeys_first (key : Nat → Nat) (k : Nat) (hk : key k ≠ 0) (n : Nat) : ∀ i,
    i ≤ k → k < i + n → (∀ j, i ≤ j → j < k → key j = 0) → scanKeys key n i = some k := by
  induction n with
  | zero => intro i h1 h2 _; omega
  | succ n ih =>
    intro i h1 h2 h
    by_cases hik : i = k
    · subst hik
      rw [scanKeys, if_pos hk]
    · have h0 : ¬ (key i ≠ 0) := by
        have := h i (Nat.le_refl i) (by omega)
        simp [this]
      rw [scanKeys, if_neg h0]
      exact ih (i + 1) (by omega) (by omega) (fun j h3 h4 => h j (by omega) h4)

theorem execF_keyWait (s : chip8) (X : Nat) (hX : X < 16) (hop : s.opcode = 0xF00A + 0x100 * X) :
    execF s = match scanKeys s.key 16 0 with
      | some i => some ({ s with V := upd s.V X i }.advance 2)
      | none => some s := by
  have hx : s.opcode / 256 % 16 = X := by omega
  have hn : s.opcode % 256 = 0x0A := by omega
  simp only [execF, land_0F00, land_00FF, hx, hn]
  rfl

/-- The state one blocked FX0A cycle leaves: only `opcode` and the timers differ. -/
theorem keyWait_blocked_step (rnd : Nat) (s : chip8) (X : Nat) (hX : X < 16)
    (hop : s.fetch = some (0xF00A + 0x100 * X)) (hkeys : ∀ i, i < 16 → s.key i = 0) :
    ∃ s', s.emulateCycle rnd = some s' ∧ s'.pc = s.pc ∧ s'.V = s.V ∧ s'.I = s.I ∧
      s'.sp = s.sp ∧ s'.stack = s.stack ∧ s'.memory = s.memory ∧ s'.gfx = s.gfx ∧
      s'.key = s.key ∧ s'.drawFlag = s.drawFlag ∧ s'.cerr = s.cerr ∧
      s'.delay_timer = s.delay_timer - 1 ∧ s'.sound_timer = s.sound_timer - 1 := by
  have hd : (0xF00A + 0x100 * X) / 4096 % 16 = 15 := by omega
  have hscan : scanKeys s.key 16 0 = none :=
    scanKeys_none s.key 16 0 (fun j _ h2 => hkeys j (by omega))
  rw [emulateCycle_of_fetch rnd s _ hop, execute_F _ _ hd, execF_keyWait _ X hX rfl]
  simp only [hscan, Option.map_some']
  exact ⟨_, rfl, updateTimers_pc _, updateTimers_V _, updateTimers_I _, updateTimers_sp _,
    updateTimers_stack _, updateTimers_memory _, updateTimers_gfx _, updateTimers_key _,
    updateTimers_drawFlag _, updateTimers_cerr _, updateTimers_delay_timer _,
    updateTimers_sound_timer _⟩

theorem keyWait_blocked_run (X : Nat) (hX : X < 16) (n : Nat) :
    ∀ (rnd : Nat → Nat) (s : chip8),
    s.fetch = some (0xF00A + 0x100 * X) → (∀ i, i < 16 → s.key i = 0) →
    ∃ sn, chip8.run rnd n s = some sn ∧ sn.pc = s.pc ∧ sn.V = s.V ∧ sn.I = s.I ∧
      sn.sp = s.sp ∧ sn.stack = s.stack ∧ sn.memory = s.memory ∧ sn.gfx = s.gfx := by
  induction n with
  | zero => intro rnd s _ _; exact ⟨s, rfl, rfl, rfl, rfl, rfl, rfl, rfl, rfl⟩
  | succ n ih =>
    intro rnd s hop hkeys
    obtain ⟨s', hs', hpc, hV, hI, hsp, hst, hmem, hgfx, hkey, -, -, -, -⟩ :=
      keyWait_blocked_step (rnd 0) s X hX hop hkeys
    have hop' : s'.fetch = some (0xF00A + 0x100 * X) := by
      unfold chip8.fetch at hop ⊢
      rw [hmem, hpc]; exact hop
    obtain ⟨sn, hsn, h1, h2, h3, h4, h5, h6, h7⟩ :=
      ih (fun i => rnd (i + 1)) s' hop' (by rw [hkey]; exact hkeys)
    refine ⟨sn, ?_, h1.trans hpc, h2.trans hV, h3.trans hI, h4.trans hsp, h5.trans hst,
      h6.trans hmem, h7.trans hgfx⟩
    rw [chip8.run, hs', Option.some_bind, hsn]

/-- C8: with FX0A at `pc`.  If no key is down, one cycle leaves `pc`, every register, `I`,
`sp`, the stack, memory and the framebuffer unchanged and each timer one lower (or at 0), and
any number of cycles leaves `pc` (and the rest) fixed.  If `k` is the smallest index of a key
that is down, one cycle sets `VX = k`, leaves the other registers unchanged and advances `pc`
by exactly 2. -/
theorem C8_key_wait (rnd : Nat) (s : chip8) (X : Nat) (hX : X < 16)
    (hop : s.fetch = some (0xF00A + 0x100 * X)) :
    ((∀ i, i < 16 → s.key i = 0) →
      (∃ s', s.emulateCycle rnd = some s' ∧ s'.pc = s.pc ∧ s'.V = s.V ∧ s'.I = s.I ∧
        s'.sp = s.sp ∧ s'.stack = s.stack ∧ s'.memory = s.memory ∧ s'.gfx = s.gfx ∧
        s'.delay_timer = s.delay_timer - 1 ∧ s'.sound_timer = s.sound_timer - 1) ∧
      (∀ (rnds : Nat → Nat) (n : Nat), ∃ sn, chip8.run rnds n s = some sn ∧ sn.pc = s.pc ∧
        sn.V = s.V ∧ sn.I = s.I ∧ sn.sp = s.sp ∧ sn.stack = s.stack ∧
        sn.memory = s.memory ∧ sn.gfx = s.gfx)) ∧
    (∀ k, k < 16 → s.key k ≠ 0 → (∀ j, j < k → s.key j = 0) →
      ∃ s', s.emulateCycle rnd = some s' ∧ s'.V X = k ∧
        (∀ i, i < 16 → i ≠ X → s'.V i = s.V i) ∧ s'.pc = s.pc + 2) := by
  constructor
  · intro hkeys
    constructor
    · obtain ⟨s', h, h1, h2, h3, h4, h5, h6, h7, -, -, -, h8, h9⟩ :=
        keyWait_blocked_step rnd s X hX hop hkeys
      exact ⟨s', h, h1, h2, h3, h4, h5, h6, h7, h8, h9⟩
    · intro rnds n
      exact keyWait_blocked_run X hX n rnds s hop hkeys
  · intro k hk hkey hfirst
    have hpc := (wordAt_bounds _ _ _ hop).1
    have hd : (0xF00A + 0x100 * X) / 4096 % 16 = 15 := by omega
    have hscan : scanKeys s.key 16 0 = some k :=
      scanKeys_first s.key k hkey 16 0 (Nat.zero_le k) (by omega) (fun j _ h2 => hfirst j h2)
    rw [emulateCycle_of_fetch rnd s _ hop, execute_F _ _ hd, execF_keyWait _ X hX rfl]
    simp only [hscan, Option.map_some']
    refine ⟨_, rfl, ?_, ?_, ?_⟩
    · simp only [updateTimers_V, chip8.advance, upd_same]
    · intro i _ hi
      simp only [updateTimers_V, chip8.advance]
      exact upd_other _ _ _ _ hi
    · simp only [updateTimers_pc, chip8.advance]
      exact Nat.mod_eq_of_lt (by omega)

/-- C8 at `F30A` on the constructed machine, with no key down and with key 7 down. -/
theorem C8_key_wait_witness :
    (∃ sn, chip8.run (fun _ => 0) 3 (chip8.withProgram [0xF3, 0x0A]) = some sn ∧
      sn.pc = 0x200) ∧
    (∃ s', ({ chip8.withProgram [0xF3, 0x0A] with key := upd (upd (fun _ => 0) 7 1) 9 1 }
        : chip8).emulateCycle 0 = some s' ∧ s'.V 3 = 7 ∧ s'.pc = 0x202) :=
  ⟨(((C8_key_wait 0 (chip8.withProgram [0xF3, 0x0A]) 3 (by decide) (by rfl)).1
      (fun _ _ => rfl)).2 (fun _ => 0) 3).imp fun _ h => ⟨h.1, h.2.1⟩,
   ((C8_key_wait 0 { chip8.withProgram [0xF3, 0x0A] with key := upd (upd (fun _ => 0) 7 1) 9 1 }
      3 (by decide) (by rfl)).2 7 (by decide) (by decide) (by decide)).imp
      fun _ h => ⟨h.1, h.2.1, h.2.2.2⟩⟩

/-! ## Timers -/

theorem plot_timers (x y row col : Nat) (s e : chip8) (h : plot x y row col s = some e) :
    e.delay_timer = s.delay_timer ∧ e.sound_timer = s.sound_timer := by
  unfold plot readArr writeArr at h
  by_cases hi : (x + col) % 64 + (y + row) % 32 * 64 < 2048
  · simp only [hi, if_true, Option.bind_eq_bind, Option.some_bind, Option.pure_def,
      Option.some.injEq] at h
    subst h
    exact ⟨rfl, rfl⟩
  · simp [hi] at h

theorem drawCols_timers (x y row spriteByte : Nat) (n : Nat) : ∀ (col : Nat) (s e : chip8),
    drawCols x y row spriteByte n col s = some e →
    e.delay_timer = s.delay_timer ∧ e.sound_timer = s.sound_timer := by
  induction n with
  | zero =>
    intro col s e h
    simp only [drawCols, Option.some.injEq] at h
    subst h
    exact ⟨rfl, rfl⟩
  | succ n ih =>
    intro col s e h
    rw [drawCols] at h
    by_cases hb : spriteByte &&& (0x80 >>> col) ≠ 0
    · rw [if_pos hb] at h
      obtain ⟨s1, h1, h2⟩ := Option.bind_eq_some.mp h
      obtain ⟨a1, a2⟩ := plot_timers _ _ _ _ _ _ h1
      obtain ⟨b1, b2⟩ := ih _ _ _ h2
      exact ⟨b1.trans a1, b2.trans a2⟩
    · rw [if_neg hb] at h
      exact ih _ _ _ h

theorem drawRows_timers (x y : Nat) (n : Nat) : ∀ (row : Nat) (s e : chip8),
    drawRows x y n row s = some e →
    e.delay_timer = s.delay_timer ∧ e.sound_timer = s.sound_timer := by
  induction n with
  | zero =>
    intro row s e h
    simp only [drawRows, Option.some.injEq] at h
    subst h
    exact ⟨rfl, rfl⟩
  | succ n ih =>
    intro row s e h
    rw [drawRows] at h
    obtain ⟨b, -, h⟩ := Option.bind_eq_some.mp h
    obtain ⟨s1, h1, h2⟩ := Option.bind_eq_some.mp h
    obtain ⟨a1, a2⟩ := drawCols_timers _ _ _ _ _ _ _ _ h1
    obtain ⟨b1, b2⟩ := ih _ _ _ h2
    exact ⟨b1.trans a1, b2.trans a2⟩

theorem storeRegs_timers (n : Nat) : ∀ (i : Nat) (s e : chip8),
    storeRegs n i s = some e →
    e.delay_timer = s.delay_timer ∧ e.sound_timer = s.sound_timer := by
  induction n with
  | zero =>
    intro i s e h
    simp only [storeRegs, Option.some.injEq] at h
    subst h
    exact ⟨rfl, rfl⟩
  | succ n ih =>
    intro i s e h
    rw [storeRegs] at h
    obtain ⟨m, -, h⟩ := Option.bind_eq_some.mp h
    have := ih _ _ _ h
    exact this

theorem loadRegs_timers (n : Nat) : ∀ (i : Nat) (s e : chip8),
    loadRegs n i s = some e →
    e.delay_timer = s.delay_timer ∧ e.sound_timer = s.sound_timer := by
  induction n with
  | zero =>
    intro i s e h
    simp only [loadRegs, Option.some.injEq] at h
    subst h
    exact ⟨rfl, rfl⟩
  | succ n ih =>
    intro i s e h
    rw [loadRegs] at h
    obtain ⟨m, -, h⟩ := Option.bind_eq_some.mp h
    have := ih _ _ _ h
    exact this

theorem exec0_timers (s e : chip8) (h : exec0 s = some e) :
    e.delay_timer = s.delay_timer ∧ e.sound_timer = s.sound_timer := by
  unfold exec0 at h
  split_ifs at h
  · simp only [Option.some.injEq] at h; subst h; exact ⟨rfl, rfl⟩
  · obtain ⟨r, -, h⟩ := Option.map_eq_some'.mp h
    subst h; exact ⟨rfl, rfl⟩
  · simp only [Option.some.injEq] at h; subst h; exact ⟨rfl, rfl⟩

theorem exec8_timers (s : chip8) :
    (exec8 s).delay_timer = s.delay_timer ∧ (exec8 s).sound_timer = s.sound_timer := by
  simp only [exec8, chip8.advance, apply_ite chip8.delay_timer, apply_ite chip8.sound_timer,
    ite_self, and_self]

theorem exec8_timers_of (s e : chip8) (h : some (exec8 s) = some e) :
    e.delay_timer = s.delay_timer ∧ e.sound_timer = s.sound_timer := by
  simp only [Option.some.injEq] at h
  subst h
  exact exec8_timers s

theorem execD_timers (s e : chip8) (h : execD s = some e) :
    e.delay_timer = s.delay_timer ∧ e.sound_timer = s.sound_timer := by
  unfold execD at h
  obtain ⟨s1, h1, h⟩ := Option.map_eq_some'.mp h
  obtain ⟨a1, a2⟩ := drawRows_timers _ _ _ _ _ _ h1
  subst h
  exact ⟨a1, a2⟩

theorem execE_timers (s e : chip8) (h : execE s = some e) :
    e.delay_timer = s.delay_timer ∧ e.sound_timer = s.sound_timer := by
  unfold execE at h
  split_ifs at h
  · obtain ⟨k, -, h⟩ := Option.map_eq_some'.mp h
    subst h; split_ifs <;> exact ⟨rfl, rfl⟩
  · obtain ⟨k, -, h⟩ := Option.map_eq_some'.mp h
    subst h; split_ifs <;> exact ⟨rfl, rfl⟩
  · simp only [Option.some.injEq] at h; subst h; exact ⟨rfl, rfl⟩

theorem execF_timers (s e : chip8) (h : execF s = some e) :
    e.delay_timer =
      (if s.opcode % 256 = 0x15 then s.V (s.opcode / 256 % 16) else s.delay_timer) ∧
    e.sound_timer =
      (if s.opcode % 256 = 0x18 then s.V (s.opcode / 256 % 16) else s.sound_timer) := by
  unfold execF at h
  simp only [land_0F00, land_00FF] at h
  by_cases h07 : s.opcode % 256 = 0x07
  · have a : ¬ s.opcode % 256 = 0x15 := by omega
    have b : ¬ s.opcode % 256 = 0x18 := by omega
    rw [if_pos h07] at h
    simp only [Option.some.injEq] at h; subst h
    rw [if_neg a, if_neg b]; exact ⟨rfl, rfl⟩
  rw [if_neg h07] at h
  by_cases h15 : s.opcode % 256 = 0x15
  · have b : ¬ s.opcode % 256 = 0x18 := by omega
    rw [if_pos h15] at h
    simp only [Option.some.injEq] at h; subst h
    rw [if_pos h15, if_neg b]; exact ⟨rfl, rfl⟩
  rw [if_neg h15] at h
  by_cases h18 : s.opcode % 256 = 0x18
  · rw [if_pos h18] at h
    simp only [Option.some.injEq] at h; subst h
    rw [if_neg h15, if_pos h18]; exact ⟨rfl, rfl⟩
  rw [if_neg h18] at h
  rw [if_neg h15, if_neg h18]
  by_cases h1E : s.opcode % 256 = 0x1E
  · rw [if_pos h1E] at h
    simp only [Option.some.injEq] at h; subst h; exact ⟨rfl, rfl⟩
  rw [if_neg h1E] at h
  by_cases h0A : s.opcode % 256 = 0x0A
  · rw [if_pos h0A] at h
    cases hk : scanKeys s.key 16 0 with
    | none => rw [hk] at h; simp only [Option.some.injEq] at h; subst h; exact ⟨rfl, rfl⟩
    | some k => rw [hk] at h; simp only [Option.some.injEq] at h; subst h; exact ⟨rfl, rfl⟩
  rw [if_neg h0A] at h
  by_cases h29 : s.opcode % 256 = 0x29
  · rw [if_pos h29] at h
    simp only [Option.some.injEq] at h; subst h; exact ⟨rfl, rfl⟩
  rw [if_neg h29] at h
  by_cases h33 : s.opcode % 256 = 0x33
  · rw [if_pos h33] at h
    obtain ⟨m1, -, h⟩ := Option.bind_eq_some.mp h
    obtain ⟨m2, -, h⟩ := Option.bind_eq_some.mp h
    obtain ⟨m3, -, h⟩ := Option.map_eq_some'.mp h
    subst h; exact ⟨rfl, rfl⟩
  rw [if_neg h33] at h
  by_cases h55 : s.opcode % 256 = 0x55
  · rw [if_pos h55] at h
    obtain ⟨s1, h1, h⟩ := Option.map_eq_some'.mp h
    subst h; exact storeRegs_timers _ _ _ s1 h1
  rw [if_neg h55] at h
  by_cases h65 : s.opcode % 256 = 0x65
  · rw [if_pos h65] at h
    obtain ⟨s1, h1, h⟩ := Option.map_eq_some'.mp h
    subst h; exact loadRegs_timers _ _ _ s1 h1
  rw [if_neg h65] at h
  simp only [Option.some.injEq] at h; subst h; exact ⟨rfl, rfl⟩

/-- The timers after the execute phase: unchanged, except that FX15 loads the delay timer and
FX18 the sound timer from `VX`. -/
theorem execute_timers (rnd : Nat) (s e : chip8) (h : chip8.execute rnd s = some e) :
    e.delay_timer =
      (if s.opcode / 4096 % 16 = 15 ∧ s.opcode % 256 = 0x15
        then s.V (s.opcode / 256 % 16) else s.delay_timer) ∧
    e.sound_timer =
      (if s.opcode / 4096 % 16 = 15 ∧ s.opcode % 256 = 0x18
        then s.V (s.opcode / 256 % 16) else s.sound_timer) := by
  by_cases hF : s.opcode / 4096 % 16 = 15
  · rw [execute_F _ _ hF] at h
    simpa only [hF, true_and] using execF_timers s e h
  · have a : ¬ (s.opcode / 4096 % 16 = 15 ∧ s.opcode % 256 = 0x15) := fun c => hF c.1
    have b : ¬ (s.opcode / 4096 % 16 = 15 ∧ s.opcode % 256 = 0x18) := fun c => hF c.1
    rw [if_neg a, if_neg b]
    have hlt : s.opcode / 4096 % 16 < 16 := Nat.mod_lt _ (by decide)
    generalize hq : s.opcode / 4096 % 16 = q at hF hlt
    unfold chip8.execute at h
    simp only [land_F000, hq] at h
    interval_cases q
    all_goals simp only [Nat.reduceMul, Nat.reduceEqDiff, if_true, if_false] at h
    · exact exec0_timers s e h
    all_goals first
      | exact exec8_timers_of s e h
      | exact execD_timers s e h
      | exact execE_timers s e h
      | (simp only [Option.some.injEq] at h; subst h; exact ⟨rfl, rfl⟩)
      | (simp only [Option.some.injEq] at h; subst h; split_ifs <;> exact ⟨rfl, rfl⟩)
      | (obtain ⟨_, -, h⟩ := Option.map_eq_some'.mp h; subst h; exact ⟨rfl, rfl⟩)
      | (split_ifs at h <;> simp only [Option.some.injEq] at h <;> subst h <;> exact ⟨rfl, rfl⟩)
      | exact absurd rfl hF

theorem emulateCycle_some (rnd : Nat) (s s' : chip8) (h : s.emulateCycle rnd = some s') :
    ∃ op e, s.fetch = some op ∧ chip8.execute rnd { s with opcode := op } = some e ∧
      s' = e.updateTimers := by
  unfold chip8.emulateCycle at h
  obtain ⟨op, hop, h⟩ := Option.bind_eq_some.mp h
  obtain ⟨e, he, h⟩ := Option.map_eq_some'.mp h
  exact ⟨op, e, hop, he, h.symm⟩

theorem run_sound_timer (n : Nat) : ∀ (rnds : Nat → Nat) (s sn : chip8),
    (∀ j sj op, j < n → chip8.run rnds j s = some sj → sj.fetch = some op →
      ¬ (op / 4096 % 16 = 15 ∧ op % 256 = 0x18)) →
    chip8.run rnds n s = some sn → sn.sound_timer = s.sound_timer - n := by
  induction n with
  | zero =>
    intro rnds s sn _ h
    simp only [chip8.run, Option.some.injEq] at h
    subst h
    rfl
  | succ n ih =>
    intro rnds s sn hno h
    rw [chip8.run] at h
    obtain ⟨s1, h1, h2⟩ := Option.bind_eq_some.mp h
    obtain ⟨op, e, hop, he, hs1⟩ := emulateCycle_some _ _ _ h1
    have hno0 := hno 0 s op (Nat.succ_pos n) rfl hop
    have hes := (execute_timers _ _ _ he).2
    rw [if_neg hno0] at hes
    have h1s : s1.sound_timer = s.sound_timer - 1 := by
      rw [hs1, updateTimers_sound_timer, hes]
    have hrest := ih (fun i => rnds (i + 1)) s1 sn (fun j sj opj hj hrun hf => by
      refine hno (j + 1) sj opj (by omega) ?_ hf
      rw [chip8.run, h1, Option.some_bind]
      exact hrun) h2
    rw [hrest, h1s]
    omega

/-- C9: one cycle leaves each timer at `t - 1` (natural-number subtraction: 0 stays 0), where
`t` is the timer after the execute phase; `t` is the value before the cycle except for FX15
(delay timer) and FX18 (sound timer), where it is `VX`.  Hence over `n` cycles none of which
executes FX18 the sound timer goes from `t` to `t - n`, never below 0. -/
theorem C9_timer_tick (rnds : Nat → Nat) (s : chip8) :
    (∀ op e, s.fetch = some op → chip8.execute (rnds 0) { s with opcode := op } = some e →
      (∃ s', s.emulateCycle (rnds 0) = some s' ∧
        s'.delay_timer = e.delay_timer - 1 ∧ s'.sound_timer = e.sound_timer - 1) ∧
      e.delay_timer = (if op / 4096 % 16 = 15 ∧ op % 256 = 0x15
        then s.V (op / 256 % 16) else s.delay_timer) ∧
      e.sound_timer = (if op / 4096 % 16 = 15 ∧ op % 256 = 0x18
        then s.V (op / 256 % 16) else s.sound_timer)) ∧
    (∀ n sn,
      (∀ j sj op, j < n → chip8.run rnds j s = some sj → sj.fetch = some op →
        ¬ (op / 4096 % 16 = 15 ∧ op % 256 = 0x18)) →
      chip8.run rnds n s = some sn → sn.sound_timer = s.sound_timer - n) := by
  constructor
  · intro op e hop he
    refine ⟨⟨e.updateTimers, ?_, updateTimers_delay_timer e, updateTimers_sound_timer e⟩, ?_⟩
    · rw [emulateCycle_of_fetch _ s op hop, he, Option.map_some']
    · exact execute_timers _ _ _ he
  · intro n sn hno h
    exact run_sound_timer n rnds s sn hno h

/-- C9 at the program `F00A` with no key down (the machine waits, the timers tick) and the
sound timer set to 5: the timer is 0 after five cycles and still 0 after eight. -/
theorem C9_timer_tick_witness :
    (∃ sn, chip8.run (fun _ => 0) 5
        ({ chip8.withProgram [0xF0, 0x0A] with sound_timer := 5 } : chip8) = some sn ∧
      sn.sound_timer = 0) ∧
    (∃ sn, chip8.run (fun _ => 0) 8
        ({ chip8.withProgram [0xF0, 0x0A] with sound_timer := 5 } : chip8) = some sn ∧
      sn.sound_timer = 0) := by
  have hrun : ∀ n, ∃ sn, chip8.run (fun _ => 0) n
      ({ chip8.withProgram [0xF0, 0x0A] with sound_timer := 5 } : chip8) = some sn ∧
      sn.pc = 0x200 ∧ sn.memory = (chip8.withProgram [0xF0, 0x0A]).memory := by
    intro n
    obtain ⟨sn, h, hpc, -, -, -, -, hmem, -⟩ :=
      keyWait_blocked_run 0 (by decide) n (fun _ => 0)
        ({ chip8.withProgram [0xF0, 0x0A] with sound_timer := 5 } : chip8) (by rfl)
        (fun _ _ => rfl)
    exact ⟨sn, h, hpc, hmem⟩
  have hno : ∀ j sj op,
      chip8.run (fun _ => 0) j
        ({ chip8.withProgram [0xF0, 0x0A] with sound_timer := 5 } : chip8) = some sj →
      sj.fetch = some op → ¬ (op / 4096 % 16 = 15 ∧ op % 256 = 0x18) := by
    intro j sj op hj hf
    obtain ⟨sn, h, hpc, hmem⟩ := hrun j
    rw [hj] at h
    cases h
    have hw : wordAt (chip8.withProgram [0xF0, 0x0A]).memory 0x200 = some 0xF00A := by rfl
    unfold chip8.fetch at hf
    rw [hmem, hpc, hw] at hf
    cases hf
    decide
  obtain ⟨s5, h5, -, -⟩ := hrun 5
  obtain ⟨s8, h8, -, -⟩ := hrun 8
  exact ⟨⟨s5, h5, (C9_timer_tick (fun _ => 0) _).2 5 s5 (fun j sj op _ => hno j sj op) h5⟩,
    ⟨s8, h8, (C9_timer_tick (fun _ => 0) _).2 8 s8 (fun j sj op _ => hno j sj op) h8⟩⟩

/-! ## Words the decoder does not recognise -/

theorem execute_5 (rnd : Nat) (s : chip8) (h : s.opcode / 4096 % 16 = 5) :
    chip8.execute rnd s =
      if s.opcode % 16 ≠ 0 then some { s with cerr := Diag.invalid5XY :: s.cerr }
      else some (if s.V (s.opcode / 256 % 16) = s.V (s.opcode / 16 % 16)
        then s.advance 4 else s.advance 2) := by
  simp only [chip8.execute, land_F000, land_0F00, land_00F0, land_000F, h]
  rfl

theorem execute_9 (rnd : Nat) (s : chip8) (h : s.opcode / 4096 % 16 = 9) :
    chip8.execute rnd s =
      if s.opcode % 16 ≠ 0 then some { s with cerr := Diag.invalid5XY :: s.cerr }
      else some (if s.V (s.opcode / 256 % 16) ≠ s.V (s.opcode / 16 % 16)
        then s.advance 4 else s.advance 2) := by
  simp only [chip8.execute, land_F000, land_0F00, land_00F0, land_000F, h]
  rfl

theorem exec8_unknown (s : chip8)
    (h : s.opcode % 16 = 8 ∨ s.opcode % 16 = 9 ∨ s.opcode % 16 = 10 ∨ s.opcode % 16 = 11 ∨
      s.opcode % 16 = 12 ∨ s.opcode % 16 = 13 ∨ s.opcode % 16 = 15) :
    exec8 s = s.advance 2 := by
  have n0 : ¬ s.opcode % 16 = 0x0 := by omega
  have n1 : ¬ s.opcode % 16 = 0x1 := by omega
  have n2 : ¬ s.opcode % 16 = 0x2 := by omega
  have n3 : ¬ s.opcode % 16 = 0x3 := by omega
  have n4 : ¬ s.opcode % 16 = 0x4 := by omega
  have n5 : ¬ s.opcode % 16 = 0x5 := by omega
  have n6 : ¬ s.opcode % 16 = 0x6 := by omega
  have n7 : ¬ s.opcode % 16 = 0x7 := by omega
  have nE : ¬ s.opcode % 16 = 0xE := by omega
  simp only [exec8, land_000F]
  rw [if_neg n0, if_neg n1, if_neg n2, if_neg n3, if_neg n4, if_neg n5, if_neg n7, if_neg n6,
    if_neg nE]

theorem execF_unknown (s : chip8)
    (h : s.opcode % 256 ≠ 0x07 ∧ s.opcode % 256 ≠ 0x0A ∧ s.opcode % 256 ≠ 0x15 ∧
      s.opcode % 256 ≠ 0x18 ∧ s.opcode % 256 ≠ 0x1E ∧ s.opcode % 256 ≠ 0x29 ∧
      s.opcode % 256 ≠ 0x33 ∧ s.opcode % 256 ≠ 0x55 ∧ s.opcode % 256 ≠ 0x65) :
    execF s = some { s with cerr := Diag.unknownFX s.opcode :: s.cerr } := by
  obtain ⟨h1, h2, h3, h4, h5, h6, h7, h8, h9⟩ := h
  simp only [execF, land_00FF]
  rw [if_neg h1, if_neg h3, if_neg h4, if_neg h5, if_neg h2, if_neg h6, if_neg h7, if_neg h8,
    if_neg h9]

/-- C10 as the code has it: a fetched word that the decoder does not recognise leaves the
registers, `I`, `sp`, the stack, memory and the framebuffer unchanged; `pc` is left unchanged
too when the word is in family 0 (low byte other than E0, EE), 5 or 9 (low nibble not 0),
E (low byte other than 9E, A1) or F (low byte none of the nine defined ones), and advances by
exactly 2 when the word is 8XYN with N in {8, 9, A, B, C, D, F}. -/
theorem C10_unknown_opcode (rnd : Nat) (s : chip8) (op : Nat)
    (hop : s.fetch = some op)
    (hunknown :
      (op / 4096 % 16 = 0 ∧ op % 256 ≠ 0xE0 ∧ op % 256 ≠ 0xEE) ∨
      ((op / 4096 % 16 = 5 ∨ op / 4096 % 16 = 9) ∧ op % 16 ≠ 0) ∨
      (op / 4096 % 16 = 8 ∧ (op % 16 = 8 ∨ op % 16 = 9 ∨ op % 16 = 0xA ∨ op % 16 = 0xB ∨
        op % 16 = 0xC ∨ op % 16 = 0xD ∨ op % 16 = 0xF)) ∨
      (op / 4096 % 16 = 0xE ∧ op % 256 ≠ 0x9E ∧ op % 256 ≠ 0xA1) ∨
      (op / 4096 % 16 = 0xF ∧ op % 256 ≠ 0x07 ∧ op % 256 ≠ 0x0A ∧ op % 256 ≠ 0x15 ∧
        op % 256 ≠ 0x18 ∧ op % 256 ≠ 0x1E ∧ op % 256 ≠ 0x29 ∧ op % 256 ≠ 0x33 ∧
        op % 256 ≠ 0x55 ∧ op % 256 ≠ 0x65)) :
    ∃ s', s.emulateCycle rnd = some s' ∧
      s'.pc = (if op / 4096 % 16 = 8 then s.pc + 2 else s.pc) ∧
      s'.V = s.V ∧ s'.I = s.I ∧ s'.sp = s.sp ∧ s'.stack = s.stack ∧
      s'.memory = s.memory ∧ s'.gfx = s.gfx := by
  have hpc := (wordAt_bounds _ _ _ hop).1
  rw [emulateCycle_of_fetch rnd s op hop]
  rcases hunknown with ⟨h0, hE0, hEE⟩ | ⟨h59, hn⟩ | ⟨h8, hn⟩ | ⟨hE, h9E, hA1⟩ | ⟨hF, hn⟩
  · have hne : ¬ op / 4096 % 16 = 8 := by omega
    rw [execute_0 _ _ h0, if_neg hne]
    simp only [exec0, land_00FF, if_neg hE0, if_neg hEE, Option.map_some']
    exact ⟨_, rfl, updateTimers_pc _, updateTimers_V _, updateTimers_I _, updateTimers_sp _,
      updateTimers_stack _, updateTimers_memory _, updateTimers_gfx _⟩
  · have hne : ¬ op / 4096 % 16 = 8 := by omega
    rw [if_neg hne]
    rcases h59 with h5 | h9
    · rw [execute_5 _ _ h5]
      simp only [if_pos hn, Option.map_some']
      exact ⟨_, rfl, updateTimers_pc _, updateTimers_V _, updateTimers_I _, updateTimers_sp _,
        updateTimers_stack _, updateTimers_memory _, updateTimers_gfx _⟩
    · rw [execute_9 _ _ h9]
      simp only [if_pos hn, Option.map_some']
      exact ⟨_, rfl, updateTimers_pc _, updateTimers_V _, updateTimers_I _, updateTimers_sp _,
        updateTimers_stack _, updateTimers_memory _, updateTimers_gfx _⟩
  · rw [execute_8 _ _ h8, exec8_unknown _ hn, if_pos h8, Option.map_some']
    refine ⟨_, rfl, ?_, updateTimers_V _, updateTimers_I _, updateTimers_sp _,
      updateTimers_stack _, updateTimers_memory _, updateTimers_gfx _⟩
    rw [updateTimers_pc]
    exact Nat.mod_eq_of_lt (by show s.pc + 2 < 65536; omega)
  · have hne : ¬ op / 4096 % 16 = 8 := by omega
    rw [execute_E _ _ hE, if_neg hne]
    simp only [execE, land_00FF, if_neg h9E, if_neg hA1, Option.map_some']
    exact ⟨_, rfl, updateTimers_pc _, updateTimers_V _, updateTimers_I _, updateTimers_sp _,
      updateTimers_stack _, updateTimers_memory _, updateTimers_gfx _⟩
  · have hne : ¬ op / 4096 % 16 = 8 := by omega
    rw [execute_F _ _ hF, if_neg hne, execF_unknown _ hn, Option.map_some']
    exact ⟨_, rfl, updateTimers_pc _, updateTimers_V _, updateTimers_I _, updateTimers_sp _,
      updateTimers_stack _, updateTimers_memory _, updateTimers_gfx _⟩

/-- C10 at the word 0000, which the freshly constructed machine fetches at 0x200 (`pc` stays),
and at the word 8128 (`pc` advances by 2). -/
theorem C10_unknown_opcode_witness :
    (∃ s', chip8.ctor.emulateCycle 0 = some s' ∧ s'.pc = 0x200 ∧ s'.V = chip8.ctor.V) ∧
    (∃ s', (chip8.withProgram [0x81, 0x28]).emulateCycle 0 = some s' ∧ s'.pc = 0x202) :=
  ⟨(C10_unknown_opcode 0 chip8.ctor 0 (by rfl) (by decide)).imp fun _ h => ⟨h.1, h.2.1, h.2.2.1⟩,
   (C10_unknown_opcode 0 (chip8.withProgram [0x81, 0x28]) 0x8128 (by rfl) (by decide)).imp
     fun _ h => ⟨h.1, h.2.1⟩⟩

/-- C10 as stated fails: the word 0000 (a 0NNN other than 00E0 and 00EE) leaves `pc` at
0x200 instead of advancing it to 0x202, and the word 01E0 (also a 0NNN other than 00E0 and
00EE) is decoded by its low byte as a clear-screen and turns a lit pixel off. -/
theorem C10_unknown_opcode_counterexample :
    (∃ s', chip8.ctor.emulateCycle 0 = some s' ∧ s'.pc = chip8.ctor.pc ∧
      s'.pc ≠ chip8.ctor.pc + 2) ∧
    (∃ s', ({ chip8.withProgram [0x01, 0xE0] with gfx := upd (fun _ => 0) 0 1 }
        : chip8).emulateCycle 0 = some s' ∧
      ({ chip8.withProgram [0x01, 0xE0] with gfx := upd (fun _ => 0) 0 1 } : chip8).gfx 0 = 1 ∧
      s'.gfx 0 = 0) := by
  constructor
  · have hf : chip8.ctor.fetch = some 0 := by rfl
    rw [emulateCycle_of_fetch 0 _ _ hf, execute_0 _ _ (by rfl)]
    simp only [exec0, land_00FF]
    rw [if_neg (by decide), if_neg (by decide), Option.map_some']
    exact ⟨_, rfl, by rw [updateTimers_pc], by rw [updateTimers_pc]; decide⟩
  · have hf : ({ chip8.withProgram [0x01, 0xE0] with gfx := upd (fun _ => 0) 0 1 }
        : chip8).fetch = some 0x01E0 := by rfl
    rw [emulateCycle_of_fetch 0 _ _ hf, execute_0 _ _ (by rfl)]
    simp only [exec0, land_00FF]
    rw [if_pos (by decide), Option.map_some']
    exact ⟨_, rfl, by decide, by rw [updateTimers_gfx]; rfl⟩

/-! ## Draw sprite (DXYN) -/

theorem land_two_pow_ne_zero (b k : Nat) : b &&& 2 ^ k ≠ 0 ↔ b.testBit k = true := by
  constructor
  · intro h
    obtain ⟨i, hi⟩ := Nat.ne_zero_implies_bit_true h
    rw [Nat.testBit_and, Nat.testBit_two_pow] at hi
    simp only [Bool.and_eq_true, decide_eq_true_eq] at hi
    rw [hi.2]
    exact hi.1
  · intro h h0
    have : (b &&& 2 ^ k).testBit k = true := by
      rw [Nat.testBit_and, h, Nat.testBit_two_pow_self]
      rfl
    rw [h0, Nat.zero_testBit] at this
    exact Bool.noConfusion this

theorem sprite_bit_iff (b col : Nat) (hcol : col < 8) :
    b &&& (0x80 >>> col) ≠ 0 ↔ b.testBit (7 - col) = true := by
  have h : (0x80 : Nat) >>> col = 2 ^ (7 - col) := by
    interval_cases col <;> rfl
  rw [h]
  exact land_two_pow_ne_zero b (7 - col)

theorem pixIndex_lt (x y row col : Nat) : pixIndex x y row col < 2048 := by
  unfold pixIndex
  omega

theorem pixIndex_inj (x y row col row' col' : Nat) (hr : row < 32) (hr' : row' < 32)
    (hc : col < 8) (hc' : col' < 8) (h : pixIndex x y row col = pixIndex x y row' col') :
    row = row' ∧ col = col' := by
  unfold pixIndex at h
  omega

theorem xor_one_binary (g : Nat) (h : g = 0 ∨ g = 1) : (g ^^^ 1) % 256 = g ^^^ 1 := by
  rcases h with h | h <;> subst h <;> rfl

theorem plot_eq (x y row col : Nat) (s : chip8) :
    plot x y row col s = some { s with
      V := if s.gfx (pixIndex x y row col) = 1 then upd s.V 0xF 1 else s.V,
      gfx := upd s.gfx (pixIndex x y row col) ((s.gfx (pixIndex x y row col) ^^^ 1) % 256) } := by
  have h := pixIndex_lt x y row col
  unfold pixIndex at h
  simp only [plot, readArr, writeArr, pixIndex, if_pos h, Option.bind_eq_bind, Option.some_bind,
    Option.pure_def]

theorem visited_succ (r c row col : Nat) :
    visited r (c + 1) row col ↔ visited r c row col ∨ (row = r ∧ col = c) := by
  unfold visited
  omega

theorem DrawInv.skip {s0 : chip8} {x y r c : Nat} {s : chip8} (h : DrawInv s0 x y r c s)
    (hbit : ¬ s0.memory (s0.I + r) &&& (0x80 >>> c) ≠ 0) : DrawInv s0 x y r (c + 1) s := by
  have hh : ∀ i, hitBefore s0 x y r (c + 1) i ↔ hitBefore s0 x y r c i := by
    intro i
    constructor
    · rintro ⟨row, col, hv, hc, hb, hi⟩
      rcases (visited_succ r c row col).mp hv with hv | ⟨h1, h2⟩
      · exact ⟨row, col, hv, hc, hb, hi⟩
      · subst h1; subst h2; exact absurd hb hbit
    · rintro ⟨row, col, hv, hc, hb, hi⟩
      exact ⟨row, col, (visited_succ r c row col).mpr (Or.inl hv), hc, hb, hi⟩
  have hc : collidedBefore s0 x y r (c + 1) ↔ collidedBefore s0 x y r c := by
    constructor
    · rintro ⟨row, col, hv, hc, hb, hi⟩
      rcases (visited_succ r c row col).mp hv with hv | ⟨h1, h2⟩
      · exact ⟨row, col, hv, hc, hb, hi⟩
      · subst h1; subst h2; exact absurd hb hbit
    · rintro ⟨row, col, hv, hc, hb, hi⟩
      exact ⟨row, col, (visited_succ r c row col).mpr (Or.inl hv), hc, hb, hi⟩
  exact { h with
    gfx_hit := fun i hi => h.gfx_hit i ((hh i).mp hi)
    gfx_miss := fun i hi => h.gfx_miss i (fun k => hi ((hh i).mpr k))
    VF_hit := fun k => h.VF_hit (hc.mp k)
    VF_miss := fun k => h.VF_miss (fun k' => k (hc.mpr k')) }

theorem DrawInv.plot {s0 : chip8} {x y r c : Nat} {s : chip8} (h : DrawInv s0 x y r c s)
    (hr : r < 32) (hc : c < 8) (hbin : ∀ i, i < 2048 → s0.gfx i = 0 ∨ s0.gfx i = 1)
    (hbit : s0.memory (s0.I + r) &&& (0x80 >>> c) ≠ 0) :
    ∃ s', plot x y r c s = some s' ∧ DrawInv s0 x y r (c + 1) s' := by
  -- no earlier bit was drawn on this pixel
  have hfresh : ¬ hitBefore s0 x y r c (pixIndex x y r c) := by
    rintro ⟨row, col, hv, hcol, -, hi⟩
    have hrow : row < 32 := by unfold visited at hv; omega
    obtain ⟨e1, e2⟩ := pixIndex_inj x y row col r c hrow hr hcol hc hi
    unfold visited at hv
    omega
  have hold : s.gfx (pixIndex x y r c) = s0.gfx (pixIndex x y r c) := h.gfx_miss _ hfresh
  have hb := hbin _ (pixIndex_lt x y r c)
  refine ⟨_, plot_eq x y r c s, ?_⟩
  rw [hold, xor_one_binary _ hb]
  refine { opcode_eq := h.opcode_eq, memory_eq := h.memory_eq, I_eq := h.I_eq, pc_eq := h.pc_eq,
           drawFlag_eq := h.drawFlag_eq, delay_eq := h.delay_eq, sound_eq := h.sound_eq,
           stack_eq := h.stack_eq, sp_eq := h.sp_eq, key_eq := h.key_eq, cerr_eq := h.cerr_eq,
           V_other := ?_, gfx_hit := ?_, gfx_miss := ?_, VF_hit := ?_, VF_miss := ?_ }
  · intro i hi
    show (if s0.gfx (pixIndex x y r c) = 1 then upd s.V 0xF 1 else s.V) i = s0.V i
    split_ifs
    · rw [upd_other _ _ _ _ hi]; exact h.V_other i hi
    · exact h.V_other i hi
  · rintro i ⟨row, col, hv, hcol, hbt, hi⟩
    show upd s.gfx (pixIndex x y r c) (s0.gfx (pixIndex x y r c) ^^^ 1) i = s0.gfx i ^^^ 1
    rcases (visited_succ r c row col).mp hv with hv | ⟨h1, h2⟩
    · have hne : i ≠ pixIndex x y r c := by
        intro e
        have hrow : row < 32 := by unfold visited at hv; omega
        obtain ⟨e1, e2⟩ := pixIndex_inj x y row col r c hrow hr hcol hc (hi.trans e)
        unfold visited at hv
        omega
      rw [upd_other _ _ _ _ hne]
      exact h.gfx_hit i ⟨row, col, hv, hcol, hbt, hi⟩
    · subst h1; subst h2
      rw [← hi, upd_same]
  · intro i hi
    show upd s.gfx (pixIndex x y r c) (s0.gfx (pixIndex x y r c) ^^^ 1) i = s0.gfx i
    have hne : i ≠ pixIndex x y r c := by
      intro e
      exact hi ⟨r, c, (visited_succ r c r c).mpr (Or.inr ⟨rfl, rfl⟩), hc, hbit, e.symm⟩
    rw [upd_other _ _ _ _ hne]
    exact h.gfx_miss i (fun ⟨row, col, hv, hcol, hbt, he⟩ =>
      hi ⟨row, col, (visited_succ r c row col).mpr (Or.inl hv), hcol, hbt, he⟩)
  · rintro ⟨row, col, hv, hcol, hbt, hon⟩
    show (if s0.gfx (pixIndex x y r c) = 1 then upd s.V 0xF 1 else s.V) 0xF = 1
    rcases (visited_succ r c row col).mp hv with hv | ⟨h1, h2⟩
    · have hprev := h.VF_hit ⟨row, col, hv, hcol, hbt, hon⟩
      split_ifs
      · exact upd_same _ _ _
      · exact hprev
    · subst h1; subst h2
      rw [if_pos hon]
      exact upd_same _ _ _
  · intro hno
    show (if s0.gfx (pixIndex x y r c) = 1 then upd s.V 0xF 1 else s.V) 0xF = 0
    have hoff : ¬ s0.gfx (pixIndex x y r c) = 1 := fun hon =>
      hno ⟨r, c, (visited_succ r c r c).mpr (Or.inr ⟨rfl, rfl⟩), hc, hbit, hon⟩
    rw [if_neg hoff]
    exact h.VF_miss (fun ⟨row, col, hv, hcol, hbt, hon⟩ =>
      hno ⟨row, col, (visited_succ r c row col).mpr (Or.inl hv), hcol, hbt, hon⟩)

theorem drawCols_inv (s0 : chip8) (x y r : Nat) (hr : r < 32)
    (hbin : ∀ i, i < 2048 → s0.gfx i = 0 ∨ s0.gfx i = 1) (n : Nat) :
    ∀ (c : Nat) (s : chip8), c + n = 8 → DrawInv s0 x y r c s →
    ∃ s', drawCols x y r (s0.memory (s0.I + r)) n c s = some s' ∧ DrawInv s0 x y r 8 s' := by
  induction n with
  | zero =>
    intro c s hc h
    have : c = 8 := by omega
    subst this
    exact ⟨s, rfl, h⟩
  | succ n ih =>
    intro c s hc h
    rw [drawCols]
    by_cases hbit : s0.memory (s0.I + r) &&& (0x80 >>> c) ≠ 0
    · rw [if_pos hbit]
      obtain ⟨s1, h1, hinv⟩ := h.plot hr (by omega) hbin hbit
      rw [h1, Option.some_bind]
      exact ih (c + 1) s1 (by omega) hinv
    · rw [if_neg hbit]
      exact ih (c + 1) s (by omega) (h.skip hbit)

theorem DrawInv.nextRow {s0 : chip8} {x y r : Nat} {s : chip8} (h : DrawInv s0 x y r 8 s) :
    DrawInv s0 x y (r + 1) 0 s := by
  have hv : ∀ row col, col < 8 → (visited (r + 1) 0 row col ↔ visited r 8 row col) := by
    intro row col hcol
    unfold visited
    omega
  have hh : ∀ i, hitBefore s0 x y (r + 1) 0 i ↔ hitBefore s0 x y r 8 i := by
    intro i
    constructor
    · rintro ⟨row, col, hvis, hc, hb, hi⟩
      exact ⟨row, col, (hv row col hc).mp hvis, hc, hb, hi⟩
    · rintro ⟨row, col, hvis, hc, hb, hi⟩
      exact ⟨row, col, (hv row col hc).mpr hvis, hc, hb, hi⟩
  have hc : collidedBefore s0 x y (r + 1) 0 ↔ collidedBefore s0 x y r 8 := by
    constructor
    · rintro ⟨row, col, hvis, hc, hb, hi⟩
      exact ⟨row, col, (hv row col hc).mp hvis, hc, hb, hi⟩
    · rintro ⟨row, col, hvis, hc, hb, hi⟩
      exact ⟨row, col, (hv row col hc).mpr hvis, hc, hb, hi⟩
  exact { h with
    gfx_hit := fun i hi => h.gfx_hit i ((hh i).mp hi)
    gfx_miss := fun i hi => h.gfx_miss i (fun k => hi ((hh i).mpr k))
    VF_hit := fun k => h.VF_hit (hc.mp k)
    VF_miss := fun k => h.VF_miss (fun k' => k (hc.mpr k')) }

theorem drawRows_inv (s0 : chip8) (x y N : Nat) (hN : N ≤ 32) (hI : s0.I + N ≤ 4096)
    (hbin : ∀ i, i < 2048 → s0.gfx i = 0 ∨ s0.gfx i = 1) (n : Nat) :
    ∀ (r : Nat) (s : chip8), r + n = N → DrawInv s0 x y r 0 s →
    ∃ s', drawRows x y n r s = some s' ∧ DrawInv s0 x y N 0 s' := by
  induction n with
  | zero =>
    intro r s hr h
    have : r = N := by omega
    subst this
    exact ⟨s, rfl, h⟩
  | succ n ih =>
    intro r s hr h
    have hread : readArr 4096 s.memory (s.I + r) = some (s0.memory (s0.I + r)) := by
      rw [h.memory_eq, h.I_eq]
      have : s0.I + r < 4096 := by omega
      simp only [readArr, if_pos this]
    rw [drawRows, hread, Option.some_bind]
    obtain ⟨s1, h1, hinv⟩ := drawCols_inv s0 x y r (by omega) hbin 8 0 s rfl h
    rw [h1, Option.some_bind]
    exact ih (r + 1) s1 (by omega) hinv.nextRow

theorem DrawInv.start (s : chip8) (x y : Nat) (hVF : s.V 0xF = 0) : DrawInv s x y 0 0 s := by
  have hv : ∀ row col, ¬ visited 0 0 row col := by
    intro row col h
    unfold visited at h
    omega
  exact { opcode_eq := rfl, memory_eq := rfl, I_eq := rfl, pc_eq := rfl, drawFlag_eq := rfl,
          delay_eq := rfl, sound_eq := rfl, stack_eq := rfl, sp_eq := rfl, key_eq := rfl,
          cerr_eq := rfl, V_other := fun _ _ => rfl,
          gfx_hit := fun i ⟨row, col, h, _⟩ => absurd h (hv row col),
          gfx_miss := fun _ _ => rfl,
          VF_hit := fun ⟨row, col, h, _⟩ => absurd h (hv row col),
          VF_miss := fun _ => hVF }

theorem hitBefore_iff_spriteMask (s0 : chip8) (x y N px py : Nat) (hpx : px < 64)
    (hpy : py < 32) :
    hitBefore s0 x y N 0 (px + 64 * py) ↔ spriteMask s0.memory s0.I x y N px py := by
  constructor
  · rintro ⟨row, col, hv, hc, hb, hi⟩
    unfold visited at hv
    unfold pixIndex at hi
    exact ⟨row, by omega, col, hc, (sprite_bit_iff _ col hc).mp hb, by omega, by omega⟩
  · rintro ⟨row, hr, col, hc, hb, h1, h2⟩
    refine ⟨row, col, Or.inl hr, hc, (sprite_bit_iff _ col hc).mpr hb, ?_⟩
    unfold pixIndex
    omega

theorem collidedBefore_iff_spriteCollides (s0 : chip8) (x y N : Nat) :
    collidedBefore s0 x y N 0 ↔ spriteCollides s0.memory s0.gfx s0.I x y N := by
  constructor
  · rintro ⟨row, col, hv, hc, hb, hon⟩
    unfold visited at hv
    have hidx : (x + col) % 64 + 64 * ((y + row) % 32) = pixIndex x y row col := by
      unfold pixIndex
      omega
    refine ⟨(x + col) % 64, Nat.mod_lt _ (by decide), (y + row) % 32, Nat.mod_lt _ (by decide),
      ⟨row, by omega, col, hc, (sprite_bit_iff _ col hc).mp hb, rfl, rfl⟩, ?_⟩
    rw [hidx]
    exact hon
  · rintro ⟨px, hpx, py, hpy, ⟨row, hr, col, hc, hb, h1, h2⟩, hon⟩
    refine ⟨row, col, Or.inl hr, hc, (sprite_bit_iff _ col hc).mpr hb, ?_⟩
    have hidx : pixIndex x y row col = px + 64 * py := by
      unfold pixIndex
      omega
    rw [hidx]
    exact hon

/-- One cycle on DXYN, in full: the framebuffer is XORed with the sprite mask, `VF` is the
collision flag, and of the rest only `pc`, the draw flag, `opcode` and the timers change. -/
theorem draw_cycle (rnd : Nat) (s : chip8) (X Y N : Nat)
    (hX : X < 16) (hY : Y < 16) (hN : N < 16)
    (hbin : ∀ i, i < 2048 → s.gfx i = 0 ∨ s.gfx i = 1)
    (hI : s.I + N ≤ 4096)
    (hop : s.fetch = some (0xD000 + 0x100 * X + 0x10 * Y + N)) :
    ∃ s', s.emulateCycle rnd = some s' ∧
      (∀ px py, px < 64 → py < 32 →
        s'.gfx (px + 64 * py) = s.gfx (px + 64 * py) ^^^
          (if spriteMask s.memory s.I (s.V X) (s.V Y) N px py then 1 else 0)) ∧
      s'.V 0xF = (if spriteCollides s.memory s.gfx s.I (s.V X) (s.V Y) N then 1 else 0) ∧
      (∀ i, i ≠ 0xF → s'.V i = s.V i) ∧
      s'.memory = s.memory ∧ s'.I = s.I ∧ s'.pc = s.pc + 2 ∧ s'.drawFlag = true ∧
      s'.sp = s.sp ∧ s'.stack = s.stack ∧ s'.key = s.key := by
  have hpc := (wordAt_bounds _ _ _ hop).1
  have hd : (0xD000 + 0x100 * X + 0x10 * Y + N) / 4096 % 16 = 13 := by omega
  have hx : (0xD000 + 0x100 * X + 0x10 * Y + N) / 256 % 16 = X := by omega
  have hy : (0xD000 + 0x100 * X + 0x10 * Y + N) / 16 % 16 = Y := by omega
  have hn : (0xD000 + 0x100 * X + 0x10 * Y + N) % 16 = N := by omega
  obtain ⟨s1, h1, hinv⟩ := drawRows_inv
    { s with opcode := 0xD000 + 0x100 * X + 0x10 * Y + N, V := upd s.V 0xF 0 }
    (s.V X) (s.V Y) N (by omega) hI hbin N 0 _ (Nat.zero_add N)
    (DrawInv.start _ _ _ (upd_same s.V 0xF 0))
  rw [emulateCycle_of_fetch rnd s _ hop, execute_D _ _ hd]
  simp only [execD, land_0F00, land_00F0, land_000F, hx, hy, hn, h1, Option.map_some']
  refine ⟨_, rfl, ?_, ?_, ?_, ?_, ?_, ?_, ?_, ?_, ?_, ?_⟩
  · intro px py hpx hpy
    rw [updateTimers_gfx]
    show s1.gfx (px + 64 * py) = _
    by_cases hm : spriteMask s.memory s.I (s.V X) (s.V Y) N px py
    · rw [if_pos hm]
      exact hinv.gfx_hit _ ((hitBefore_iff_spriteMask _ _ _ _ _ _ hpx hpy).mpr hm)
    · rw [if_neg hm, Nat.xor_zero]
      exact hinv.gfx_miss _ (fun k => hm ((hitBefore_iff_spriteMask _ _ _ _ _ _ hpx hpy).mp k))
  · rw [updateTimers_V]
    show s1.V 0xF = _
    by_cases hc : spriteCollides s.memory s.gfx s.I (s.V X) (s.V Y) N
    · rw [if_pos hc]
      exact hinv.VF_hit ((collidedBefore_iff_spriteCollides _ _ _ _).mpr hc)
    · rw [if_neg hc]
      exact hinv.VF_miss (fun k => hc ((collidedBefore_iff_spriteCollides _ _ _ _).mp k))
  · intro i hi
    rw [updateTimers_V]
    show s1.V i = _
    rw [hinv.V_other i hi]
    exact upd_other _ _ _ _ hi
  · rw [updateTimers_memory]; exact hinv.memory_eq
  · rw [updateTimers_I]; exact hinv.I_eq
  · rw [updateTimers_pc]
    show (s1.pc + 2) % 65536 = _
    rw [hinv.pc_eq]
    exact Nat.mod_eq_of_lt (by show s.pc + 2 < 65536; omega)
  · rw [updateTimers_drawFlag]
  · rw [updateTimers_sp]; exact hinv.sp_eq
  · rw [updateTimers_stack]; exact hinv.stack_eq
  · rw [updateTimers_key]; exact hinv.key_eq

/-- C6: on DXYN, with a framebuffer of zeros and ones and `I + N ≤ 4096`, one cycle gives
`gfx'[px + 64*py] = gfx[px + 64*py] XOR m(px, py)` for every pixel, where `m` is the sprite
mask taken from `memory[I ..]`, `VX` and `VY` as they were before the cycle; `VF' = 1` iff a
pixel of the mask was on before the cycle, else 0; the draw flag is true and `pc` advances by
2.  On an all-off framebuffer exactly the pixels of the mask are on afterwards and `VF' = 0`. -/
theorem C6_draw_sprite (rnd : Nat) (s : chip8) (X Y N : Nat)
    (hX : X < 16) (hY : Y < 16) (hN : N < 16)
    (hbin : ∀ i, i < 2048 → s.gfx i = 0 ∨ s.gfx i = 1)
    (hI : s.I + N ≤ 4096)
    (hop : s.fetch = some (0xD000 + 0x100 * X + 0x10 * Y + N)) :
    ∃ s', s.emulateCycle rnd = some s' ∧
      (∀ px py, px < 64 → py < 32 →
        s'.gfx (px + 64 * py) = s.gfx (px + 64 * py) ^^^
          (if spriteMask s.memory s.I (s.V X) (s.V Y) N px py then 1 else 0)) ∧
      s'.V 0xF = (if spriteCollides s.memory s.gfx s.I (s.V X) (s.V Y) N then 1 else 0) ∧
      s'.drawFlag = true ∧ s'.pc = s.pc + 2 ∧
      ((∀ i, i < 2048 → s.gfx i = 0) →
        (∀ px py, px < 64 → py < 32 →
          s'.gfx (px + 64 * py) =
            (if spriteMask s.memory s.I (s.V X) (s.V Y) N px py then 1 else 0)) ∧
        s'.V 0xF = 0) := by
  obtain ⟨s', hs', hgfx, hVF, -, -, -, hpc, hdraw, -, -, -⟩ :=
    draw_cycle rnd s X Y N hX hY hN hbin hI hop
  refine ⟨s', hs', hgfx, hVF, hdraw, hpc, ?_⟩
  intro hoff
  constructor
  · intro px py hpx hpy
    rw [hgfx px py hpx hpy, hoff _ (by omega), Nat.zero_xor]
  · rw [hVF]
    apply if_neg
    rintro ⟨px, hpx, py, hpy, -, hon⟩
    rw [hoff _ (by omega)] at hon
    exact absurd hon (by decide)

/-- C6 at `D005` on the constructed machine with `I` at the glyph of 0 (`V0 = 0`, screen
clear): pixel (0, 0) is on afterwards, `VF = 0`, the draw flag is set and `pc = 0x202`. -/
theorem C6_draw_sprite_witness :
    ∃ s', ({ chip8.withProgram [0xD0, 0x05] with I := 0x50 } : chip8).emulateCycle 0 = some s' ∧
      s'.gfx 0 = 1 ∧ s'.gfx 4 = 0 ∧ s'.V 0xF = 0 ∧ s'.drawFlag = true ∧ s'.pc = 0x202 := by
  obtain ⟨s', h, -, -, hdraw, hpc, hoff⟩ :=
    C6_draw_sprite 0 ({ chip8.withProgram [0xD0, 0x05] with I := 0x50 } : chip8) 0 0 5
      (by decide) (by decide) (by decide) (fun _ _ => Or.inl rfl) (by decide) (by rfl)
  obtain ⟨hpix, hVF⟩ := hoff (fun _ _ => rfl)
  have h0 := hpix 0 0 (by decide) (by decide)
  have h4 := hpix 4 0 (by decide) (by decide)
  rw [if_pos (by decide)] at h0
  rw [if_neg (by decide)] at h4
  exact ⟨s', h, h0, h4, hVF, hdraw, hpc⟩

/-- C7: with a framebuffer of zeros and ones, `X ≠ 0xF`, `Y ≠ 0xF`, `I + N ≤ 4096` and the
same word DXYN at `pc` and at `pc + 2`, two cycles leave the framebuffer exactly as it was
before the first draw (after the first it is the old one XOR the sprite mask), and `VF` after
the second draw is 1 iff some pixel of the mask was off before the first draw, else 0. -/
theorem C7_draw_twice (rnd1 rnd2 : Nat) (s : chip8) (X Y N : Nat)
    (hX : X < 16) (hXF : X ≠ 0xF) (hY : Y < 16) (hYF : Y ≠ 0xF) (hN : N < 16)
    (hbin : ∀ i, i < 2048 → s.gfx i = 0 ∨ s.gfx i = 1)
    (hI : s.I + N ≤ 4096)
    (hop1 : wordAt s.memory s.pc = some (0xD000 + 0x100 * X + 0x10 * Y + N))
    (hop2 : wordAt s.memory (s.pc + 2) = some (0xD000 + 0x100 * X + 0x10 * Y + N)) :
    ∃ s1 s2, s.emulateCycle rnd1 = some s1 ∧ s1.emulateCycle rnd2 = some s2 ∧
      (∀ px py, px < 64 → py < 32 →
        s1.gfx (px + 64 * py) = s.gfx (px + 64 * py) ^^^
          (if spriteMask s.memory s.I (s.V X) (s.V Y) N px py then 1 else 0)) ∧
      (∀ i, i < 2048 → s2.gfx i = s.gfx i) ∧
      (s2.V 0xF = 1 ↔ ∃ px, px < 64 ∧ ∃ py, py < 32 ∧
        spriteMask s.memory s.I (s.V X) (s.V Y) N px py ∧ s.gfx (px + 64 * py) = 0) ∧
      (s2.V 0xF = 1 ∨ s2.V 0xF = 0) := by
  obtain ⟨s1, hs1, hgfx1, -, hV1, hmem1, hI1, hpc1, -, -, -, -⟩ :=
    draw_cycle rnd1 s X Y N hX hY hN hbin hI hop1
  have hxor : ∀ g m : Nat, (g = 0 ∨ g = 1) → (m = 0 ∨ m = 1) →
      ((g ^^^ m = 0 ∨ g ^^^ m = 1) ∧ (g ^^^ m) ^^^ m = g ∧ (m = 1 → (g ^^^ m = 1 ↔ g = 0))) := by
    intro g m hg hm
    rcases hg with hg | hg <;> rcases hm with hm | hm <;> subst hg <;> subst hm <;> decide
  have hcell : ∀ i, i < 2048 → i % 64 + 64 * (i / 64) = i ∧ i % 64 < 64 ∧ i / 64 < 32 := by
    intro i hi
    omega
  have hmask01 : ∀ px py, (if spriteMask s.memory s.I (s.V X) (s.V Y) N px py then 1 else 0) = 0 ∨
      (if spriteMask s.memory s.I (s.V X) (s.V Y) N px py then 1 else 0) = 1 := by
    intro px py
    split_ifs
    · exact Or.inr rfl
    · exact Or.inl rfl
  have hbin1 : ∀ i, i < 2048 → s1.gfx i = 0 ∨ s1.gfx i = 1 := by
    intro i hi
    obtain ⟨e, h1, h2⟩ := hcell i hi
    rw [← e, hgfx1 _ _ h1 h2]
    exact (hxor _ _ (hbin _ (by omega)) (hmask01 _ _)).1
  have hf1 : s1.fetch = some (0xD000 + 0x100 * X + 0x10 * Y + N) := by
    unfold chip8.fetch
    rw [hmem1, hpc1]
    exact hop2
  obtain ⟨s2, hs2, hgfx2, hVF2, -, -, -, -, -, -, -, -⟩ :=
    draw_cycle rnd2 s1 X Y N hX hY hN hbin1 (by rw [hI1]; exact hI) hf1
  rw [hmem1, hI1, hV1 X hXF, hV1 Y hYF] at hgfx2 hVF2
  refine ⟨s1, s2, hs1, hs2, hgfx1, ?_, ?_, ?_⟩
  · intro i hi
    obtain ⟨e, h1, h2⟩ := hcell i hi
    rw [← e, hgfx2 _ _ h1 h2, hgfx1 _ _ h1 h2]
    exact (hxor _ _ (hbin _ (by omega)) (hmask01 _ _)).2.1
  · rw [hVF2]
    have hiff : spriteCollides s.memory s1.gfx s.I (s.V X) (s.V Y) N ↔
        ∃ px, px < 64 ∧ ∃ py, py < 32 ∧
          spriteMask s.memory s.I (s.V X) (s.V Y) N px py ∧ s.gfx (px + 64 * py) = 0 := by
      constructor
      · rintro ⟨px, hpx, py, hpy, hm, hon⟩
        refine ⟨px, hpx, py, hpy, hm, ?_⟩
        rw [hgfx1 _ _ hpx hpy, if_pos hm] at hon
        exact ((hxor _ 1 (hbin _ (by omega)) (Or.inr rfl)).2.2 rfl).mp hon
      · rintro ⟨px, hpx, py, hpy, hm, hoff⟩
        refine ⟨px, hpx, py, hpy, hm, ?_⟩
        rw [hgfx1 _ _ hpx hpy, if_pos hm]
        exact ((hxor _ 1 (hbin _ (by omega)) (Or.inr rfl)).2.2 rfl).mpr hoff
    by_cases hc : spriteCollides s.memory s1.gfx s.I (s.V X) (s.V Y) N
    · rw [if_pos hc]
      exact ⟨fun _ => hiff.mp hc, fun _ => rfl⟩
    · rw [if_neg hc]
      exact ⟨fun h => absurd h (by decide), fun h => absurd (hiff.mpr h) hc⟩
  · rw [hVF2]
    split_ifs
    · exact Or.inl rfl
    · exact Or.inr rfl

/-- C7 at the claim's example: the one-row sprite 0x80 drawn twice at (0, 0) on the cleared
screen of the constructed machine: pixel (0, 0) is on after the first draw and off after the
second, and `VF = 1` after the second. -/
theorem C7_draw_twice_witness :
    ∃ s1 s2,
      ({ chip8.withProgram [0xD0, 0x11, 0xD0, 0x11, 0x80] with I := 0x204 } : chip8).emulateCycle 0
        = some s1 ∧
      s1.emulateCycle 0 = some s2 ∧ s1.gfx 0 = 1 ∧ s2.gfx 0 = 0 ∧ s2.V 0xF = 1 := by
  obtain ⟨s1, s2, h1, h2, hg1, hg2, hVF, -⟩ :=
    C7_draw_twice 0 0 ({ chip8.withProgram [0xD0, 0x11, 0xD0, 0x11, 0x80] with I := 0x204 } : chip8)
      0 1 1 (by decide) (by decide) (by decide) (by decide) (by decide)
      (fun _ _ => Or.inl rfl) (by decide) (by rfl) (by rfl)
  have a := hg1 0 0 (by decide) (by decide)
  rw [if_pos (by decide)] at a
  exact ⟨s1, s2, h1, h2, a, hg2 0 (by decide),
    hVF.mpr ⟨0, by decide, 0, by decide, by decide, rfl⟩⟩

/-! ## What one cycle leaves alone -/

theorem drawCols_shape (x y row spriteByte : Nat) (n : Nat) : ∀ (col : Nat) (s e : chip8),
    drawCols x y row spriteByte n col s = some e → ∃ v g, e = { s with V := v, gfx := g } := by
  induction n with
  | zero =>
    intro col s e h
    simp only [drawCols, Option.some.injEq] at h
    exact ⟨s.V, s.gfx, h.symm⟩
  | succ n ih =>
    intro col s e h
    rw [drawCols] at h
    by_cases hb : spriteByte &&& (0x80 >>> col) ≠ 0
    · rw [if_pos hb, plot_eq, Option.some_bind] at h
      obtain ⟨v, g, he⟩ := ih _ _ _ h
      exact ⟨v, g, he⟩
    · rw [if_neg hb] at h
      exact ih _ _ _ h

theorem drawRows_shape (x y : Nat) (n : Nat) : ∀ (row : Nat) (s e : chip8),
    drawRows x y n row s = some e → ∃ v g, e = { s with V := v, gfx := g } := by
  induction n with
  | zero =>
    intro row s e h
    simp only [drawRows, Option.some.injEq] at h
    exact ⟨s.V, s.gfx, h.symm⟩
  | succ n ih =>
    intro row s e h
    rw [drawRows] at h
    obtain ⟨b, -, h⟩ := Option.bind_eq_some.mp h
    obtain ⟨s1, h1, h2⟩ := Option.bind_eq_some.mp h
    obtain ⟨v1, g1, e1⟩ := drawCols_shape _ _ _ _ _ _ _ _ h1
    obtain ⟨v2, g2, e2⟩ := ih _ _ _ h2
    subst e1
    exact ⟨v2, g2, e2⟩

theorem storeRegs_shape (n : Nat) : ∀ (i : Nat) (s e : chip8),
    storeRegs n i s = some e →
    ∃ m, e = { s with memory := m } ∧
      (∀ a, ¬ (s.I + i ≤ a ∧ a < s.I + i + n) → m a = s.memory a) ∧
      (∀ a, s.I + i ≤ a → a < s.I + i + n → a < 4096 ∧ m a = s.V (a - s.I)) := by
  induction n with
  | zero =>
    intro i s e h
    simp only [storeRegs, Option.some.injEq] at h
    exact ⟨s.memory, h.symm, fun _ _ => rfl, fun a h1 h2 => absurd h2 (by omega)⟩
  | succ n ih =>
    intro i s e h
    rw [storeRegs] at h
    obtain ⟨m1, hw, h⟩ := Option.bind_eq_some.mp h
    unfold writeArr at hw
    by_cases hb : s.I + i < 4096
    · rw [if_pos hb] at hw
      simp only [Option.some.injEq] at hw
      subst hw
      obtain ⟨m, he, hout, hin⟩ := ih _ _ _ h
      refine ⟨m, he, ?_, ?_⟩
      · intro a ha
        have h1 : ¬ (s.I + (i + 1) ≤ a ∧ a < s.I + (i + 1) + n) := by omega
        have h2 : a ≠ s.I + i := by omega
        rw [hout a h1]
        exact upd_other _ _ _ _ h2
      · intro a h1 h2
        by_cases h3 : a = s.I + i
        · have h4 : ¬ (s.I + (i + 1) ≤ a ∧ a < s.I + (i + 1) + n) := by omega
          refine ⟨by omega, ?_⟩
          rw [hout a h4]
          show upd s.memory (s.I + i) (s.V i) a = s.V (a - s.I)
          rw [h3, upd_same]
          congr 1
          omega
        · exact hin a (by show s.I + (i + 1) ≤ a; omega) (by show a < s.I + (i + 1) + n; omega)
    · rw [if_neg hb] at hw
      exact Option.noConfusion hw

theorem loadRegs_shape (n : Nat) : ∀ (i : Nat) (s e : chip8),
    loadRegs n i s = some e →
    ∃ v, e = { s with V := v } ∧
      (∀ j, ¬ (i ≤ j ∧ j < i + n) → v j = s.V j) ∧
      (∀ j, i ≤ j → j < i + n → s.I + j < 4096 ∧ v j = s.memory (s.I + j)) := by
  induction n with
  | zero =>
    intro i s e h
    simp only [loadRegs, Option.some.injEq] at h
    exact ⟨s.V, h.symm, fun _ _ => rfl, fun a h1 h2 => absurd h2 (by omega)⟩
  | succ n ih =>
    intro i s e h
    rw [loadRegs] at h
    obtain ⟨b, hr, h⟩ := Option.bind_eq_some.mp h
    unfold readArr at hr
    by_cases hb : s.I + i < 4096
    · rw [if_pos hb] at hr
      simp only [Option.some.injEq] at hr
      subst hr
      obtain ⟨v, he, hout, hin⟩ := ih _ _ _ h
      refine ⟨v, he, ?_, ?_⟩
      · intro j hj
        have h1 : ¬ (i + 1 ≤ j ∧ j < i + 1 + n) := by omega
        have h2 : j ≠ i := by omega
        rw [hout j h1]
        exact upd_other _ _ _ _ h2
      · intro j h1 h2
        by_cases h3 : j = i
        · have h4 : ¬ (i + 1 ≤ j ∧ j < i + 1 + n) := by omega
          refine ⟨by omega, ?_⟩
          rw [hout j h4]
          show upd s.V i (s.memory (s.I + i)) j = s.memory (s.I + j)
          rw [h3, upd_same]
        · exact hin j (by omega) (by omega)
    · rw [if_neg hb] at hr
      exact Option.noConfusion hr

theorem exec0_frame (s e : chip8) (h : exec0 s = some e) :
    (e.sp = s.sp ∨ e.sp ≤ 16) ∧ e.I = s.I ∧
    (∀ a, e.memory a = s.memory a) ∧ e.key = s.key := by
  unfold exec0 at h
  by_cases hE0 : s.opcode &&& 0x00FF = 0x00E0
  · rw [if_pos hE0] at h
    simp only [Option.some.injEq] at h; subst h
    exact ⟨Or.inl rfl, rfl, fun _ => rfl, rfl⟩
  rw [if_neg hE0] at h
  by_cases hEE : s.opcode &&& 0x00FF = 0x00EE
  · rw [if_pos hEE] at h
    obtain ⟨r, hr, h⟩ := Option.map_eq_some'.mp h
    have hlt : (s.sp + 65535) % 65536 < 16 := by
      unfold readArr at hr
      by_cases hb : (s.sp + 65535) % 65536 < 16
      · exact hb
      · rw [if_neg hb] at hr
        exact Option.noConfusion hr
    subst h
    exact ⟨Or.inr (Nat.le_of_lt hlt), rfl, fun _ => rfl, rfl⟩
  rw [if_neg hEE] at h
  simp only [Option.some.injEq] at h; subst h
  exact ⟨Or.inl rfl, rfl, fun _ => rfl, rfl⟩

theorem exec8_frame (s : chip8) :
    (exec8 s).sp = s.sp ∧ (exec8 s).I = s.I ∧ (exec8 s).memory = s.memory ∧
    (exec8 s).key = s.key ∧ (exec8 s).stack = s.stack ∧ (exec8 s).gfx = s.gfx := by
  simp only [exec8, chip8.advance, apply_ite chip8.sp, apply_ite chip8.I,
    apply_ite chip8.memory, apply_ite chip8.key, apply_ite chip8.stack, apply_ite chip8.gfx,
    ite_self, and_self]

theorem execD_frame (s e : chip8) (h : execD s = some e) :
    e.sp = s.sp ∧ e.I = s.I ∧ e.memory = s.memory ∧ e.key = s.key ∧ e.stack = s.stack := by
  unfold execD at h
  obtain ⟨s1, h1, h⟩ := Option.map_eq_some'.mp h
  obtain ⟨v, g, e1⟩ := drawRows_shape _ _ _ _ _ _ h1
  subst h
  subst e1
  exact ⟨rfl, rfl, rfl, rfl, rfl⟩

theorem execE_frame (s e : chip8) (h : execE s = some e) :
    e.sp = s.sp ∧ e.I = s.I ∧ e.memory = s.memory ∧ e.key = s.key ∧ e.stack = s.stack ∧
    e.V = s.V ∧ e.gfx = s.gfx := by
  unfold execE at h
  by_cases h9E : s.opcode &&& 0x00FF = 0x9E
  · rw [if_pos h9E] at h
    obtain ⟨k, -, h⟩ := Option.map_eq_some'.mp h
    subst h
    by_cases hk : k ≠ 0
    · rw [if_pos hk]; exact ⟨rfl, rfl, rfl, rfl, rfl, rfl, rfl⟩
    · rw [if_neg hk]; exact ⟨rfl, rfl, rfl, rfl, rfl, rfl, rfl⟩
  rw [if_neg h9E] at h
  by_cases hA1 : s.opcode &&& 0x00FF = 0xA1
  · rw [if_pos hA1] at h
    obtain ⟨k, -, h⟩ := Option.map_eq_some'.mp h
    subst h
    by_cases hk : k = 0
    · rw [if_pos hk]; exact ⟨rfl, rfl, rfl, rfl, rfl, rfl, rfl⟩
    · rw [if_neg hk]; exact ⟨rfl, rfl, rfl, rfl, rfl, rfl, rfl⟩
  rw [if_neg hA1] at h
  simp only [Option.some.injEq] at h; subst h
  exact ⟨rfl, rfl, rfl, rfl, rfl, rfl, rfl⟩

theorem execF_frame (s e : chip8) (hF : s.opcode / 4096 % 16 = 15) (h : execF s = some e) :
    e.sp = s.sp ∧
    (e.I = s.I ∨ (e.I ≤ 0x0FFF ∧ (s.opcode % 256 = 0x1E ∨ s.opcode % 256 = 0x29))) ∧
    (∀ a, ¬ storesInto s a → e.memory a = s.memory a) ∧ e.key = s.key := by
  unfold execF at h
  simp only [land_0F00, land_00FF, land_0FFF, land_000F] at h
  by_cases h07 : s.opcode % 256 = 0x07
  · rw [if_pos h07] at h
    simp only [Option.some.injEq] at h; subst h
    exact ⟨rfl, Or.inl rfl, fun _ _ => rfl, rfl⟩
  rw [if_neg h07] at h
  by_cases h15 : s.opcode % 256 = 0x15
  · rw [if_pos h15] at h
    simp only [Option.some.injEq] at h; subst h
    exact ⟨rfl, Or.inl rfl, fun _ _ => rfl, rfl⟩
  rw [if_neg h15] at h
  by_cases h18 : s.opcode % 256 = 0x18
  · rw [if_pos h18] at h
    simp only [Option.some.injEq] at h; subst h
    exact ⟨rfl, Or.inl rfl, fun _ _ => rfl, rfl⟩
  rw [if_neg h18] at h
  by_cases h1E : s.opcode % 256 = 0x1E
  · rw [if_pos h1E] at h
    simp only [Option.some.injEq] at h; subst h
    refine ⟨rfl, Or.inr ⟨?_, Or.inl h1E⟩, fun _ _ => rfl, rfl⟩
    show (s.I + s.V (s.opcode / 256 % 16)) % 65536 % 4096 ≤ 0x0FFF
    omega
  rw [if_neg h1E] at h
  by_cases h0A : s.opcode % 256 = 0x0A
  · rw [if_pos h0A] at h
    cases hk : scanKeys s.key 16 0 with
    | none =>
      rw [hk] at h; simp only [Option.some.injEq] at h; subst h
      exact ⟨rfl, Or.inl rfl, fun _ _ => rfl, rfl⟩
    | some k =>
      rw [hk] at h; simp only [Option.some.injEq] at h; subst h
      exact ⟨rfl, Or.inl rfl, fun _ _ => rfl, rfl⟩
  rw [if_neg h0A] at h
  by_cases h29 : s.opcode % 256 = 0x29
  · rw [if_pos h29] at h
    simp only [Option.some.injEq] at h; subst h
    refine ⟨rfl, Or.inr ⟨?_, Or.inr h29⟩, fun _ _ => rfl, rfl⟩
    show 0x50 + s.V (s.opcode / 256 % 16) % 16 * 5 ≤ 0x0FFF
    omega
  rw [if_neg h29] at h
  by_cases h33 : s.opcode % 256 = 0x33
  · rw [if_pos h33] at h
    obtain ⟨m1, hw1, h⟩ := Option.bind_eq_some.mp h
    obtain ⟨m2, hw2, h⟩ := Option.bind_eq_some.mp h
    obtain ⟨m3, hw3, h⟩ := Option.map_eq_some'.mp h
    unfold writeArr at hw1 hw2 hw3
    split_ifs at hw1 hw2 hw3
    simp only [Option.some.injEq] at hw1 hw2 hw3
    subst hw1; subst hw2; subst hw3; subst h
    refine ⟨rfl, Or.inl rfl, ?_, rfl⟩
    intro a ha
    have hne : ¬ (s.I ≤ a ∧ a ≤ s.I + 2) := fun c => ha ⟨hF, Or.inl ⟨h33, c⟩⟩
    show upd (upd (upd s.memory s.I _) (s.I + 1) _) (s.I + 2) _ a = s.memory a
    rw [upd_other _ _ _ _ (by omega), upd_other _ _ _ _ (by omega),
      upd_other _ _ _ _ (by omega)]
  rw [if_neg h33] at h
  by_cases h55 : s.opcode % 256 = 0x55
  · rw [if_pos h55] at h
    obtain ⟨s1, h1, h⟩ := Option.map_eq_some'.mp h
    obtain ⟨m, e1, hout, -⟩ := storeRegs_shape _ _ _ _ h1
    subst h; subst e1
    refine ⟨rfl, Or.inl rfl, ?_, rfl⟩
    intro a ha
    have hne : ¬ (s.I ≤ a ∧ a ≤ s.I + s.opcode / 256 % 16) :=
      fun c => ha ⟨hF, Or.inr ⟨h55, c⟩⟩
    exact hout a (by omega)
  rw [if_neg h55] at h
  by_cases h65 : s.opcode % 256 = 0x65
  · rw [if_pos h65] at h
    obtain ⟨s1, h1, h⟩ := Option.map_eq_some'.mp h
    obtain ⟨v, e1, -, -⟩ := loadRegs_shape _ _ _ _ h1
    subst h; subst e1
    exact ⟨rfl, Or.inl rfl, fun _ _ => rfl, rfl⟩
  rw [if_neg h65] at h
  simp only [Option.some.injEq] at h; subst h
  exact ⟨rfl, Or.inl rfl, fun _ _ => rfl, rfl⟩

/-- What the execute phase can do to `sp`, `I`, memory and the keypad: `sp` is kept or ends
at most 16, `I` is kept or ends at most 0xFFF, a memory byte is kept unless the instruction
is an FX33 or FX55 that stores into it, and the keypad is kept. -/
theorem execute_frame (rnd : Nat) (s e : chip8) (h : chip8.execute rnd s = some e) :
    (e.sp = s.sp ∨ e.sp ≤ 16) ∧
    (e.I = s.I ∨ (e.I ≤ 0x0FFF ∧ (s.opcode / 4096 % 16 = 10 ∨
      (s.opcode / 4096 % 16 = 15 ∧ (s.opcode % 256 = 0x1E ∨ s.opcode % 256 = 0x29))))) ∧
    (∀ a, ¬ storesInto s a → e.memory a = s.memory a) ∧ e.key = s.key := by
  have hlt : s.opcode / 4096 % 16 < 16 := Nat.mod_lt _ (by decide)
  by_cases h0 : s.opcode / 4096 % 16 = 0
  · rw [execute_0 _ _ h0] at h
    obtain ⟨a, b, c, d⟩ := exec0_frame s e h
    exact ⟨a, Or.inl b, fun x _ => c x, d⟩
  by_cases h2 : s.opcode / 4096 % 16 = 2
  · rw [execute_2 _ _ h2] at h
    obtain ⟨st, hw, h⟩ := Option.map_eq_some'.mp h
    have hsp : s.sp < 16 := by
      unfold writeArr at hw
      by_cases hb : s.sp < 16
      · exact hb
      · rw [if_neg hb] at hw
        exact Option.noConfusion hw
    subst h
    refine ⟨Or.inr ?_, Or.inl rfl, fun _ _ => rfl, rfl⟩
    show (s.sp + 1) % 65536 ≤ 16
    omega
  by_cases h8 : s.opcode / 4096 % 16 = 8
  · rw [execute_8 _ _ h8] at h
    simp only [Option.some.injEq] at h
    subst h
    obtain ⟨a, b, c, d, -, -⟩ := exec8_frame s
    exact ⟨Or.inl a, Or.inl b, fun x _ => by rw [c], d⟩
  by_cases hD : s.opcode / 4096 % 16 = 13
  · rw [execute_D _ _ hD] at h
    obtain ⟨a, b, c, d, -⟩ := execD_frame s e h
    exact ⟨Or.inl a, Or.inl b, fun x _ => by rw [c], d⟩
  by_cases hE : s.opcode / 4096 % 16 = 14
  · rw [execute_E _ _ hE] at h
    obtain ⟨a, b, c, d, -, -, -⟩ := execE_frame s e h
    exact ⟨Or.inl a, Or.inl b, fun x _ => by rw [c], d⟩
  by_cases hF : s.opcode / 4096 % 16 = 15
  · rw [execute_F _ _ hF] at h
    obtain ⟨a, b, c, d⟩ := execF_frame s e hF h
    exact ⟨Or.inl a, b.imp id (fun k => ⟨k.1, Or.inr ⟨hF, k.2⟩⟩), c, d⟩
  generalize hq : s.opcode / 4096 % 16 = q at h0 h2 h8 hD hE hF hlt
  unfold chip8.execute at h
  simp only [land_F000, land_0FFF, hq] at h
  interval_cases q
  all_goals simp only [Nat.reduceMul, Nat.reduceEqDiff, if_true, if_false] at h
  all_goals first
    | exact absurd rfl h0
    | exact absurd rfl h2
    | exact absurd rfl h8
    | exact absurd rfl hD
    | exact absurd rfl hE
    | exact absurd rfl hF
    | (simp only [Option.some.injEq] at h; subst h
       exact ⟨Or.inl rfl, Or.inl rfl, fun _ _ => rfl, rfl⟩)
    | (simp only [Option.some.injEq] at h; subst h
       split_ifs <;> exact ⟨Or.inl rfl, Or.inl rfl, fun _ _ => rfl, rfl⟩)
    | (split_ifs at h <;> simp only [Option.some.injEq] at h <;> subst h <;>
       exact ⟨Or.inl rfl, Or.inl rfl, fun _ _ => rfl, rfl⟩)
    | (simp only [Option.some.injEq] at h; subst h
       refine ⟨Or.inl rfl, Or.inr ⟨?_, Or.inl rfl⟩, fun _ _ => rfl, rfl⟩
       show s.opcode % 4096 ≤ 0x0FFF
       omega)

theorem emulateCycle_frame (rnd : Nat) (s s' : chip8) (h : s.emulateCycle rnd = some s') :
    (s'.sp = s.sp ∨ s'.sp ≤ 16) ∧ s'.key = s.key ∧
    ∃ op, s.fetch = some op ∧
      (s'.I = s.I ∨ (s'.I ≤ 0x0FFF ∧ (op / 4096 % 16 = 10 ∨
        (op / 4096 % 16 = 15 ∧ (op % 256 = 0x1E ∨ op % 256 = 0x29))))) ∧
      ∀ a, ¬ storesInto { s with opcode := op } a → s'.memory a = s.memory a := by
  obtain ⟨op, e, hop, he, hs'⟩ := emulateCycle_some rnd s s' h
  obtain ⟨a, b, c, d⟩ := execute_frame rnd _ e he
  subst hs'
  refine ⟨?_, ?_, op, hop, ?_, ?_⟩
  · rw [updateTimers_sp]; exact a
  · rw [updateTimers_key]; exact d
  · rw [updateTimers_I]; exact b
  · intro x hx
    rw [updateTimers_memory]
    exact c x hx

theorem setKey_frame (s s' : chip8) (k : Nat) (pressed : Bool)
    (h : s.setKey k pressed = some s') :
    s'.sp = s.sp ∧ s'.I = s.I ∧ s'.memory = s.memory ∧ s'.pc = s.pc ∧ s'.V = s.V ∧
    s'.gfx = s.gfx ∧ s'.stack = s.stack := by
  unfold chip8.setKey at h
  obtain ⟨key, -, h⟩ := Option.map_eq_some'.mp h
  subst h
  exact ⟨rfl, rfl, rfl, rfl, rfl, rfl, rfl⟩

theorem loadROM_frame (s : chip8) (rom : Option (List Nat)) :
    (s.loadROM rom).2.sp = s.sp ∧ (s.loadROM rom).2.I = s.I ∧
    (∀ a, a < 0x200 → (s.loadROM rom).2.memory a = s.memory a) := by
  cases rom with
  | none => exact ⟨rfl, rfl, fun _ _ => rfl⟩
  | some buffer =>
    by_cases hlen : buffer.length > 4096 - 0x200
    · have hload : s.loadROM (some buffer) = (.error LoadError.tooLarge, s) := by
        simp only [chip8.loadROM, if_pos hlen]
      rw [hload]
      exact ⟨rfl, rfl, fun _ _ => rfl⟩
    · have hload : s.loadROM (some buffer) =
          (.ok (), { s with memory := copyROM buffer 0 s.memory }) := by
        simp only [chip8.loadROM, if_neg hlen]
      rw [hload]
      refine ⟨rfl, rfl, ?_⟩
      intro a ha
      show copyROM buffer 0 s.memory a = s.memory a
      rw [copyROM_apply, if_neg (by omega)]

/-- In every reachable state the stack pointer is at most 16 and `I` is at most 0xFFF. -/
theorem Reachable.bounds {s : chip8} (h : Reachable s) : s.sp ≤ 16 ∧ s.I ≤ 0x0FFF := by
  induction h with
  | ctor => exact ⟨by decide, by decide⟩
  | loadROM s rom _ ih =>
    obtain ⟨a, b, -⟩ := loadROM_frame s rom
    rw [a, b]
    exact ih
  | setKey s s' k pressed _ hk ih =>
    obtain ⟨a, b, -⟩ := setKey_frame s s' k pressed hk
    rw [a, b]
    exact ih
  | resetDrawFlag s _ ih => exact ih
  | emulateCycle s s' rnd _ hs ih =>
    obtain ⟨a, -, op, -, b, -⟩ := emulateCycle_frame rnd s s' hs
    constructor
    · rcases a with a | a
      · rw [a]; exact ih.1
      · exact a
    · rcases b with b | b
      · rw [b]; exact ih.2
      · exact b.1

/-! ## ALU family: program counter, shifts, `VF` as destination -/

theorem exec8_shr (s : chip8) (X Y : Nat) (hX : X < 16) (hY : Y < 16)
    (hop : s.opcode = 0x8006 + 0x100 * X + 0x10 * Y) :
    exec8 s = { s with
      V := upd (upd s.V 0xF (s.V X &&& 0x1)) X (upd s.V 0xF (s.V X &&& 0x1) X >>> 1),
      pc := ((s.pc + 2) % 65536 + 2) % 65536 } := by
  have hx : s.opcode / 256 % 16 = X := by omega
  have hn : s.opcode % 16 = 6 := by omega
  simp only [exec8, land_0F00, land_00F0, land_000F, hx, hn, chip8.advance]
  rfl

theorem exec8_shl (s : chip8) (X Y : Nat) (hX : X < 16) (hY : Y < 16)
    (hop : s.opcode = 0x800E + 0x100 * X + 0x10 * Y) :
    exec8 s = { s with
      V := upd (upd s.V 0xF ((s.V X &&& 0x80) >>> 7)) X
            ((upd s.V 0xF ((s.V X &&& 0x80) >>> 7) X <<< 1) % 256),
      pc := ((s.pc + 2) % 65536 + 2) % 65536 } := by
  have hx : s.opcode / 256 % 16 = X := by omega
  have hn : s.opcode % 16 = 14 := by omega
  simp only [exec8, land_0F00, land_00F0, land_000F, hx, hn, chip8.advance]
  rfl

/-- The program counter after the ALU arm: the family's shared `pc += 2`, and for the two
shift instructions their own `pc += 2` before it. -/
theorem exec8_pc (s : chip8) :
    (exec8 s).pc =
      if s.opcode % 16 = 0x6 ∨ s.opcode % 16 = 0xE then ((s.pc + 2) % 65536 + 2) % 65536
      else (s.pc + 2) % 65536 := by
  simp only [exec8, chip8.advance, land_000F, apply_ite chip8.pc]
  by_cases h6 : s.opcode % 16 = 0x6
  · have c : s.opcode % 16 = 0x6 ∨ s.opcode % 16 = 0xE := Or.inl h6
    rw [if_pos c, if_neg (by omega), if_neg (by omega), if_neg (by omega), if_neg (by omega)]
    rw [if_neg (by omega), if_neg (by omega), if_neg (by omega), if_pos h6]
  · by_cases hE : s.opcode % 16 = 0xE
    · have c : s.opcode % 16 = 0x6 ∨ s.opcode % 16 = 0xE := Or.inr hE
      rw [if_pos c, if_neg (by omega), if_neg (by omega), if_neg (by omega), if_neg (by omega)]
      rw [if_neg (by omega), if_neg (by omega), if_neg (by omega), if_neg h6, if_pos hE]
    · have c : ¬ (s.opcode % 16 = 0x6 ∨ s.opcode % 16 = 0xE) := by omega
      rw [if_neg c, if_neg h6, if_neg hE]
      simp only [ite_self]

/-- How far one cycle on an ALU word 8XYN moves `pc`: by 2 for every `N` except 6 and E, by 4
for the shifts 8XY6 and 8XYE. -/
theorem alu_cycle_pc (rnd : Nat) (s : chip8) (op : Nat) (hop : s.fetch = some op)
    (h8 : op / 4096 % 16 = 8) :
    ∃ s', s.emulateCycle rnd = some s' ∧
      s'.pc = if op % 16 = 0x6 ∨ op % 16 = 0xE then s.pc + 4 else s.pc + 2 := by
  have hpc := (wordAt_bounds _ _ _ hop).1
  rw [emulateCycle_of_fetch rnd s op hop, execute_8 _ _ h8, Option.map_some']
  refine ⟨_, rfl, ?_⟩
  rw [updateTimers_pc, exec8_pc]
  show (if op % 16 = 0x6 ∨ op % 16 = 0xE then ((s.pc + 2) % 65536 + 2) % 65536
      else (s.pc + 2) % 65536) = _
  split_ifs <;> omega

/-- C11, the code at the shift words 8016 and 801E placed at 0x200 of the constructed
machine: one cycle leaves `pc = 0x204`, not the old `pc + 2 = 0x202`. -/
theorem C11_shift_advances_pc_twice :
    (∃ s', (chip8.withProgram [0x80, 0x16]).emulateCycle 0 = some s' ∧ s'.pc = 0x204 ∧
      s'.pc ≠ (chip8.withProgram [0x80, 0x16]).pc + 2) ∧
    (∃ s', (chip8.withProgram [0x80, 0x1E]).emulateCycle 0 = some s' ∧ s'.pc = 0x204 ∧
      s'.pc ≠ (chip8.withProgram [0x80, 0x1E]).pc + 2) := by
  constructor
  · obtain ⟨s', h, hpc⟩ :=
      alu_cycle_pc 0 (chip8.withProgram [0x80, 0x16]) 0x8016 (by rfl) (by decide)
    rw [if_pos (by decide)] at hpc
    exact ⟨s', h, hpc, by rw [hpc]; decide⟩
  · obtain ⟨s', h, hpc⟩ :=
      alu_cycle_pc 0 (chip8.withProgram [0x80, 0x1E]) 0x801E (by rfl) (by decide)
    rw [if_pos (by decide)] at hpc
    exact ⟨s', h, hpc, by rw [hpc]; decide⟩

set_option maxRecDepth 8000 in
theorem byte_msb (v : Nat) (h : v < 256) : (v &&& 0x80) >>> 7 = v / 128 := by
  have hall : ∀ w, w < 256 → (w &&& 0x80) >>> 7 = w / 128 := by decide
  exact hall v h

theorem byte_lsb (v : Nat) : v &&& 0x1 = v % 2 :=
  Nat.and_pow_two_sub_one_eq_mod v 1

/-- C18: on 8XY6 with `X ≠ 0xF`, one cycle sets `VF` to `VX mod 2` and `VX` to `VX / 2`; on
8XYE it sets `VF` to `VX / 128` and `VX` to `(2 * VX) mod 256` (`VX` as before the cycle).
The results do not depend on `VY`, and no register other than `VX` and `VF` changes (so `VY`
is unchanged whenever `Y` is neither `X` nor `0xF`). -/
theorem C18_shift (rnd : Nat) (s : chip8) (X Y : Nat)
    (hV : ∀ i, i < 16 → s.V i < 256)
    (hX : X < 16) (hXF : X ≠ 0xF) (hY : Y < 16) :
    (s.fetch = some (0x8006 + 0x100 * X + 0x10 * Y) →
      ∃ s', s.emulateCycle rnd = some s' ∧
        s'.V 0xF = s.V X % 2 ∧ s'.V X = s.V X / 2 ∧
        (∀ i, i < 16 → i ≠ X → i ≠ 0xF → s'.V i = s.V i)) ∧
    (s.fetch = some (0x800E + 0x100 * X + 0x10 * Y) →
      ∃ s', s.emulateCycle rnd = some s' ∧
        s'.V 0xF = s.V X / 128 ∧ s'.V X = (2 * s.V X) % 256 ∧
        (∀ i, i < 16 → i ≠ X → i ≠ 0xF → s'.V i = s.V i)) := by
  constructor
  · intro hop
    have hd : (0x8006 + 0x100 * X + 0x10 * Y) / 4096 % 16 = 8 := by omega
    rw [emulateCycle_of_fetch rnd s _ hop, execute_8 _ _ hd,
      exec8_shr _ X Y hX hY rfl, Option.map_some']
    refine ⟨_, rfl, ?_, ?_, ?_⟩
    · simp only [updateTimers_V]
      rw [upd_other _ _ _ _ (Ne.symm hXF), upd_same, byte_lsb]
    · simp only [updateTimers_V, upd_same]
      rw [upd_other _ _ _ _ hXF, Nat.shiftRight_eq_div_pow]
    · intro i _ hiX hiF
      simp only [updateTimers_V]
      rw [upd_other _ _ _ _ hiX, upd_other _ _ _ _ hiF]
  · intro hop
    have hd : (0x800E + 0x100 * X + 0x10 * Y) / 4096 % 16 = 8 := by omega
    rw [emulateCycle_of_fetch rnd s _ hop, execute_8 _ _ hd,
      exec8_shl _ X Y hX hY rfl, Option.map_some']
    refine ⟨_, rfl, ?_, ?_, ?_⟩
    · simp only [updateTimers_V]
      rw [upd_other _ _ _ _ (Ne.symm hXF), upd_same, byte_msb _ (hV X hX)]
    · simp only [updateTimers_V, upd_same]
      rw [upd_other _ _ _ _ hXF, Nat.shiftLeft_eq, Nat.mul_comm]
    · intro i _ hiX hiF
      simp only [updateTimers_V]
      rw [upd_other _ _ _ _ hiX, upd_other _ _ _ _ hiF]

/-- C18 at `V0 = 0x85`: 8016 gives `V0 = 0x42`, `VF = 1`; 801E gives `V0 = 0x0A`, `VF = 1`;
`V1 = 7` is untouched by both. -/
theorem C18_shift_witness :
    (∃ s', ({ chip8.withProgram [0x80, 0x16] with
              V := upd (upd (fun _ => 0) 0 0x85) 1 7 } : chip8).emulateCycle 0 = some s' ∧
      s'.V 0xF = 1 ∧ s'.V 0 = 0x42 ∧ s'.V 1 = 7) ∧
    (∃ s', ({ chip8.withProgram [0x80, 0x1E] with
              V := upd (upd (fun _ => 0) 0 0x85) 1 7 } : chip8).emulateCycle 0 = some s' ∧
      s'.V 0xF = 1 ∧ s'.V 0 = 0x0A ∧ s'.V 1 = 7) :=
  ⟨((C18_shift 0
      { chip8.withProgram [0x80, 0x16] with V := upd (upd (fun _ => 0) 0 0x85) 1 7 } 0 1
      (by decide) (by decide) (by decide) (by decide)).1 (by rfl)).imp
      fun _ h => ⟨h.1, h.2.1, h.2.2.1, h.2.2.2 1 (by decide) (by decide) (by decide)⟩,
   ((C18_shift 0
      { chip8.withProgram [0x80, 0x1E] with V := upd (upd (fun _ => 0) 0 0x85) 1 7 } 0 1
      (by decide) (by decide) (by decide) (by decide)).2 (by rfl)).imp
      fun _ h => ⟨h.1, h.2.1, h.2.2.1, h.2.2.2 1 (by decide) (by decide) (by decide)⟩⟩

theorem exec8_subn (s : chip8) (X Y : Nat) (hX : X < 16) (hY : Y < 16)
    (hop : s.opcode = 0x8007 + 0x100 * X + 0x10 * Y) :
    exec8 s = { s with
      V := upd (upd s.V 0xF (if s.V Y ≥ s.V X then 1 else 0)) X
            ((upd s.V 0xF (if s.V Y ≥ s.V X then 1 else 0) Y + 256 -
              upd s.V 0xF (if s.V Y ≥ s.V X then 1 else 0) X) % 256),
      pc := (s.pc + 2) % 65536 } := by
  have hx : s.opcode / 256 % 16 = X := by omega
  have hy : s.opcode / 16 % 16 = Y := by omega
  have hn : s.opcode % 16 = 7 := by omega
  simp only [exec8, land_0F00, land_00F0, land_000F, hx, hy, hn, chip8.advance]
  rfl

/-- With `VF` as destination the result write of 8FY4 comes last: `VF` ends as
`(VF + VY) mod 256`, whatever the carry. -/
theorem add_8FY4_result (rnd : Nat) (s : chip8) (Y : Nat)
    (hV : ∀ i, i < 16 → s.V i < 256) (hY : Y < 16)
    (hop : s.fetch = some (0x8F04 + 0x10 * Y)) :
    ∃ s', s.emulateCycle rnd = some s' ∧ s'.V 0xF = (s.V 0xF + s.V Y) % 256 := by
  have hd : (0x8F04 + 0x10 * Y) / 4096 % 16 = 8 := by omega
  have hx := hV 0xF (by decide)
  have hy := hV Y hY
  have hsum : (s.V 0xF + s.V Y) % 65536 = s.V 0xF + s.V Y := Nat.mod_eq_of_lt (by omega)
  have hw : 0x8F04 + 0x10 * Y = 0x8004 + 0x100 * 0xF + 0x10 * Y := by omega
  rw [emulateCycle_of_fetch rnd s _ hop, execute_8 _ _ hd,
    exec8_add _ 0xF Y (by decide) hY hw, Option.map_some']
  refine ⟨_, rfl, ?_⟩
  simp only [updateTimers_V, upd_same, hsum]

/-- C14, the code with `X = 0xF` (`Y = 0`, `V0 = 3`, word at 0x200 of the constructed
machine).  The flag is written to `VF` first and the result second, so `VF` ends as:
8F04 with `VF = 5`: 8 (the carry is 0); 8F05 with `VF = 5`: 254 (no-borrow is 1);
8F07 with `VF = 5`: 3 (no-borrow is 0); 8F06 with `VF = 3`: 0 (the bit shifted out is 1);
8F0E with `VF = 0x85`: 2 (the bit shifted out is 1). -/
theorem C14_VF_destination_loses_flag :
    (∃ s', ({ chip8.withProgram [0x8F, 0x04] with
              V := upd (upd (fun _ => 0) 0 3) 0xF 5 } : chip8).emulateCycle 0 = some s' ∧
      s'.V 0xF = 8) ∧
    (∃ s', ({ chip8.withProgram [0x8F, 0x05] with
              V := upd (upd (fun _ => 0) 0 3) 0xF 5 } : chip8).emulateCycle 0 = some s' ∧
      s'.V 0xF = 254) ∧
    (∃ s', ({ chip8.withProgram [0x8F, 0x07] with
              V := upd (upd (fun _ => 0) 0 3) 0xF 5 } : chip8).emulateCycle 0 = some s' ∧
      s'.V 0xF = 3) ∧
    (∃ s', ({ chip8.withProgram [0x8F, 0x06] with
              V := upd (upd (fun _ => 0) 0 3) 0xF 3 } : chip8).emulateCycle 0 = some s' ∧
      s'.V 0xF = 0) ∧
    (∃ s', ({ chip8.withProgram [0x8F, 0x0E] with
              V := upd (upd (fun _ => 0) 0 3) 0xF 0x85 } : chip8).emulateCycle 0 = some s' ∧
      s'.V 0xF = 2) := by
  refine ⟨?_, ?_, ?_, ?_, ?_⟩
  · have hf : ({ chip8.withProgram [0x8F, 0x04] with
        V := upd (upd (fun _ => 0) 0 3) 0xF 5 } : chip8).fetch = some 0x8F04 := by rfl
    rw [emulateCycle_of_fetch 0 _ _ hf, execute_8 _ _ (by rfl),
      exec8_add _ 0xF 0 (by decide) (by decide) (by rfl), Option.map_some']
    exact ⟨_, rfl, by rw [updateTimers_V]; decide⟩
  · have hf : ({ chip8.withProgram [0x8F, 0x05] with
        V := upd (upd (fun _ => 0) 0 3) 0xF 5 } : chip8).fetch = some 0x8F05 := by rfl
    rw [emulateCycle_of_fetch 0 _ _ hf, execute_8 _ _ (by rfl),
      exec8_sub _ 0xF 0 (by decide) (by decide) (by rfl), Option.map_some']
    exact ⟨_, rfl, by rw [updateTimers_V]; decide⟩
  · have hf : ({ chip8.withProgram [0x8F, 0x07] with
        V := upd (upd (fun _ => 0) 0 3) 0xF 5 } : chip8).fetch = some 0x8F07 := by rfl
    rw [emulateCycle_of_fetch 0 _ _ hf, execute_8 _ _ (by rfl),
      exec8_subn _ 0xF 0 (by decide) (by decide) (by rfl), Option.map_some']
    exact ⟨_, rfl, by rw [updateTimers_V]; decide⟩
  · have hf : ({ chip8.withProgram [0x8F, 0x06] with
        V := upd (upd (fun _ => 0) 0 3) 0xF 3 } : chip8).fetch = some 0x8F06 := by rfl
    rw [emulateCycle_of_fetch 0 _ _ hf, execute_8 _ _ (by rfl),
      exec8_shr _ 0xF 0 (by decide) (by decide) (by rfl), Option.map_some']
    exact ⟨_, rfl, by rw [updateTimers_V]; decide⟩
  · have hf : ({ chip8.withProgram [0x8F, 0x0E] with
        V := upd (upd (fun _ => 0) 0 3) 0xF 0x85 } : chip8).fetch = some 0x8F0E := by rfl
    rw [emulateCycle_of_fetch 0 _ _ hf, execute_8 _ _ (by rfl),
      exec8_shl _ 0xF 0 (by decide) (by decide) (by rfl), Option.map_some']
    exact ⟨_, rfl, by rw [updateTimers_V]; decide⟩

/-! ## Accesses outside the arrays: fetch, stack, keypad -/

theorem execute_1 (rnd : Nat) (s : chip8) (h : s.opcode / 4096 % 16 = 1) :
    chip8.execute rnd s = some { s with pc := s.opcode % 4096 } := by
  simp only [chip8.execute, land_F000, land_0FFF, h]
  rfl

theorem execute_6 (rnd : Nat) (s : chip8) (h : s.opcode / 4096 % 16 = 6) :
    chip8.execute rnd s =
      some ({ s with V := upd s.V (s.opcode / 256 % 16) (s.opcode % 256) }.advance 2) := by
  simp only [chip8.execute, land_F000, land_0F00, land_00FF, h]
  rfl

theorem execute_A (rnd : Nat) (s : chip8) (h : s.opcode / 4096 % 16 = 10) :
    chip8.execute rnd s = some ({ s with I := s.opcode % 4096 }.advance 2) := by
  simp only [chip8.execute, land_F000, land_0FFF, h]
  rfl

theorem execute_B (rnd : Nat) (s : chip8) (h : s.opcode / 4096 % 16 = 11) :
    chip8.execute rnd s = some { s with pc := (s.opcode % 4096 + s.V 0) % 65536 } := by
  simp only [chip8.execute, land_F000, land_0FFF, h]
  rfl

/-- The fetch reads `memory[pc + 1]` without a check: with `pc + 1 ≥ 4096` the read is outside
the array and the cycle has no defined result. -/
theorem emulateCycle_fetch_outside (rnd : Nat) (s : chip8) (h : 4096 ≤ s.pc + 1) :
    readArr 4096 s.memory (s.pc + 1) = none ∧ s.emulateCycle rnd = none := by
  have hr : readArr 4096 s.memory (s.pc + 1) = none := by
    unfold readArr
    rw [if_neg (by omega)]
  have hf : s.fetch = none := by
    unfold chip8.fetch wordAt
    rw [hr]
    cases readArr 4096 s.memory s.pc <;> rfl
  refine ⟨hr, ?_⟩
  unfold chip8.emulateCycle
  rw [hf]
  rfl

/-- The cycle on 1NNN: `pc = NNN`, everything else but `opcode` and the timers as before. -/
theorem jump_cycle (rnd : Nat) (s : chip8) (NNN : Nat) (hN : NNN < 4096)
    (hop : s.fetch = some (0x1000 + NNN)) :
    ∃ s', s.emulateCycle rnd = some s' ∧ s'.pc = NNN ∧ s'.V = s.V ∧ s'.I = s.I ∧
      s'.sp = s.sp ∧ s'.stack = s.stack ∧ s'.memory = s.memory ∧ s'.gfx = s.gfx ∧
      s'.key = s.key := by
  have hd : (0x1000 + NNN) / 4096 % 16 = 1 := by omega
  have hn : (0x1000 + NNN) % 4096 = NNN := by omega
  rw [emulateCycle_of_fetch rnd s _ hop, execute_1 _ _ hd, Option.map_some']
  refine ⟨_, rfl, ?_, updateTimers_V _, updateTimers_I _, updateTimers_sp _,
    updateTimers_stack _, updateTimers_memory _, updateTimers_gfx _, updateTimers_key _⟩
  rw [updateTimers_pc]
  exact hn

/-- The cycle on BNNN: `pc = NNN + V0`. -/
theorem jumpOffset_cycle (rnd : Nat) (s : chip8) (NNN : Nat) (hN : NNN < 4096)
    (hV0 : s.V 0 < 256) (hop : s.fetch = some (0xB000 + NNN)) :
    ∃ s', s.emulateCycle rnd = some s' ∧ s'.pc = NNN + s.V 0 := by
  have hd : (0xB000 + NNN) / 4096 % 16 = 11 := by omega
  have hn : (0xB000 + NNN) % 4096 = NNN := by omega
  rw [emulateCycle_of_fetch rnd s _ hop, execute_B _ _ hd, Option.map_some']
  refine ⟨_, rfl, ?_⟩
  rw [updateTimers_pc]
  show ((0xB000 + NNN) % 4096 + s.V 0) % 65536 = NNN + s.V 0
  rw [hn]
  exact Nat.mod_eq_of_lt (by omega)

/-- C12 as the code has it: the fetch is not bounds-checked.  In every state with
`pc + 1 ≥ 4096` the cycle reads `memory[pc + 1]` outside the 4096-byte array, so it has no
defined result (and reports nothing); such states are reached by 1NNN with `NNN = 0xFFF` and
by BNNN with `NNN + V0 ≥ 4095`. -/
theorem C12_fetch_unchecked (rnd : Nat) (s : chip8) :
    (4096 ≤ s.pc + 1 →
      readArr 4096 s.memory (s.pc + 1) = none ∧ s.emulateCycle rnd = none) ∧
    (s.fetch = some 0x1FFF →
      ∃ s', s.emulateCycle rnd = some s' ∧ s'.pc = 0xFFF ∧ 4096 ≤ s'.pc + 1 ∧
        s'.emulateCycle rnd = none) ∧
    (∀ NNN, NNN < 4096 → s.V 0 < 256 → 4095 ≤ NNN + s.V 0 → s.fetch = some (0xB000 + NNN) →
      ∃ s', s.emulateCycle rnd = some s' ∧ s'.pc = NNN + s.V 0 ∧ 4096 ≤ s'.pc + 1 ∧
        s'.emulateCycle rnd = none) := by
  refine ⟨emulateCycle_fetch_outside rnd s, ?_, ?_⟩
  · intro hop
    obtain ⟨s', h, hpc, -⟩ := jump_cycle rnd s 0xFFF (by decide) hop
    have hout : 4096 ≤ s'.pc + 1 := by omega
    exact ⟨s', h, hpc, hout, (emulateCycle_fetch_outside rnd s' hout).2⟩
  · intro NNN hN hV0 hsum hop
    obtain ⟨s', h, hpc⟩ := jumpOffset_cycle rnd s NNN hN hV0 hop
    have hout : 4096 ≤ s'.pc + 1 := by omega
    exact ⟨s', h, hpc, hout, (emulateCycle_fetch_outside rnd s' hout).2⟩

/-- C12 at the program `1FFF` on the constructed machine: the first cycle jumps to 0xFFF, the
second has no defined result. -/
theorem C12_fetch_unchecked_witness :
    ∃ s', (chip8.withProgram [0x1F, 0xFF]).emulateCycle 0 = some s' ∧ s'.pc = 0xFFF ∧
      s'.emulateCycle 0 = none :=
  ((C12_fetch_unchecked 0 (chip8.withProgram [0x1F, 0xFF])).2.1 (by rfl)).imp
    fun _ h => ⟨h.1, h.2.1, h.2.2.2⟩

/-- C12 as stated fails: after `1FFF` the constructed machine is in a state with
`pc + 1 ≥ 4096`, and the next cycle does not end in a state (reported or not) that has `pc`,
the registers, `I`, `sp`, the stack, memory and the framebuffer unchanged: it reads
`memory[4096]`. -/
theorem C12_fetch_unchecked_counterexample :
    ∃ s1, (chip8.withProgram [0x1F, 0xFF]).emulateCycle 0 = some s1 ∧ 4096 ≤ s1.pc + 1 ∧
      readArr 4096 s1.memory (s1.pc + 1) = none ∧
      ¬ ∃ s2, s1.emulateCycle 0 = some s2 ∧ s2.pc = s1.pc ∧ s2.V = s1.V ∧ s2.I = s1.I ∧
        s2.sp = s1.sp ∧ s2.stack = s1.stack ∧ s2.memory = s1.memory ∧ s2.gfx = s1.gfx := by
  obtain ⟨s1, h, hpc, -⟩ :=
    jump_cycle 0 (chip8.withProgram [0x1F, 0xFF]) 0xFFF (by decide) (by rfl)
  have hout : 4096 ≤ s1.pc + 1 := by omega
  obtain ⟨hr, hnone⟩ := emulateCycle_fetch_outside 0 s1 hout
  refine ⟨s1, h, hout, hr, ?_⟩
  rintro ⟨s2, h2, -⟩
  rw [hnone] at h2
  exact Option.noConfusion h2

/-- CALL writes `stack[sp]` without a check: with `sp ≥ 16` the write is outside the 16-slot
array and the cycle has no defined result. -/
theorem call_outside (rnd : Nat) (s : chip8) (NNN : Nat) (hN : NNN < 4096)
    (hop : s.fetch = some (0x2000 + NNN)) (hsp : 16 ≤ s.sp) :
    writeArr 16 s.stack s.sp ((s.pc + 2) % 65536) = none ∧ s.emulateCycle rnd = none := by
  have hd : (0x2000 + NNN) / 4096 % 16 = 2 := by omega
  have hw : writeArr 16 s.stack s.sp ((s.pc + 2) % 65536) = none := by
    unfold writeArr
    rw [if_neg (by omega)]
  refine ⟨hw, ?_⟩
  rw [emulateCycle_of_fetch rnd s _ hop, execute_2 _ _ hd]
  show Option.map _ (Option.map _ (writeArr 16 s.stack s.sp ((s.pc + 2) % 65536))) = none
  rw [hw]
  rfl

/-- RET decrements the 16-bit `sp` and reads `stack[sp]` without a check: with `sp = 0` the
index is 65535, outside the 16-slot array, and the cycle has no defined result. -/
theorem ret_outside (rnd : Nat) (s : chip8) (hop : s.fetch = some 0x00EE) (hsp : s.sp = 0) :
    (s.sp + 65535) % 65536 = 65535 ∧ readArr 16 s.stack 65535 = none ∧
    s.emulateCycle rnd = none := by
  have hd : (0x00EE : Nat) / 4096 % 16 = 0 := by decide
  have hE0 : ¬ ((0x00EE : Nat) % 256 = 0x00E0) := by decide
  have hEE : (0x00EE : Nat) % 256 = 0x00EE := by decide
  have hidx : (s.sp + 65535) % 65536 = 65535 := by omega
  have hr : readArr 16 s.stack 65535 = none := by
    unfold readArr
    rw [if_neg (by decide)]
  refine ⟨hidx, hr, ?_⟩
  rw [emulateCycle_of_fetch rnd s _ hop, execute_0 _ _ hd]
  simp only [exec0, land_00FF, if_neg hE0, if_pos hEE, hidx, hr, Option.map_none', if_true]

/-- The cycle on 2NNN with room on the stack. -/
theorem call_cycle (rnd : Nat) (s : chip8) (NNN : Nat) (hN : NNN < 4096)
    (hop : s.fetch = some (0x2000 + NNN)) (hsp : s.sp < 16) :
    ∃ s', s.emulateCycle rnd = some s' ∧ s'.pc = NNN ∧ s'.sp = s.sp + 1 ∧
      s'.memory = s.memory := by
  have hd : (0x2000 + NNN) / 4096 % 16 = 2 := by omega
  have e1 : (s.sp + 1) % 65536 = s.sp + 1 := Nat.mod_eq_of_lt (by omega)
  have e2 : (0x2000 + NNN) % 4096 = NNN := by omega
  have hw : writeArr 16 s.stack s.sp ((s.pc + 2) % 65536) =
      some (upd s.stack s.sp ((s.pc + 2) % 65536)) := by
    simp only [writeArr, if_pos hsp]
  rw [emulateCycle_of_fetch rnd s _ hop, execute_2 _ _ hd]
  simp only [hw, Option.map_some', e1, e2]
  exact ⟨_, rfl, updateTimers_pc _, updateTimers_sp _, updateTimers_memory _⟩

/-- Running cycles from a reachable state stays among the reachable states. -/
theorem Reachable.run (n : Nat) : ∀ (rnds : Nat → Nat) (s0 sn : chip8),
    Reachable s0 → chip8.run rnds n s0 = some sn → Reachable sn := by
  induction n with
  | zero =>
    intro rnds s0 sn h0 hr
    simp only [chip8.run, Option.some.injEq] at hr
    subst hr
    exact h0
  | succ n ih =>
    intro rnds s0 sn h0 hr
    rw [chip8.run] at hr
    obtain ⟨s1, h1, h2⟩ := Option.bind_eq_some.mp hr
    exact ih _ s1 sn (Reachable.emulateCycle s0 s1 _ h0 h1) h2

/-- The program `2200` (a call to itself at 0x200) fills the stack: for `n ≤ 16` it runs `n`
cycles and ends with `sp = n`, again at 0x200. -/
theorem call_self_run (n : Nat) (hn : n ≤ 16) :
    ∃ sn, Reachable sn ∧ sn.sp = n ∧ sn.pc = 0x200 ∧
      sn.memory = (chip8.withProgram [0x22, 0x00]).memory := by
  induction n with
  | zero =>
    exact ⟨chip8.withProgram [0x22, 0x00], Reachable.loadROM _ _ Reachable.ctor, rfl, rfl, rfl⟩
  | succ n ih =>
    obtain ⟨sn, hreach, hsp, hpc, hmem⟩ := ih (by omega)
    have hf : sn.fetch = some (0x2000 + 0x200) := by
      unfold chip8.fetch
      rw [hmem, hpc]
      rfl
    obtain ⟨s', h, hpc', hsp', hmem'⟩ :=
      call_cycle 0 sn 0x200 (by decide) hf (by omega)
    exact ⟨s', Reachable.emulateCycle sn s' 0 hreach h, by omega, hpc', hmem'.trans hmem⟩

/-- C13 as the code has it: the stack capacity is not enforced.  A CALL executed with
`sp = 16` writes `stack[16]`, and a RET executed with `sp = 0` decrements `sp` to 65535 and
reads `stack[65535]`: both are outside the 16-slot array, so the cycle has no defined result
(and reports nothing).  In every reachable state `sp ≤ 16`, and a state with `sp = 16` facing
a CALL is reachable, as is a state with `sp = 0` facing a RET. -/
theorem C13_stack_unchecked (rnd : Nat) (s : chip8) :
    (∀ NNN, NNN < 4096 → s.fetch = some (0x2000 + NNN) → s.sp = 16 →
      writeArr 16 s.stack s.sp ((s.pc + 2) % 65536) = none ∧ s.emulateCycle rnd = none) ∧
    (s.fetch = some 0x00EE → s.sp = 0 →
      (s.sp + 65535) % 65536 = 65535 ∧ readArr 16 s.stack 65535 = none ∧
      s.emulateCycle rnd = none) ∧
    (Reachable s → s.sp ≤ 16) ∧
    (∃ t, Reachable t ∧ t.sp = 16 ∧ t.fetch = some 0x2200 ∧ t.emulateCycle rnd = none) ∧
    (∃ t, Reachable t ∧ t.sp = 0 ∧ t.fetch = some 0x00EE ∧ t.emulateCycle rnd = none) := by
  refine ⟨?_, ?_, ?_, ?_, ?_⟩
  · intro NNN hN hop hsp
    exact call_outside rnd s NNN hN hop (by omega)
  · intro hop hsp
    exact ret_outside rnd s hop hsp
  · intro h
    exact h.bounds.1
  · obtain ⟨t, hreach, hsp, hpc, hmem⟩ := call_self_run 16 (Nat.le_refl 16)
    have hf : t.fetch = some 0x2200 := by
      unfold chip8.fetch
      rw [hmem, hpc]
      rfl
    exact ⟨t, hreach, hsp, hf, (call_outside rnd t 0x200 (by decide) hf (by omega)).2⟩
  · have hf : (chip8.withProgram [0x00, 0xEE]).fetch = some 0x00EE := by rfl
    exact ⟨chip8.withProgram [0x00, 0xEE], Reachable.loadROM _ _ Reachable.ctor, rfl, hf,
      (ret_outside rnd _ hf rfl).2.2⟩

/-- C13 at the program `00EE` on the constructed machine (`sp = 0`): the RET reads
`stack[65535]` and the cycle has no defined result. -/
theorem C13_stack_unchecked_witness :
    readArr 16 (chip8.withProgram [0x00, 0xEE]).stack 65535 = none ∧
    (chip8.withProgram [0x00, 0xEE]).emulateCycle 0 = none :=
  ((C13_stack_unchecked 0 (chip8.withProgram [0x00, 0xEE])).2.1 (by rfl) rfl).2

/-- C13 as stated fails: the constructed machine loaded with `00EE` executes a RET with
`sp = 0`; the cycle does not end in a state with `sp` and the stack unchanged (reported or
not), it reads `stack[65535]`. -/
theorem C13_stack_unchecked_counterexample :
    (chip8.withProgram [0x00, 0xEE]).sp = 0 ∧
    (chip8.withProgram [0x00, 0xEE]).fetch = some 0x00EE ∧
    readArr 16 (chip8.withProgram [0x00, 0xEE]).stack
      (((chip8.withProgram [0x00, 0xEE]).sp + 65535) % 65536) = none ∧
    ¬ ∃ s', (chip8.withProgram [0x00, 0xEE]).emulateCycle 0 = some s' ∧
      s'.sp = (chip8.withProgram [0x00, 0xEE]).sp ∧
      s'.stack = (chip8.withProgram [0x00, 0xEE]).stack := by
  have hf : (chip8.withProgram [0x00, 0xEE]).fetch = some 0x00EE := by rfl
  obtain ⟨-, hr, hnone⟩ := ret_outside 0 (chip8.withProgram [0x00, 0xEE]) hf rfl
  refine ⟨rfl, hf, hr, ?_⟩
  rintro ⟨s', h, -⟩
  rw [hnone] at h
  exact Option.noConfusion h

theorem execE_skip (s : chip8) (X : Nat) (hX : X < 16) (nn : Nat)
    (hnn : nn = 0x9E ∨ nn = 0xA1) (hop : s.opcode = 0xE000 + 0x100 * X + nn) :
    execE s =
      (readArr 16 s.key (s.V X)).map fun k =>
        if nn = 0x9E then (if k ≠ 0 then s.advance 4 else s.advance 2)
        else (if k = 0 then s.advance 4 else s.advance 2) := by
  have hx : s.opcode / 256 % 16 = X := by omega
  rcases hnn with h | h
  · have hn : s.opcode % 256 = 0x9E := by omega
    subst h
    simp only [execE, land_0F00, land_00FF, hx, hn, if_true]
  · have hn : s.opcode % 256 = 0xA1 := by omega
    have hne : ¬ s.opcode % 256 = 0x9E := by omega
    subst h
    simp only [execE, land_0F00, land_00FF, hx, hn, if_true]
    rfl

/-- The cycle on 6XNN: `VX = NN`, `pc` two further, memory and the rest as before. -/
theorem loadImm_cycle (rnd : Nat) (s : chip8) (X NN : Nat) (hX : X < 16) (hNN : NN < 256)
    (hop : s.fetch = some (0x6000 + 0x100 * X + NN)) :
    ∃ s', s.emulateCycle rnd = some s' ∧ s'.V X = NN ∧ s'.pc = s.pc + 2 ∧
      s'.memory = s.memory ∧ s'.I = s.I := by
  have hpc := (wordAt_bounds _ _ _ hop).1
  have hd : (0x6000 + 0x100 * X + NN) / 4096 % 16 = 6 := by omega
  have hx : (0x6000 + 0x100 * X + NN) / 256 % 16 = X := by omega
  have hn : (0x6000 + 0x100 * X + NN) % 256 = NN := by omega
  rw [emulateCycle_of_fetch rnd s _ hop, execute_6 _ _ hd, Option.map_some']
  refine ⟨_, rfl, ?_, ?_, updateTimers_memory _, updateTimers_I _⟩
  · rw [updateTimers_V]
    show upd s.V ((0x6000 + 0x100 * X + NN) / 256 % 16) ((0x6000 + 0x100 * X + NN) % 256) X = NN
    rw [hx, hn, upd_same]
  · rw [updateTimers_pc]
    exact Nat.mod_eq_of_lt (by show s.pc + 2 < 65536; omega)

/-- The key skips index `key[]` with `VX` unchecked: with `VX ≥ 16` the read is outside the
16-entry array and the cycle has no defined result. -/
theorem keySkip_outside (rnd : Nat) (s : chip8) (X nn : Nat) (hX : X < 16)
    (hnn : nn = 0x9E ∨ nn = 0xA1) (hop : s.fetch = some (0xE000 + 0x100 * X + nn))
    (hV : 16 ≤ s.V X) :
    readArr 16 s.key (s.V X) = none ∧ s.emulateCycle rnd = none := by
  have hd : (0xE000 + 0x100 * X + nn) / 4096 % 16 = 14 := by omega
  have hr : readArr 16 s.key (s.V X) = none := by
    unfold readArr
    rw [if_neg (by omega)]
  refine ⟨hr, ?_⟩
  rw [emulateCycle_of_fetch rnd s _ hop, execute_E _ _ hd, execE_skip _ X hX nn hnn rfl]
  show Option.map _ (Option.map _ (readArr 16 s.key (s.V X))) = none
  rw [hr]
  rfl

/-- C15 as the code has it: the key skips use `VX` as index into `key[]` without a check.
When `VX ≤ 15`, EX9E sets `pc` to `pc + 4` if key `VX` is down and to `pc + 2` otherwise,
EXA1 does the opposite, and nothing but `pc` (and `opcode`, the timers) changes; when
`VX ≥ 16` the read is outside the array and the cycle has no defined result. -/
theorem C15_key_skip (rnd : Nat) (s : chip8) (X : Nat) (hX : X < 16) :
    (s.V X < 16 → s.fetch = some (0xE09E + 0x100 * X) →
      ∃ s', s.emulateCycle rnd = some s' ∧
        s'.pc = (if s.key (s.V X) ≠ 0 then s.pc + 4 else s.pc + 2) ∧
        s'.V = s.V ∧ s'.I = s.I ∧ s'.sp = s.sp ∧ s'.stack = s.stack ∧
        s'.memory = s.memory ∧ s'.gfx = s.gfx ∧ s'.key = s.key ∧
        s'.drawFlag = s.drawFlag) ∧
    (s.V X < 16 → s.fetch = some (0xE0A1 + 0x100 * X) →
      ∃ s', s.emulateCycle rnd = some s' ∧
        s'.pc = (if s.key (s.V X) = 0 then s.pc + 4 else s.pc + 2) ∧
        s'.V = s.V ∧ s'.I = s.I ∧ s'.sp = s.sp ∧ s'.stack = s.stack ∧
        s'.memory = s.memory ∧ s'.gfx = s.gfx ∧ s'.key = s.key ∧
        s'.drawFlag = s.drawFlag) ∧
    (16 ≤ s.V X →
      (s.fetch = some (0xE09E + 0x100 * X) ∨ s.fetch = some (0xE0A1 + 0x100 * X)) →
      readArr 16 s.key (s.V X) = none ∧ s.emulateCycle rnd = none) := by
  refine ⟨?_, ?_, ?_⟩
  · intro hV hop
    have hpc := (wordAt_bounds _ _ _ hop).1
    have hw : 0xE09E + 0x100 * X = 0xE000 + 0x100 * X + 0x9E := by omega
    have hd : (0xE09E + 0x100 * X) / 4096 % 16 = 14 := by omega
    have hr : readArr 16 s.key (s.V X) = some (s.key (s.V X)) := by
      simp only [readArr, if_pos hV]
    rw [emulateCycle_of_fetch rnd s _ hop, execute_E _ _ hd,
      execE_skip _ X hX 0x9E (Or.inl rfl) hw]
    show ∃ s', Option.map _ (Option.map _ (readArr 16 s.key (s.V X))) = some s' ∧ _
    rw [hr]
    simp only [Option.map_some', if_true]
    by_cases hk : s.key (s.V X) ≠ 0
    · rw [if_pos hk, if_pos hk]
      refine ⟨_, rfl, ?_, updateTimers_V _, updateTimers_I _, updateTimers_sp _,
        updateTimers_stack _, updateTimers_memory _, updateTimers_gfx _, updateTimers_key _,
        updateTimers_drawFlag _⟩
      rw [updateTimers_pc]
      exact Nat.mod_eq_of_lt (by show s.pc + 4 < 65536; omega)
    · rw [if_neg hk, if_neg hk]
      refine ⟨_, rfl, ?_, updateTimers_V _, updateTimers_I _, updateTimers_sp _,
        updateTimers_stack _, updateTimers_memory _, updateTimers_gfx _, updateTimers_key _,
        updateTimers_drawFlag _⟩
      rw [updateTimers_pc]
      exact Nat.mod_eq_of_lt (by show s.pc + 2 < 65536; omega)
  · intro hV hop
    have hpc := (wordAt_bounds _ _ _ hop).1
    have hw : 0xE0A1 + 0x100 * X = 0xE000 + 0x100 * X + 0xA1 := by omega
    have hd : (0xE0A1 + 0x100 * X) / 4096 % 16 = 14 := by omega
    have hr : readArr 16 s.key (s.V X) = some (s.key (s.V X)) := by
      simp only [readArr, if_pos hV]
    have hne : ¬ ((0xA1 : Nat) = 0x9E) := by decide
    rw [emulateCycle_of_fetch rnd s _ hop, execute_E _ _ hd,
      execE_skip _ X hX 0xA1 (Or.inr rfl) hw]
    show ∃ s', Option.map _ (Option.map _ (readArr 16 s.key (s.V X))) = some s' ∧ _
    rw [hr]
    simp only [Option.map_some', if_neg hne]
    by_cases hk : s.key (s.V X) = 0
    · rw [if_pos hk, if_pos hk]
      refine ⟨_, rfl, ?_, updateTimers_V _, updateTimers_I _, updateTimers_sp _,
        updateTimers_stack _, updateTimers_memory _, updateTimers_gfx _, updateTimers_key _,
        updateTimers_drawFlag _⟩
      rw [updateTimers_pc]
      exact Nat.mod_eq_of_lt (by show s.pc + 4 < 65536; omega)
    · rw [if_neg hk, if_neg hk]
      refine ⟨_, rfl, ?_, updateTimers_V _, updateTimers_I _, updateTimers_sp _,
        updateTimers_stack _, updateTimers_memory _, updateTimers_gfx _, updateTimers_key _,
        updateTimers_drawFlag _⟩
      rw [updateTimers_pc]
      exact Nat.mod_eq_of_lt (by show s.pc + 2 < 65536; omega)
  · intro hV hop
    rcases hop with hop | hop
    · have hw : 0xE09E + 0x100 * X = 0xE000 + 0x100 * X + 0x9E := by omega
      rw [hw] at hop
      exact keySkip_outside rnd s X 0x9E hX (Or.inl rfl) hop hV
    · have hw : 0xE0A1 + 0x100 * X = 0xE000 + 0x100 * X + 0xA1 := by omega
      rw [hw] at hop
      exact keySkip_outside rnd s X 0xA1 hX (Or.inr rfl) hop hV

/-- C15 at `E09E` on the constructed machine (`V0 = 0`): with key 0 down `pc` goes from
0x200 to 0x204; and with `V0 = 16` the cycle has no defined result. -/
theorem C15_key_skip_witness :
    (∃ s', ({ chip8.withProgram [0xE0, 0x9E] with key := upd (fun _ => 0) 0 1 }
        : chip8).emulateCycle 0 = some s' ∧ s'.pc = 0x204) ∧
    ({ chip8.withProgram [0xE0, 0x9E] with V := upd (fun _ => 0) 0 16 }
        : chip8).emulateCycle 0 = none :=
  ⟨((C15_key_skip 0 { chip8.withProgram [0xE0, 0x9E] with key := upd (fun _ => 0) 0 1 } 0
      (by decide)).1 (by decide) (by rfl)).imp fun _ h => ⟨h.1, h.2.1⟩,
   ((C15_key_skip 0 { chip8.withProgram [0xE0, 0x9E] with V := upd (fun _ => 0) 0 16 } 0
      (by decide)).2.2 (by decide) (Or.inl (by rfl))).2⟩

/-- C15 as stated fails: the program `6010 E09E` on the constructed machine reaches, after
one cycle, a state where EX9E is about to use `V0 = 16`, which is no key number in 0..15;
that cycle reads `key[16]` and does not end in a state with `pc` at `pc + 4` or `pc + 2`. -/
theorem C15_key_skip_counterexample :
    ∃ s1, (chip8.withProgram [0x60, 0x10, 0xE0, 0x9E]).emulateCycle 0 = some s1 ∧
      s1.fetch = some 0xE09E ∧ s1.V 0 = 16 ∧ ¬ s1.V 0 < 16 ∧
      readArr 16 s1.key (s1.V 0) = none ∧
      ¬ ∃ s2, s1.emulateCycle 0 = some s2 ∧ (s2.pc = s1.pc + 4 ∨ s2.pc = s1.pc + 2) := by
  obtain ⟨s1, h, hV, hpc, hmem, -⟩ :=
    loadImm_cycle 0 (chip8.withProgram [0x60, 0x10, 0xE0, 0x9E]) 0 0x10 (by decide)
      (by decide) (by rfl)
  have hf : s1.fetch = some (0xE000 + 0x100 * 0 + 0x9E) := by
    unfold chip8.fetch
    rw [hmem, hpc]
    rfl
  obtain ⟨hr, hnone⟩ := keySkip_outside 0 s1 0 0x9E (by decide) (Or.inl rfl) hf (by omega)
  refine ⟨s1, h, hf, hV, by omega, hr, ?_⟩
  rintro ⟨s2, h2, -⟩
  rw [hnone] at h2
  exact Option.noConfusion h2

/-! ## Index register (FX1E) -/

theorem execF_addI (s : chip8) (X : Nat) (hX : X < 16) (hop : s.opcode = 0xF01E + 0x100 * X) :
    execF s = some ({ s with
      V := upd s.V 0xF (if (s.I + s.V X) % 65536 > 0x0FFF then 1 else 0),
      I := (s.I + s.V X) % 65536 % 4096 }.advance 2) := by
  have hx : s.opcode / 256 % 16 = X := by omega
  have hn : s.opcode % 256 = 0x1E := by omega
  simp only [execF, land_0F00, land_00FF, land_0FFF, hx, hn]
  rfl

/-- C17: FX1E sets `I` to `(I + VX) mod 4096` and, when `I + VX` fits in 16 bits (as it does
whenever `I ≤ 0xFFF` and `VX` is a byte), `VF` to 1 if `I + VX > 0xFFF` and to 0 otherwise,
for every `X` (`VX` is read before `VF` is written).  A cycle changes `I` only on ANNN, FX1E
and FX29, and then to a value of at most 0xFFF; so `I ≤ 0xFFF` in every reachable state. -/
theorem C17_index_register (rnd : Nat) (s : chip8) :
    (∀ X, X < 16 → s.fetch = some (0xF01E + 0x100 * X) →
      ∃ s', s.emulateCycle rnd = some s' ∧ s'.I = (s.I + s.V X) % 4096 ∧
        (s.I + s.V X < 65536 → s'.V 0xF = (if s.I + s.V X > 0x0FFF then 1 else 0))) ∧
    (∀ s', s.emulateCycle rnd = some s' →
      ∃ op, s.fetch = some op ∧ (s'.I = s.I ∨ (s'.I ≤ 0x0FFF ∧ (op / 4096 % 16 = 0xA ∨
        (op / 4096 % 16 = 0xF ∧ (op % 256 = 0x1E ∨ op % 256 = 0x29)))))) ∧
    (Reachable s → s.I ≤ 0x0FFF) := by
  refine ⟨?_, ?_, ?_⟩
  · intro X hX hop
    have hd : (0xF01E + 0x100 * X) / 4096 % 16 = 15 := by omega
    rw [emulateCycle_of_fetch rnd s _ hop, execute_F _ _ hd, execF_addI _ X hX rfl,
      Option.map_some']
    refine ⟨_, rfl, ?_, ?_⟩
    · rw [updateTimers_I]
      show (s.I + s.V X) % 65536 % 4096 = (s.I + s.V X) % 4096
      omega
    · intro hfit
      rw [updateTimers_V]
      show upd s.V 0xF (if (s.I + s.V X) % 65536 > 0x0FFF then 1 else 0) 0xF = _
      rw [upd_same, Nat.mod_eq_of_lt hfit]
  · intro s' h
    obtain ⟨-, -, op, hop, hI, -⟩ := emulateCycle_frame rnd s s' h
    exact ⟨op, hop, hI⟩
  · intro h
    exact h.bounds.2

/-- C17 at `FF1E` on the constructed machine with `I = 0xFFE` and `VF = 3`: `I` becomes 1
and `VF` becomes 1. -/
theorem C17_index_register_witness :
    ∃ s', ({ chip8.withProgram [0xFF, 0x1E] with I := 0xFFE, V := upd (fun _ => 0) 0xF 3 }
        : chip8).emulateCycle 0 = some s' ∧ s'.I = 1 ∧ s'.V 0xF = 1 :=
  ((C17_index_register 0
      { chip8.withProgram [0xFF, 0x1E] with I := 0xFFE, V := upd (fun _ => 0) 0xF 3 }).1
      0xF (by decide) (by rfl)).imp fun _ h => ⟨h.1, h.2.1, h.2.2 (by decide)⟩

/-! ## BCD store (FX33) -/

theorem execF_bcd (s : chip8) (X : Nat) (hX : X < 16) (hop : s.opcode = 0xF033 + 0x100 * X)
    (hI : s.I + 2 < 4096) :
    execF s = some ({ s with
      memory := upd (upd (upd s.memory s.I (s.V X / 100)) (s.I + 1) ((s.V X / 10) % 10))
        (s.I + 2) (s.V X % 10) }.advance 2) := by
  have hx : s.opcode / 256 % 16 = X := by omega
  have hn : s.opcode % 256 = 0x33 := by omega
  have h0 : s.I < 4096 := by omega
  have h1 : s.I + 1 < 4096 := by omega
  simp only [execF, land_0F00, land_00FF, hx, hn, writeArr, if_pos h0, if_pos h1, if_pos hI]
  rfl

/-- C19: on FX33 with `I + 2 < 4096`, one cycle writes `h = memory[I]`, `t = memory[I+1]`,
`o = memory[I+2]` with `h ≤ 2`, `t ≤ 9`, `o ≤ 9` and `100*h + 10*t + o = VX`; every other
memory byte, every register and `I` are unchanged, and `pc` advances by 2. -/
theorem C19_bcd (rnd : Nat) (s : chip8) (X : Nat) (hX : X < 16)
    (hV : s.V X < 256) (hI : s.I + 2 < 4096)
    (hop : s.fetch = some (0xF033 + 0x100 * X)) :
    ∃ s', s.emulateCycle rnd = some s' ∧
      s'.memory s.I ≤ 2 ∧ s'.memory (s.I + 1) ≤ 9 ∧ s'.memory (s.I + 2) ≤ 9 ∧
      100 * s'.memory s.I + 10 * s'.memory (s.I + 1) + s'.memory (s.I + 2) = s.V X ∧
      (∀ a, ¬ (s.I ≤ a ∧ a ≤ s.I + 2) → s'.memory a = s.memory a) ∧
      s'.V = s.V ∧ s'.I = s.I ∧ s'.pc = s.pc + 2 := by
  have hpc := (wordAt_bounds _ _ _ hop).1
  have hd : (0xF033 + 0x100 * X) / 4096 % 16 = 15 := by omega
  rw [emulateCycle_of_fetch rnd s _ hop, execute_F _ _ hd,
    execF_bcd { s with opcode := 0xF033 + 0x100 * X } X hX rfl hI, Option.map_some']
  have m0 : upd (upd (upd s.memory s.I (s.V X / 100)) (s.I + 1) ((s.V X / 10) % 10))
      (s.I + 2) (s.V X % 10) s.I = s.V X / 100 := by
    rw [upd_other _ _ _ _ (by omega), upd_other _ _ _ _ (by omega), upd_same]
  have m1 : upd (upd (upd s.memory s.I (s.V X / 100)) (s.I + 1) ((s.V X / 10) % 10))
      (s.I + 2) (s.V X % 10) (s.I + 1) = (s.V X / 10) % 10 := by
    rw [upd_other _ _ _ _ (by omega), upd_same]
  have m2 : upd (upd (upd s.memory s.I (s.V X / 100)) (s.I + 1) ((s.V X / 10) % 10))
      (s.I + 2) (s.V X % 10) (s.I + 2) = s.V X % 10 := upd_same _ _ _
  refine ⟨_, rfl, ?_, ?_, ?_, ?_, ?_, updateTimers_V _, updateTimers_I _, ?_⟩
  · rw [updateTimers_memory]
    show upd _ _ _ s.I ≤ 2
    rw [m0]; omega
  · rw [updateTimers_memory]
    show upd _ _ _ (s.I + 1) ≤ 9
    rw [m1]; omega
  · rw [updateTimers_memory]
    show upd _ _ _ (s.I + 2) ≤ 9
    rw [m2]; omega
  · rw [updateTimers_memory]
    show 100 * upd _ _ _ s.I + 10 * upd _ _ _ (s.I + 1) + upd _ _ _ (s.I + 2) = s.V X
    rw [m0, m1, m2]; omega
  · intro a ha
    rw [updateTimers_memory]
    show upd (upd (upd s.memory s.I (s.V X / 100)) (s.I + 1) ((s.V X / 10) % 10))
      (s.I + 2) (s.V X % 10) a = s.memory a
    rw [upd_other _ _ _ _ (by omega), upd_other _ _ _ _ (by omega),
      upd_other _ _ _ _ (by omega)]
  · rw [updateTimers_pc]
    exact Nat.mod_eq_of_lt (by show s.pc + 2 < 65536; omega)

/-- C19 at `F033` on the constructed machine with `V0 = 254` and `I = 0x300`: the bytes
written are 2, 5, 4. -/
theorem C19_bcd_witness :
    ∃ s', ({ chip8.withProgram [0xF0, 0x33] with I := 0x300, V := upd (fun _ => 0) 0 254 }
        : chip8).emulateCycle 0 = some s' ∧
      100 * s'.memory 0x300 + 10 * s'.memory 0x301 + s'.memory 0x302 = 254 ∧
      s'.memory 0x300 ≤ 2 ∧ s'.pc = 0x202 :=
  (C19_bcd 0 { chip8.withProgram [0xF0, 0x33] with I := 0x300, V := upd (fun _ => 0) 0 254 }
      0 (by decide) (by decide) (by decide) (by rfl)).imp
    fun _ h => ⟨h.1, h.2.2.2.2.1, h.2.1, h.2.2.2.2.2.2.2.2⟩

/-! ## Bulk store and load (FX55 / FX65) -/

theorem storeRegs_some (n : Nat) : ∀ (i : Nat) (s : chip8),
    s.I + i + n ≤ 4096 → ∃ e, storeRegs n i s = some e := by
  induction n with
  | zero => intro i s _; exact ⟨s, rfl⟩
  | succ n ih =>
    intro i s h
    have hb : s.I + i < 4096 := by omega
    rw [storeRegs]
    simp only [writeArr, if_pos hb, Option.some_bind]
    exact ih (i + 1) _ (by show s.I + (i + 1) + n ≤ 4096; omega)

theorem loadRegs_some (n : Nat) : ∀ (i : Nat) (s : chip8),
    s.I + i + n ≤ 4096 → ∃ e, loadRegs n i s = some e := by
  induction n with
  | zero => intro i s _; exact ⟨s, rfl⟩
  | succ n ih =>
    intro i s h
    have hb : s.I + i < 4096 := by omega
    rw [loadRegs]
    simp only [readArr, if_pos hb, Option.some_bind]
    exact ih (i + 1) _ (by show s.I + (i + 1) + n ≤ 4096; omega)

theorem execF_store (s : chip8) (X : Nat) (hX : X < 16) (hop : s.opcode = 0xF055 + 0x100 * X) :
    execF s = (storeRegs (X + 1) 0 s).map fun s1 => s1.advance 2 := by
  have hx : s.opcode / 256 % 16 = X := by omega
  have hn : s.opcode % 256 = 0x55 := by omega
  simp only [execF, land_0F00, land_00FF, hx, hn]
  rfl

theorem execF_load (s : chip8) (X : Nat) (hX : X < 16) (hop : s.opcode = 0xF065 + 0x100 * X) :
    execF s = (loadRegs (X + 1) 0 s).map fun s1 => s1.advance 2 := by
  have hx : s.opcode / 256 % 16 = X := by omega
  have hn : s.opcode % 256 = 0x65 := by omega
  simp only [execF, land_0F00, land_00FF, hx, hn]
  rfl

/-- The cycle on FX55 with `I + X < 4096`. -/
theorem store_cycle (rnd : Nat) (s : chip8) (X : Nat) (hX : X < 16) (hI : s.I + X < 4096)
    (hop : s.fetch = some (0xF055 + 0x100 * X)) :
    ∃ s', s.emulateCycle rnd = some s' ∧
      (∀ i, i ≤ X → s'.memory (s.I + i) = s.V i) ∧
      (∀ a, ¬ (s.I ≤ a ∧ a ≤ s.I + X) → s'.memory a = s.memory a) ∧
      s'.V = s.V ∧ s'.I = s.I ∧ s'.pc = s.pc + 2 := by
  have hpc := (wordAt_bounds _ _ _ hop).1
  have hd : (0xF055 + 0x100 * X) / 4096 % 16 = 15 := by omega
  obtain ⟨e, he⟩ := storeRegs_some (X + 1) 0 { s with opcode := 0xF055 + 0x100 * X }
    (by show s.I + 0 + (X + 1) ≤ 4096; omega)
  obtain ⟨m, hm, hout, hin⟩ := storeRegs_shape _ _ _ _ he
  rw [emulateCycle_of_fetch rnd s _ hop, execute_F _ _ hd, execF_store _ X hX rfl, he]
  subst hm
  simp only [Option.map_some']
  refine ⟨_, rfl, ?_, ?_, updateTimers_V _, updateTimers_I _, ?_⟩
  · intro i hi
    rw [updateTimers_memory]
    show m (s.I + i) = s.V i
    have h := (hin (s.I + i) (by show s.I + 0 ≤ s.I + i; omega)
      (by show s.I + i < s.I + 0 + (X + 1); omega)).2
    rw [h]
    show s.V (s.I + i - s.I) = s.V i
    congr 1
    omega
  · intro a ha
    rw [updateTimers_memory]
    show m a = s.memory a
    exact hout a (by show ¬ (s.I + 0 ≤ a ∧ a < s.I + 0 + (X + 1)); omega)
  · rw [updateTimers_pc]
    exact Nat.mod_eq_of_lt (by show s.pc + 2 < 65536; omega)

/-- The cycle on FX65 with `I + X < 4096`. -/
theorem load_cycle (rnd : Nat) (s : chip8) (X : Nat) (hX : X < 16) (hI : s.I + X < 4096)
    (hop : s.fetch = some (0xF065 + 0x100 * X)) :
    ∃ s', s.emulateCycle rnd = some s' ∧
      (∀ i, i ≤ X → s'.V i = s.memory (s.I + i)) ∧
      (∀ i, X < i → s'.V i = s.V i) ∧
      s'.memory = s.memory ∧ s'.I = s.I ∧ s'.pc = s.pc + 2 := by
  have hpc := (wordAt_bounds _ _ _ hop).1
  have hd : (0xF065 + 0x100 * X) / 4096 % 16 = 15 := by omega
  obtain ⟨e, he⟩ := loadRegs_some (X + 1) 0 { s with opcode := 0xF065 + 0x100 * X }
    (by show s.I + 0 + (X + 1) ≤ 4096; omega)
  obtain ⟨v, hv, hout, hin⟩ := loadRegs_shape _ _ _ _ he
  rw [emulateCycle_of_fetch rnd s _ hop, execute_F _ _ hd, execF_load _ X hX rfl, he]
  subst hv
  simp only [Option.map_some']
  refine ⟨_, rfl, ?_, ?_, updateTimers_memory _, updateTimers_I _, ?_⟩
  · intro i hi
    rw [updateTimers_V]
    exact (hin i (Nat.zero_le i) (by omega)).2
  · intro i hi
    rw [updateTimers_V]
    exact hout i (by omega)
  · rw [updateTimers_pc]
    exact Nat.mod_eq_of_lt (by show s.pc + 2 < 65536; omega)

/-- C20: with `I + X < 4096`, one cycle on FX55 sets `memory[I + i] = Vi` for every `i ≤ X`
and leaves every other memory byte, every register and `I` unchanged; one cycle on FX65 sets
`Vi = memory[I + i]` for every `i ≤ X` and leaves the registers above `X`, memory and `I`
unchanged.  Hence after an FX55, an FX65 with the same `X` executed in any state `t` with the
same `I` and the same bytes at `memory[I .. I+X]` sets `V0..VX` to the values stored. -/
theorem C20_store_load (rnd : Nat) (s : chip8) (X : Nat) (hX : X < 16)
    (hI : s.I + X < 4096) :
    (s.fetch = some (0xF055 + 0x100 * X) →
      ∃ s', s.emulateCycle rnd = some s' ∧
        (∀ i, i ≤ X → s'.memory (s.I + i) = s.V i) ∧
        (∀ a, ¬ (s.I ≤ a ∧ a ≤ s.I + X) → s'.memory a = s.memory a) ∧
        s'.V = s.V ∧ s'.I = s.I ∧ s'.pc = s.pc + 2 ∧
        (∀ (t : chip8) (rnd2 : Nat), t.I = s'.I →
          (∀ i, i ≤ X → t.memory (s.I + i) = s'.memory (s.I + i)) →
          t.fetch = some (0xF065 + 0x100 * X) →
          ∃ t', t.emulateCycle rnd2 = some t' ∧ ∀ i, i ≤ X → t'.V i = s.V i)) ∧
    (s.fetch = some (0xF065 + 0x100 * X) →
      ∃ s', s.emulateCycle rnd = some s' ∧
        (∀ i, i ≤ X → s'.V i = s.memory (s.I + i)) ∧
        (∀ i, i < 16 → X < i → s'.V i = s.V i) ∧
        s'.memory = s.memory ∧ s'.I = s.I ∧ s'.pc = s.pc + 2) := by
  constructor
  · intro hop
    obtain ⟨s', h, hmem, hout, hV, hI', hpc⟩ := store_cycle rnd s X hX hI hop
    refine ⟨s', h, hmem, hout, hV, hI', hpc, ?_⟩
    intro t rnd2 htI htmem htop
    have htI' : t.I = s.I := htI.trans hI'
    obtain ⟨t', ht, hload, -⟩ := load_cycle rnd2 t X hX (by rw [htI']; exact hI) htop
    refine ⟨t', ht, ?_⟩
    intro i hi
    rw [hload i hi, htI', htmem i hi, hmem i hi]
  · intro hop
    obtain ⟨s', h, hload, hrest, hmem, hI', hpc⟩ := load_cycle rnd s X hX hI hop
    exact ⟨s', h, hload, fun i _ hi => hrest i hi, hmem, hI', hpc⟩

/-- C20 at `F155` with `V0 = 7`, `V1 = 9`, `I = 0x300`, and at `F165` with `I` at the font
table, both on the constructed machine. -/
theorem C20_store_load_witness :
    (∃ s', ({ chip8.withProgram [0xF1, 0x55] with
              I := 0x300, V := upd (upd (fun _ => 0) 0 7) 1 9 } : chip8).emulateCycle 0 = some s' ∧
      s'.memory 0x300 = 7 ∧ s'.memory 0x301 = 9 ∧ s'.I = 0x300) ∧
    (∃ s', ({ chip8.withProgram [0xF1, 0x65] with I := 0x50 } : chip8).emulateCycle 0 = some s' ∧
      s'.V 0 = 0xF0 ∧ s'.V 1 = 0x90 ∧ s'.V 2 = 0) :=
  ⟨((C20_store_load 0
      { chip8.withProgram [0xF1, 0x55] with I := 0x300, V := upd (upd (fun _ => 0) 0 7) 1 9 }
      1 (by decide) (by decide)).1 (by rfl)).imp
      fun _ h => ⟨h.1, h.2.1 0 (by decide), h.2.1 1 (by decide), h.2.2.2.2.1⟩,
   ((C20_store_load 0 { chip8.withProgram [0xF1, 0x65] with I := 0x50 }
      1 (by decide) (by decide)).2 (by rfl)).imp
      fun _ h => ⟨h.1, (h.2.1 0 (by decide)).trans (by rfl), (h.2.1 1 (by decide)).trans (by rfl),
        h.2.2.1 2 (by decide) (by decide)⟩⟩

/-! ## The font table after construction -/

theorem ctor_fontIntact : fontIntact chip8.ctor := by
  intro d k hd hk
  have hr : 0x50 ≤ 0x50 + 5 * d + k ∧ 0x50 + 5 * d + k < 0xA0 := by omega
  have hlen : 5 * d + k < chip8_fontset.length := by
    have : chip8_fontset.length = 80 := rfl
    omega
  have hidx : 0x50 + 5 * d + k - 0x50 = 5 * d + k := by omega
  rw [ctor_memory, if_pos hr, hidx, List.getD_eq_getElem _ _ hlen, List.getElem?_eq_getElem hlen]

theorem fontIntact_of_memory_eq (s s' : chip8) (h : fontIntact s)
    (hmem : ∀ a, 0x50 ≤ a → a < 0xA0 → s'.memory a = s.memory a) : fontIntact s' := by
  intro d k hd hk
  rw [hmem _ (by omega) (by omega)]
  exact h d k hd hk

/-- The cycle on ANNN: `I = NNN`, `pc` two further, memory and registers as before. -/
theorem setI_cycle (rnd : Nat) (s : chip8) (NNN : Nat) (hN : NNN < 4096)
    (hop : s.fetch = some (0xA000 + NNN)) :
    ∃ s', s.emulateCycle rnd = some s' ∧ s'.I = NNN ∧ s'.pc = s.pc + 2 ∧
      s'.memory = s.memory ∧ s'.V = s.V := by
  have hpc := (wordAt_bounds _ _ _ hop).1
  have hd : (0xA000 + NNN) / 4096 % 16 = 10 := by omega
  have hn : (0xA000 + NNN) % 4096 = NNN := by omega
  rw [emulateCycle_of_fetch rnd s _ hop, execute_A _ _ hd, Option.map_some']
  refine ⟨_, rfl, ?_, ?_, updateTimers_memory _, updateTimers_V _⟩
  · rw [updateTimers_I]
    exact hn
  · rw [updateTimers_pc]
    exact Nat.mod_eq_of_lt (by show s.pc + 2 < 65536; omega)

/-- C16 as the code has it: the font table is in place after construction and is kept by
`loadROM` (whatever the ROM), by keypad updates and by every cycle whose instruction is not an
FX33 or FX55 that stores into `[0x50, 0xA0)` (FX33 writes `memory[I .. I+2]`, FX55 writes
`memory[I .. I+X]`, wherever `I` points). -/
theorem C16_font_table (s : chip8) (hfont : fontIntact s) :
    fontIntact chip8.ctor ∧
    (∀ rom, fontIntact (s.loadROM rom).2) ∧
    (∀ k pressed s', s.setKey k pressed = some s' → fontIntact s') ∧
    (∀ rnd s', s.emulateCycle rnd = some s' →
      ∃ op, s.fetch = some op ∧
        ((∀ a, 0x50 ≤ a → a < 0xA0 → ¬ storesInto { s with opcode := op } a) →
          fontIntact s')) := by
  refine ⟨ctor_fontIntact, ?_, ?_, ?_⟩
  · intro rom
    exact fontIntact_of_memory_eq s _ hfont
      (fun a _ h2 => (loadROM_frame s rom).2.2 a (by omega))
  · intro k pressed s' h
    obtain ⟨-, -, hmem, -⟩ := setKey_frame s s' k pressed h
    exact fontIntact_of_memory_eq s s' hfont (fun a _ _ => by rw [hmem])
  · intro rnd s' h
    obtain ⟨-, -, op, hop, -, hmem⟩ := emulateCycle_frame rnd s s' h
    exact ⟨op, hop, fun hno =>
      fontIntact_of_memory_eq s s' hfont (fun a h1 h2 => hmem a (hno a h1 h2))⟩

/-- C16 at the constructed machine: the font table is still in place after a ROM is
loaded. -/
theorem C16_font_table_witness : fontIntact (chip8.ctor.loadROM (some [0xA0, 0x50])).2 :=
  (C16_font_table chip8.ctor ctor_fontIntact).2.1 (some [0xA0, 0x50])

/-- C16 as stated fails: the four-byte program `A050 F055` loaded into the constructed
machine sets `I = 0x50` and then stores `V0 = 0` at `memory[0x50]`, the first byte of the
glyph of 0, which is 0xF0 in the font table. -/
theorem C16_font_table_counterexample :
    ∃ s1 s2, (chip8.withProgram [0xA0, 0x50, 0xF0, 0x55]).emulateCycle 0 = some s1 ∧
      s1.emulateCycle 0 = some s2 ∧ s2.memory 0x50 = 0 ∧
      chip8_fontset[5 * 0 + 0]? = some 0xF0 ∧ ¬ fontIntact s2 := by
  obtain ⟨s1, h1, hI1, hpc1, hmem1, hV1⟩ :=
    setI_cycle 0 (chip8.withProgram [0xA0, 0x50, 0xF0, 0x55]) 0x50 (by decide) (by rfl)
  have hf : s1.fetch = some (0xF055 + 0x100 * 0) := by
    unfold chip8.fetch
    rw [hmem1, hpc1]
    rfl
  obtain ⟨s2, h2, hst, -⟩ := store_cycle 0 s1 0 (by decide) (by rw [hI1]; decide) hf
  have hbyte : s2.memory 0x50 = 0 := by
    have h := hst 0 (Nat.le_refl 0)
    rw [hI1, hV1] at h
    exact h
  refine ⟨s1, s2, h1, h2, hbyte, rfl, ?_⟩
  intro hfont
  have h := hfont 0 0 (by decide) (by decide)
  rw [show (0x50 + 5 * 0 + 0 : Nat) = 0x50 from rfl, hbyte] at h
  exact absurd h (by decide)

/-! ## The framebuffer holds zeros and ones -/

theorem plot_gfxBinary (x y row col : Nat) (s e : chip8) (h : plot x y row col s = some e)
    (hb : gfxBinary s) : gfxBinary e := by
  rw [plot_eq, Option.some.injEq] at h
  subst h
  intro i hi
  show upd s.gfx (pixIndex x y row col) ((s.gfx (pixIndex x y row col) ^^^ 1) % 256) i = 0 ∨
    upd s.gfx (pixIndex x y row col) ((s.gfx (pixIndex x y row col) ^^^ 1) % 256) i = 1
  by_cases hidx : i = pixIndex x y row col
  · rw [hidx, upd_same]
    rcases hb _ (pixIndex_lt x y row col) with h0 | h1
    · rw [h0]; exact Or.inr rfl
    · rw [h1]; exact Or.inl rfl
  · rw [upd_other _ _ _ _ hidx]
    exact hb i hi

theorem drawCols_gfxBinary (x y row spriteByte : Nat) (n : Nat) : ∀ (col : Nat) (s e : chip8),
    drawCols x y row spriteByte n col s = some e → gfxBinary s → gfxBinary e := by
  induction n with
  | zero =>
    intro col s e h hb
    simp only [drawCols, Option.some.injEq] at h
    subst h
    exact hb
  | succ n ih =>
    intro col s e h hb
    rw [drawCols] at h
    by_cases hbit : spriteByte &&& (0x80 >>> col) ≠ 0
    · rw [if_pos hbit] at h
      obtain ⟨s1, h1, h2⟩ := Option.bind_eq_some.mp h
      exact ih _ _ _ h2 (plot_gfxBinary _ _ _ _ _ _ h1 hb)
    · rw [if_neg hbit] at h
      exact ih _ _ _ h hb

theorem drawRows_gfxBinary (x y : Nat) (n : Nat) : ∀ (row : Nat) (s e : chip8),
    drawRows x y n row s = some e → gfxBinary s → gfxBinary e := by
  induction n with
  | zero =>
    intro row s e h hb
    simp only [drawRows, Option.some.injEq] at h
    subst h
    exact hb
  | succ n ih =>
    intro row s e h hb
    rw [drawRows] at h
    obtain ⟨b, -, h⟩ := Option.bind_eq_some.mp h
    obtain ⟨s1, h1, h2⟩ := Option.bind_eq_some.mp h
    exact ih _ _ _ h2 (drawCols_gfxBinary _ _ _ _ _ _ _ _ h1 hb)

theorem exec0_gfxBinary (s e : chip8) (h : exec0 s = some e) (hb : gfxBinary s) :
    gfxBinary e := by
  unfold exec0 at h
  by_cases hE0 : s.opcode &&& 0x00FF = 0x00E0
  · rw [if_pos hE0] at h
    simp only [Option.some.injEq] at h; subst h
    intro i hi
    show memsetArr 2048 s.gfx 0 i = 0 ∨ memsetArr 2048 s.gfx 0 i = 1
    unfold memsetArr
    rw [if_pos hi]
    exact Or.inl rfl
  rw [if_neg hE0] at h
  by_cases hEE : s.opcode &&& 0x00FF = 0x00EE
  · rw [if_pos hEE] at h
    obtain ⟨r, -, h⟩ := Option.map_eq_some'.mp h
    subst h
    exact hb
  rw [if_neg hEE] at h
  simp only [Option.some.injEq] at h; subst h
  exact hb

theorem execD_gfxBinary (s e : chip8) (h : execD s = some e) (hb : gfxBinary s) :
    gfxBinary e := by
  unfold execD at h
  obtain ⟨s1, h1, h⟩ := Option.map_eq_some'.mp h
  have h2 := drawRows_gfxBinary _ _ _ _ _ _ h1 hb
  subst h
  exact h2

theorem execF_gfx (s e : chip8) (h : execF s = some e) : e.gfx = s.gfx := by
  unfold execF at h
  simp only [land_0F00, land_00FF, land_0FFF, land_000F] at h
  by_cases h07 : s.opcode % 256 = 0x07
  · rw [if_pos h07] at h
    simp only [Option.some.injEq] at h; subst h; rfl
  rw [if_neg h07] at h
  by_cases h15 : s.opcode % 256 = 0x15
  · rw [if_pos h15] at h
    simp only [Option.some.injEq] at h; subst h; rfl
  rw [if_neg h15] at h
  by_cases h18 : s.opcode % 256 = 0x18
  · rw [if_pos h18] at h
    simp only [Option.some.injEq] at h; subst h; rfl
  rw [if_neg h18] at h
  by_cases h1E : s.opcode % 256 = 0x1E
  · rw [if_pos h1E] at h
    simp only [Option.some.injEq] at h; subst h; rfl
  rw [if_neg h1E] at h
  by_cases h0A : s.opcode % 256 = 0x0A
  · rw [if_pos h0A] at h
    cases hk : scanKeys s.key 16 0 with
    | none => rw [hk] at h; simp only [Option.some.injEq] at h; subst h; rfl
    | some k => rw [hk] at h; simp only [Option.some.injEq] at h; subst h; rfl
  rw [if_neg h0A] at h
  by_cases h29 : s.opcode % 256 = 0x29
  · rw [if_pos h29] at h
    simp only [Option.some.injEq] at h; subst h; rfl
  rw [if_neg h29] at h
  by_cases h33 : s.opcode % 256 = 0x33
  · rw [if_pos h33] at h
    obtain ⟨m1, -, h⟩ := Option.bind_eq_some.mp h
    obtain ⟨m2, -, h⟩ := Option.bind_eq_some.mp h
    obtain ⟨m3, -, h⟩ := Option.map_eq_some'.mp h
    subst h; rfl
  rw [if_neg h33] at h
  by_cases h55 : s.opcode % 256 = 0x55
  · rw [if_pos h55] at h
    obtain ⟨s1, h1, h⟩ := Option.map_eq_some'.mp h
    obtain ⟨m, e1, -, -⟩ := storeRegs_shape _ _ _ _ h1
    subst h; subst e1; rfl
  rw [if_neg h55] at h
  by_cases h65 : s.opcode % 256 = 0x65
  · rw [if_pos h65] at h
    obtain ⟨s1, h1, h⟩ := Option.map_eq_some'.mp h
    obtain ⟨v, e1, -, -⟩ := loadRegs_shape _ _ _ _ h1
    subst h; subst e1; rfl
  rw [if_neg h65] at h
  simp only [Option.some.injEq] at h; subst h; rfl

/-- The execute phase keeps the framebuffer binary: only CLS (all zeros) and DXYN (XOR of a
binary cell with 1) write it. -/
theorem execute_gfxBinary (rnd : Nat) (s e : chip8) (h : chip8.execute rnd s = some e)
    (hb : gfxBinary s) : gfxBinary e := by
  have hlt : s.opcode / 4096 % 16 < 16 := Nat.mod_lt _ (by decide)
  by_cases h0 : s.opcode / 4096 % 16 = 0
  · rw [execute_0 _ _ h0] at h
    exact exec0_gfxBinary s e h hb
  by_cases h2 : s.opcode / 4096 % 16 = 2
  · rw [execute_2 _ _ h2] at h
    obtain ⟨st, -, h⟩ := Option.map_eq_some'.mp h
    subst h
    exact hb
  by_cases h8 : s.opcode / 4096 % 16 = 8
  · rw [execute_8 _ _ h8] at h
    simp only [Option.some.injEq] at h
    subst h
    intro i hi
    rw [(exec8_frame s).2.2.2.2.2]
    exact hb i hi
  by_cases hD : s.opcode / 4096 % 16 = 13
  · rw [execute_D _ _ hD] at h
    exact execD_gfxBinary s e h hb
  by_cases hE : s.opcode / 4096 % 16 = 14
  · rw [execute_E _ _ hE] at h
    intro i hi
    rw [(execE_frame s e h).2.2.2.2.2.2]
    exact hb i hi
  by_cases hF : s.opcode / 4096 % 16 = 15
  · rw [execute_F _ _ hF] at h
    intro i hi
    rw [execF_gfx s e h]
    exact hb i hi
  generalize hq : s.opcode / 4096 % 16 = q at h0 h2 h8 hD hE hF hlt
  unfold chip8.execute at h
  simp only [land_F000, land_0FFF, hq] at h
  interval_cases q
  all_goals simp only [Nat.reduceMul, Nat.reduceEqDiff, if_true, if_false] at h
  all_goals first
    | exact absurd rfl h0
    | exact absurd rfl h2
    | exact absurd rfl h8
    | exact absurd rfl hD
    | exact absurd rfl hE
    | exact absurd rfl hF
    | (simp only [Option.some.injEq] at h; subst h; exact hb)
    | (simp only [Option.some.injEq] at h; subst h; split_ifs <;> exact hb)
    | (split_ifs at h <;> simp only [Option.some.injEq] at h <;> subst h <;> exact hb)

theorem emulateCycle_gfxBinary (rnd : Nat) (s s' : chip8) (h : s.emulateCycle rnd = some s')
    (hb : gfxBinary s) : gfxBinary s' := by
  obtain ⟨op, e, -, he, hs'⟩ := emulateCycle_some rnd s s' h
  have h1 := execute_gfxBinary rnd _ e he hb
  subst hs'
  intro i hi
  rw [updateTimers_gfx]
  exact h1 i hi

theorem loadROM_gfx (s : chip8) (rom : Option (List Nat)) : (s.loadROM rom).2.gfx = s.gfx := by
  cases rom with
  | none => rfl
  | some buffer =>
    by_cases hlen : buffer.length > 4096 - 0x200
    · have hload : s.loadROM (some buffer) = (.error LoadError.tooLarge, s) := by
        simp only [chip8.loadROM, if_pos hlen]
      rw [hload]
    · have hload : s.loadROM (some buffer) =
          (.ok (), { s with memory := copyROM buffer 0 s.memory }) := by
        simp only [chip8.loadROM, if_neg hlen]
      rw [hload]

theorem Reachable.binary {s : chip8} (h : Reachable s) : gfxBinary s := by
  induction h with
  | ctor => exact fun _ _ => Or.inl rfl
  | loadROM s rom _ ih =>
    intro i hi
    rw [loadROM_gfx]
    exact ih i hi
  | setKey s s' k pressed _ hk ih =>
    intro i hi
    rw [(setKey_frame s s' k pressed hk).2.2.2.2.2.1]
    exact ih i hi
  | resetDrawFlag s _ ih => exact ih
  | emulateCycle s s' rnd _ hs ih => exact emulateCycle_gfxBinary rnd s s' hs ih

/-- C21: in every reachable state each of the 2048 framebuffer cells is 0 or 1, so the
collision test `gfx[index] == 1` is the same as `gfx[index] != 0`; and for every `VX`, `VY`
in 0..255, `row < 16` and `col < 8` the index `px + py * 64` that DXYN computes is below
2048, so the read and the write of `gfx[index]` in the draw loop are inside the array
whatever the state. -/
theorem C21_framebuffer_binary (s : chip8) (h : Reachable s) :
    (∀ i, i < 2048 → s.gfx i = 0 ∨ s.gfx i = 1) ∧
    (∀ i, i < 2048 → (s.gfx i = 1 ↔ s.gfx i ≠ 0)) ∧
    (∀ x y row col, x < 256 → y < 256 → row < 16 → col < 8 →
      pixIndex x y row col = (x + col) % 64 + 64 * ((y + row) % 32) ∧
      pixIndex x y row col < 2048 ∧
      readArr 2048 s.gfx (pixIndex x y row col) = some (s.gfx (pixIndex x y row col)) ∧
      ∃ e, plot x y row col s = some e) := by
  have hb := h.binary
  refine ⟨hb, ?_, ?_⟩
  · intro i hi
    rcases hb i hi with h0 | h1
    · rw [h0]; decide
    · rw [h1]; decide
  · intro x y row col _ _ _ _
    have hlt := pixIndex_lt x y row col
    refine ⟨?_, hlt, ?_, _, plot_eq x y row col s⟩
    · unfold pixIndex
      omega
    · simp only [readArr, if_pos hlt]

/-- C21 at the program `A050 D005` on the constructed machine: after `I` is set to the glyph
of 0 and the glyph is drawn, cell 0 holds 0 or 1. -/
theorem C21_framebuffer_binary_witness :
    ∃ s1 s2, (chip8.withProgram [0xA0, 0x50, 0xD0, 0x05]).emulateCycle 0 = some s1 ∧
      s1.emulateCycle 0 = some s2 ∧ (s2.gfx 0 = 0 ∨ s2.gfx 0 = 1) ∧
      pixIndex 255 255 15 7 < 2048 := by
  have hr0 : Reachable (chip8.withProgram [0xA0, 0x50, 0xD0, 0x05]) :=
    Reachable.loadROM _ _ Reachable.ctor
  obtain ⟨s1, h1, hI1, hpc1, hmem1, -⟩ :=
    setI_cycle 0 (chip8.withProgram [0xA0, 0x50, 0xD0, 0x05]) 0x50 (by decide) (by rfl)
  have hr1 : Reachable s1 := Reachable.emulateCycle _ s1 0 hr0 h1
  have hf : s1.fetch = some (0xD000 + 0x100 * 0 + 0x10 * 0 + 5) := by
    unfold chip8.fetch
    rw [hmem1, hpc1]
    rfl
  obtain ⟨s2, h2, -⟩ := draw_cycle 0 s1 0 0 5 (by decide) (by decide) (by decide)
    (C21_framebuffer_binary s1 hr1).1 (by rw [hI1]; decide) hf
  have hr2 : Reachable s2 := Reachable.emulateCycle _ s2 0 hr1 h2
  exact ⟨s1, s2, h1, h2, (C21_framebuffer_binary s2 hr2).1 0 (by decide),
    ((C21_framebuffer_binary s2 hr2).2.2 255 255 15 7 (by decide) (by decide) (by decide)
      (by decide)).2.1⟩
